import Mathlib

/-!
# BLS12-381 twist group G2: serialization and group law

A shallow embedding of `g2.go`.  The group code (package `bls12381`, type `G2`)
is translated function by function.  The field layer it calls (`fp.go`,
`fp2.go`) and the curve constants are not part of the translated sources; they
are modelled from the specification and every such definition says so.

Conventions
* a field element `fe` (six 64-bit limbs in the source) is the natural number
  the limbs hold; it stores the Montgomery representative `a * R mod p` with
  `R = 2 ^ 384`;
* a byte is a natural number, byte slices are lists;
* in-place updates of a destination argument become returned values; the
  scratch registers `t[0..8]` become `let` bindings with the source's numbering.
-/

namespace Bls12381

/-! ## Constants -/

/-- Modelled from the spec: an `Fp2` element is an ordered pair `(c0, c1)` of
`Fp` elements standing for `c0 + c1 * u`; each component is the value of the
six-limb array `fe` of the source. -/
structure fe2 where
  c0 : Nat
  c1 : Nat
deriving DecidableEq, Repr

deriving instance DecidableEq for Except

/-- Modelled from the spec: the read-only curve constants fixed at process
start (modulus `p`, Montgomery inverse of `R`, twist coefficient `b2`, prime
group order `q`).  Their values live outside the translated sources. -/
structure Consts where
  p : Nat
  rinv : Nat
  b2 : fe2
  q : Nat
deriving DecidableEq, Repr

/-- Montgomery radix `2 ^ 384`: six limbs of 64 bits. -/
def R : Nat :=
  39402006196394479212279040100143613805079739270465446667948293404245721771497210611414266254884915640806627990306816

/-- Halving loop of `bitLen`; the first argument bounds the number of steps. -/
def bitLenAux : Nat → Nat → Nat
  | 0, _ => 0
  | fuel + 1, e => if e = 0 then 0 else bitLenAux fuel (e / 2) + 1

/-- Bit length of a big integer (`big.Int.BitLen`): the number of binary
digits of `e`, `0` for `e = 0`. -/
def bitLen (e : Nat) : Nat := bitLenAux e e

/-! ## Base field `Fp` (modelled from the spec) -/

/-- Modelled from the spec: addition, "conditionally subtract the modulus once". -/
def add (c : Consts) (a b : Nat) : Nat :=
  if c.p ≤ a + b then a + b - c.p else a + b

/-- Modelled from the spec: doubling, `2a = a + a`. -/
def double (c : Consts) (a : Nat) : Nat := add c a a

/-- Modelled from the spec: subtraction, "conditionally add the modulus once". -/
def sub (c : Consts) (a b : Nat) : Nat :=
  if b ≤ a then a - b else a + c.p - b

/-- Modelled from the spec: negation, with `-0 = 0`. -/
def neg (c : Consts) (a : Nat) : Nat :=
  if a = 0 then 0 else c.p - a

/-- Modelled from the spec: Montgomery multiplication, the canonical
representative of `a * b * R⁻¹`. -/
def mul (c : Consts) (a b : Nat) : Nat := (a * b * c.rinv) % c.p

/-- Modelled from the spec: squaring. -/
def square (c : Consts) (a : Nat) : Nat := mul c a a

/-- Modelled from the spec: the fixed constant one, `R mod p` in Montgomery form. -/
def one (c : Consts) : Nat := R % c.p

/-- Modelled from the spec: conversion into Montgomery form (multiply by `R² mod p`). -/
def toMont (c : Consts) (a : Nat) : Nat := mul c a (R * R % c.p)

/-- Modelled from the spec: conversion out of Montgomery form (multiply by the
plain integer one), giving the canonical integer. -/
def fromMont (c : Consts) (a : Nat) : Nat := mul c a 1

/-- Modelled from the spec: "conversion to arbitrary-precision integer", the
canonical integer in `[0, p)` that the element stands for. -/
def toBig (c : Consts) (a : Nat) : Nat := fromMont c a

/-- Square-and-multiply loop of `exp`, most significant bit first: `i` bits remain. -/
def expLoop (c : Consts) (a e : Nat) : Nat → Nat → Nat
  | 0, z => z
  | i + 1, z =>
    let z := square c z
    let z := if e.testBit i then mul c z a else z
    expLoop c a e i z

/-- Modelled from the spec: exponentiation by an arbitrary-precision exponent,
"square-and-multiply from most-significant bit to least; exponent 0 yields the
multiplicative identity". -/
def exp (c : Consts) (a e : Nat) : Nat := expLoop c a e (bitLen e) (one c)

/-- Modelled from the spec: inversion by Fermat, `a^(p-2)`, with `inverse 0 = 0`. -/
def inverse (c : Consts) (a : Nat) : Nat := exp c a (c.p - 2)

/-- Big-endian bytes of `v`, `n` of them. -/
def toBE : Nat → Nat → List Nat
  | 0, _ => []
  | n + 1, v => toBE n (v / 256) ++ [v % 256]

/-- Big-endian value of a byte string. -/
def fromBE (bs : List Nat) : Nat := bs.foldl (fun acc b => acc * 256 + b) 0

/-- Modelled from the spec: byte encoding, "fixed 48 bytes, big-endian,
representing the canonical residue". -/
def toBytes (c : Consts) (a : Nat) : List Nat := toBE 48 (fromMont c a)

/-- Modelled from the spec: byte decoding, "decoding fails if the 48-byte value
is ≥ p"; a wrong length is a decode failure. -/
def fromBytes (c : Consts) (bs : List Nat) : Except String Nat :=
  if bs.length ≠ 48 then .error "input string should be equal 48 bytes"
  else if c.p ≤ fromBE bs then .error "must be less than modulus"
  else .ok (toMont c (fromBE bs))

/-! ## Quadratic extension `Fp2` (modelled from the spec) -/

namespace fp2

/-- Modelled from the spec: the zero element. -/
def zero : fe2 := ⟨0, 0⟩

/-- Modelled from the spec: the one element, `(1, 0)` in Montgomery form. -/
def one (c : Consts) : fe2 := ⟨Bls12381.one c, 0⟩

/-- Modelled from the spec: `isZero`, all limbs of both components are zero. -/
def isZero (a : fe2) : Bool := a.c0 == 0 && a.c1 == 0

/-- Modelled from the spec: equality is component-wise equality. -/
def equal (a b : fe2) : Bool := a.c0 == b.c0 && a.c1 == b.c1

/-- Modelled from the spec: component-wise addition. -/
def add (c : Consts) (a b : fe2) : fe2 :=
  ⟨Bls12381.add c a.c0 b.c0, Bls12381.add c a.c1 b.c1⟩

/-- Modelled from the spec: component-wise doubling. -/
def double (c : Consts) (a : fe2) : fe2 :=
  ⟨Bls12381.double c a.c0, Bls12381.double c a.c1⟩

/-- Modelled from the spec: component-wise subtraction. -/
def sub (c : Consts) (a b : fe2) : fe2 :=
  ⟨Bls12381.sub c a.c0 b.c0, Bls12381.sub c a.c1 b.c1⟩

/-- Modelled from the spec: component-wise negation. -/
def neg (c : Consts) (a : fe2) : fe2 :=
  ⟨Bls12381.neg c a.c0, Bls12381.neg c a.c1⟩

/-- Modelled from the spec: "Karatsuba-style 3-multiplication formula over the
two Fp components", reduced by `u² = -1` (the BLS12-381 non-residue). -/
def mul (c : Consts) (a b : fe2) : fe2 :=
  let t0 := Bls12381.mul c a.c0 b.c0
  let t1 := Bls12381.mul c a.c1 b.c1
  let t2 := Bls12381.add c a.c0 a.c1
  let t3 := Bls12381.add c b.c0 b.c1
  let t4 := Bls12381.mul c t2 t3
  ⟨Bls12381.sub c t0 t1, Bls12381.sub c (Bls12381.sub c t4 t0) t1⟩

/-- Modelled from the spec: "a specialized 2-multiplication formula":
`(a0 + a1)(a0 - a1) + 2 a0 a1 u`. -/
def square (c : Consts) (a : fe2) : fe2 :=
  let t0 := Bls12381.add c a.c0 a.c1
  let t1 := Bls12381.sub c a.c0 a.c1
  let t2 := Bls12381.double c a.c0
  ⟨Bls12381.mul c t0 t1, Bls12381.mul c t2 a.c1⟩

/-- Modelled from the spec: inversion "via the field norm
`N(a) = a0² − non-residue·a1²`, then `a⁻¹ = conjugate(a) / N(a)`". -/
def inverse (c : Consts) (a : fe2) : fe2 :=
  let t0 := Bls12381.square c a.c0
  let t1 := Bls12381.square c a.c1
  let t0 := Bls12381.add c t0 t1
  let t0 := Bls12381.inverse c t0
  ⟨Bls12381.mul c a.c0 t0, Bls12381.neg c (Bls12381.mul c a.c1 t0)⟩

/-- Copy of a value (`copy(dst, src)` in the source). -/
def copy (a : fe2) : fe2 := a

/-- Modelled from the spec: both components leave Montgomery form. -/
def fromMont (c : Consts) (a : fe2) : fe2 :=
  ⟨Bls12381.fromMont c a.c0, Bls12381.fromMont c a.c1⟩

/-- Square-and-multiply loop of `fp2.exp`, most significant bit first. -/
def expLoop (c : Consts) (a : fe2) (e : Nat) : Nat → fe2 → fe2
  | 0, z => z
  | i + 1, z =>
    let z := square c z
    let z := if e.testBit i then mul c z a else z
    expLoop c a e i z

/-- Modelled from the spec: exponentiation, square-and-multiply from the most
significant bit, `a^0 = 1`. -/
def exp (c : Consts) (a : fe2) (e : Nat) : fe2 := expLoop c a e (bitLen e) (one c)

/-- Modelled from the spec: "a dedicated algorithm for extension-field square
roots", here the `p ≡ 3 (mod 4)` algorithm of Adj and Rodríguez-Henríquez,
which proposes a candidate root. -/
def sqrtCandidate (c : Consts) (a : fe2) : fe2 :=
  let a1 := exp c a ((c.p - 3) / 4)
  let alpha := mul c (square c a1) a
  let x0 := mul c a1 a
  if equal alpha (neg c (one c)) then ⟨Bls12381.neg c x0.c1, x0.c0⟩
  else mul c (exp c (add c alpha (one c)) ((c.p - 1) / 2)) x0

/-- Modelled from the spec: the square root "must report failure (boolean) for
non-residues, verified by re-squaring the candidate". -/
def sqrt (c : Consts) (a : fe2) : Option fe2 :=
  let cand := sqrtCandidate c a
  if equal (square c cand) a then some cand else none

/-- Modelled from the spec: "96 bytes = 48 (c1) ++ 48 (c0) in that
concatenation order". -/
def toBytes (c : Consts) (a : fe2) : List Nat :=
  Bls12381.toBytes c a.c1 ++ Bls12381.toBytes c a.c0

/-- Modelled from the spec: decoding of 96 bytes, `c1` first; a wrong length
or a component `≥ p` is a decode failure. -/
def fromBytes (c : Consts) (bs : List Nat) : Except String fe2 :=
  if bs.length ≠ 96 then .error "input string should be equal 96 bytes"
  else
    match Bls12381.fromBytes c (bs.take 48) with
    | .error e => .error e
    | .ok c1 =>
      match Bls12381.fromBytes c (bs.drop 48) with
      | .error e => .error e
      | .ok c0 => .ok ⟨c0, c1⟩

end fp2

/-! ## The group `G2` (translated from `g2.go`) -/

/-- The type `PointG2 [3]fe2`: Jacobian coordinates `p[0]`, `p[1]`, `p[2]`. -/
structure PointG2 where
  x : fe2
  y : fe2
  z : fe2
deriving DecidableEq, Repr

/-- What a call can do that returns `(*PointG2, error)`: return a value, return
an error, or stop the process with `panic`. -/
inductive Outcome (α : Type) where
  | ok (a : α)
  | error (msg : String)
  | panic (msg : String)
deriving DecidableEq, Repr

namespace G2

/-- The zero value `&PointG2{}`: every limb is zero. -/
def empty : PointG2 := ⟨fp2.zero, fp2.zero, fp2.zero⟩

/-- The method `Zero`: the point at infinity `(0, 1, 0)`. -/
def Zero (c : Consts) : PointG2 := ⟨fp2.zero, fp2.one c, fp2.zero⟩

/-- Modelled from the spec: the constant `infinity2`, the identity in its
canonical representation `(0, 1, 0)`. -/
def infinity2 (c : Consts) : PointG2 := ⟨fp2.zero, fp2.one c, fp2.zero⟩

/-- The method `New`. -/
def New (c : Consts) : PointG2 := Zero c

/-- The method `Copy` (all six field elements are copied by `Set`). -/
def Copy (src : PointG2) : PointG2 := ⟨⟨src.x.c0, src.x.c1⟩, ⟨src.y.c0, src.y.c1⟩, ⟨src.z.c0, src.z.c1⟩⟩

/-- The method `IsZero`. -/
def IsZero (p : PointG2) : Bool := fp2.isZero p.z

/-- The method `Equal`. -/
def Equal (c : Consts) (p1 p2 : PointG2) : Bool :=
  if IsZero p1 then IsZero p2
  else if IsZero p2 then IsZero p1
  else
    let t0 := fp2.square c p1.z
    let t1 := fp2.square c p2.z
    let t2 := fp2.mul c t0 p2.x
    let t3 := fp2.mul c t1 p1.x
    let t0 := fp2.mul c t0 p1.z
    let t1 := fp2.mul c t1 p2.z
    let t1 := fp2.mul c t1 p1.y
    let t0 := fp2.mul c t0 p2.y
    fp2.equal t0 t1 && fp2.equal t2 t3

/-- The method `IsOnCurve`. -/
def IsOnCurve (c : Consts) (p : PointG2) : Bool :=
  if IsZero p then true
  else
    let t0 := fp2.square c p.y
    let t1 := fp2.square c p.x
    let t1 := fp2.mul c t1 p.x
    let t2 := fp2.square c p.z
    let t3 := fp2.square c t2
    let t2 := fp2.mul c t2 t3
    let t2 := fp2.mul c c.b2 t2
    let t1 := fp2.add c t1 t2
    fp2.equal t0 t1

/-- The method `IsAffine`. -/
def IsAffine (c : Consts) (p : PointG2) : Bool := fp2.equal p.z (fp2.one c)

/-- The method `Affine`; the source updates `p` in place and returns it. -/
def Affine (c : Consts) (p : PointG2) : PointG2 :=
  if IsZero p then p
  else if !IsAffine c p then
    let t0 := fp2.inverse c p.z
    let t1 := fp2.square c t0
    let px := fp2.mul c p.x t1
    let t0 := fp2.mul c t0 t1
    let py := fp2.mul c p.y t0
    ⟨px, py, fp2.copy (fp2.one c)⟩
  else p

/-- The method `Double`. -/
def Double (c : Consts) (p : PointG2) : PointG2 :=
  if IsZero p then Copy p
  else
    let t0 := fp2.square c p.x
    let t1 := fp2.square c p.y
    let t2 := fp2.square c t1
    let t1 := fp2.add c p.x t1
    let t1 := fp2.square c t1
    let t1 := fp2.sub c t1 t0
    let t1 := fp2.sub c t1 t2
    let t1 := fp2.double c t1
    let t3 := fp2.double c t0
    let t0 := fp2.add c t3 t0
    let t4 := fp2.square c t0
    let t3 := fp2.double c t1
    let r0 := fp2.sub c t4 t3
    let t1 := fp2.sub c t1 r0
    let t2 := fp2.double c t2
    let t2 := fp2.double c t2
    let t2 := fp2.double c t2
    let t0 := fp2.mul c t0 t1
    let t1 := fp2.sub c t0 t2
    let t0 := fp2.mul c p.y p.z
    let r1 := fp2.copy t1
    let r2 := fp2.double c t0
    ⟨r0, r1, r2⟩

/-- The method `Add`. -/
def Add (c : Consts) (p1 p2 : PointG2) : PointG2 :=
  if IsZero p1 then Copy p2
  else if IsZero p2 then Copy p1
  else
    let t7 := fp2.square c p1.z
    let t1 := fp2.mul c p2.x t7
    let t2 := fp2.mul c p1.z t7
    let t0 := fp2.mul c p2.y t2
    let t8 := fp2.square c p2.z
    let t3 := fp2.mul c p1.x t8
    let t4 := fp2.mul c p2.z t8
    let t2 := fp2.mul c p1.y t4
    if fp2.equal t1 t3 then
      if fp2.equal t0 t2 then Double c p1
      else Copy (infinity2 c)
    else
      let t1 := fp2.sub c t1 t3
      let t4 := fp2.double c t1
      let t4 := fp2.square c t4
      let t5 := fp2.mul c t1 t4
      let t0 := fp2.sub c t0 t2
      let t0 := fp2.double c t0
      let t6 := fp2.square c t0
      let t6 := fp2.sub c t6 t5
      let t3 := fp2.mul c t3 t4
      let t4 := fp2.double c t3
      let r0 := fp2.sub c t6 t4
      let t4 := fp2.sub c t3 r0
      let t6 := fp2.mul c t2 t5
      let t6 := fp2.double c t6
      let t0 := fp2.mul c t0 t4
      let r1 := fp2.sub c t0 t6
      let t0 := fp2.add c p1.z p2.z
      let t0 := fp2.square c t0
      let t0 := fp2.sub c t0 t7
      let t0 := fp2.sub c t0 t8
      let r2 := fp2.mul c t0 t1
      ⟨r0, r1, r2⟩

/-- The method `Neg`. -/
def Neg (c : Consts) (p : PointG2) : PointG2 :=
  ⟨fp2.copy p.x, fp2.neg c p.y, fp2.copy p.z⟩

/-- The method `Sub`. -/
def Sub (c : Consts) (a b : PointG2) : PointG2 :=
  let d := Neg c b
  G2.Add c a d

/-- The loop of `MulScalar`: `k` iterations remain, `i` is the bit index, `q`
the accumulator and `n` the running power-of-two multiple. -/
def mulScalarLoop (c : Consts) (e : Nat) : Nat → Nat → PointG2 → PointG2 → PointG2
  | 0, _, q, _ => q
  | k + 1, i, q, n =>
    let q := if e.testBit i then G2.Add c q n else q
    let n := Double c n
    mulScalarLoop c e k (i + 1) q n

/-- The method `MulScalar`; the exponent `e` is a non-negative big integer. -/
def MulScalar (c : Consts) (p : PointG2) (e : Nat) : PointG2 :=
  let q := empty
  let n := Copy p
  let l := bitLen e
  Copy (mulScalarLoop c e l 0 q n)

/-- The method `InCorrectSubgroup`. -/
def InCorrectSubgroup (c : Consts) (p : PointG2) : Bool :=
  let tmp := MulScalar c p c.q
  IsZero tmp

/-- The value of `math.Ceil(math.Log10(float64(n)))`, taken as the exact ceiling
of the decimal logarithm: the least exponent, from `k` on, whose power of ten
`pw = 10^k` reaches `n`. -/
def ceilLog10Aux (n : Nat) : Nat → Nat → Nat → Nat
  | 0, k, _ => k
  | fuel + 1, k, pw => if n ≤ pw then k else ceilLog10Aux n fuel (k + 1) (pw * 10)

/-- The ceiling of the decimal logarithm of `n`. -/
def ceilLog10 (n : Nat) : Nat := ceilLog10Aux n n 0 1

/-- The window width `c` that `MultiExp` chooses for `n` inputs. -/
def windowWidth (n : Nat) : Nat := if n ≥ 32 then ceilLog10 n else 3

/-- The statement `g.Add(bucket[k], bucket[k], p)` of `MultiExp`: entry `k` of
the bucket array is replaced by its sum with `p`. -/
def bucketAdd (c : Consts) : List PointG2 → Nat → PointG2 → List PointG2
  | [], _, _ => []
  | b :: bs, 0, p => G2.Add c b p :: bs
  | b :: bs, k + 1, p => b :: bucketAdd c bs k p

/-- The loop of `MultiExp` over the inputs for one window: every point is added
to the bucket selected by the low `w` bits of its scalar (none when they are
zero), and the scalar is replaced by itself shifted right by `w` bits. The
width is at most 19 for every slice length, so the shifts `1 << c` do not
overflow. Returns the bucket array and the scalar list. -/
def bucketLoop (c : Consts) (w : Nat) :
    List PointG2 → List Nat → List PointG2 → List PointG2 × List Nat
  | p :: ps, e :: es, bucket =>
    let s0 := e % 2 ^ 64
    let index := s0 &&& (2 ^ w - 1)
    let bucket := if index ≠ 0 then bucketAdd c bucket (index - 1) p else bucket
    let rest := bucketLoop c w ps es bucket
    (rest.1, (e >>> w) :: rest.2)
  | _, es, bucket => (bucket, es)

/-- The loop of `MultiExp` over the bucket array, from the last entry to the
first: `sum` collects the buckets and `acc` collects the running sums.
Returns `(acc, sum)`. -/
def sumLoop (c : Consts) (bucket : List PointG2) (acc sum : PointG2) : PointG2 × PointG2 :=
  bucket.foldr (fun b s => (G2.Add c s.1 (G2.Add c s.2 b), G2.Add c s.2 b)) (acc, sum)

/-- The loop `for cur <= numBits` of `MultiExp`, with `cur` advancing by the
width `w`; returns the entries `windows[j]`, `windows[j+1]`, … it assigns and
the scalar list it leaves. -/
def windowLoop (c : Consts) (w numBits : Nat) (points : List PointG2) :
    Nat → Nat → List Nat → List PointG2 × List Nat
  | 0, _, powers => ([], powers)
  | fuel + 1, cur, powers =>
    if cur ≤ numBits then
      let acc := Copy (Zero c)
      let bucket := List.replicate (2 ^ w - 1) (New c)
      let b := bucketLoop c w points powers bucket
      let sum := Copy (Zero c)
      let s := sumLoop c b.1 acc sum
      let rest := windowLoop c w numBits points fuel (cur + w) b.2
      (Copy s.1 :: rest.1, rest.2)
    else ([], powers)

/-- The inner loop of the last pass of `MultiExp`: `k` doublings of `acc`. -/
def doubleLoop (c : Consts) : Nat → PointG2 → PointG2
  | 0, acc => acc
  | k + 1, acc => doubleLoop c k (Double c acc)

/-- The last pass of `MultiExp` over `windows`, from the last entry to the
first: `w` doublings of `acc`, then the window is added. -/
def combineLoop (c : Consts) (w : Nat) (windows : List PointG2) (acc : PointG2) : PointG2 :=
  windows.foldr (fun win acc => G2.Add c (doubleLoop c w acc) win) acc

/-- What a call of `MultiExp` leaves behind: the returned pair
`(*PointG2, error)`, the destination `r`, and the caller's scalar list
`powers`, whose entries the method reassigns. -/
structure MultiExpResult where
  ret : Outcome PointG2
  r : PointG2
  powers : List Nat
deriving DecidableEq, Repr

/-- The body of `MultiExp` after the length check, for window width `w`; the
outer loop runs `numBits / w + 1` times, which `numBits + 1` iterations
cover. -/
def multiExpWidth (c : Consts) (w : Nat) (points : List PointG2) (powers : List Nat) :
    MultiExpResult :=
  let numBits := bitLen c.q
  let ws := windowLoop c w numBits points (numBits + 1) 0 powers
  let acc := combineLoop c w ws.1 (Copy (Zero c))
  let r := Copy acc
  ⟨.ok r, r, ws.2⟩

/-- The method `MultiExp`. -/
def MultiExp (c : Consts) (r : PointG2) (points : List PointG2) (powers : List Nat) :
    MultiExpResult :=
  if points.length ≠ powers.length then
    ⟨.error "point and scalar vectors should be in same length", r, powers⟩
  else multiExpWidth c (windowWidth powers.length) points powers

/-- The loop of `wnafMul` that fills the table: `precomp` runs through the odd
multiples of the point, stored at `indexForPositive + i`, their negatives at
`indexForPositive - 1 - i`; `k` iterations remain. -/
def precompLoop (c : Consts) (indexForPositive : Nat) (doubled : PointG2) :
    Nat → Nat → PointG2 → List PointG2 → List PointG2
  | 0, _, _, table => table
  | k + 1, i, precomp, table =>
    let precomp := G2.Add c precomp doubled
    let table := table.set (indexForPositive + i) (Copy precomp)
    let table := table.set (indexForPositive - 1 - i) (Neg c precomp)
    precompLoop c indexForPositive doubled k (i + 1) precomp table

/-- One iteration of the main loop of `wnafMul` for the digit `d`, on the state
`(q, found)`; `none` stands for the run-time panic of an index outside the
table (in `uint64` arithmetic `indexForPositive - 1 - idx` wraps around when
`idx` is too large). -/
def wnafStep (c : Consts) (indexForPositive : Nat) (table : List PointG2) (d : Int)
    (s : PointG2 × Bool) : Option (PointG2 × Bool) :=
  let q := if s.2 then Double c s.1 else s.1
  if d ≠ 0 then
    if d > 0 then
      let idx := d.toNat >>> 1
      (table[indexForPositive + idx]?).map (fun t => (G2.Add c q t, true))
    else
      let idx := (0 - d).toNat >>> 1
      if idx ≤ indexForPositive - 1 then
        (table[indexForPositive - 1 - idx]?).map (fun t => (G2.Add c q t, true))
      else none
  else some (q, s.2)

/-- The main loop of `wnafMul`, `for i := l - 1; i >= 0; i--`, over the digits
(least significant first): the digits above are processed first. -/
def wnafLoop (c : Consts) (indexForPositive : Nat) (table : List PointG2) :
    List Int → PointG2 × Bool → Option (PointG2 × Bool)
  | [], s => some s
  | d :: ds, s =>
    (wnafLoop c indexForPositive table ds s).bind (wnafStep c indexForPositive table d)

/-- The method `wnafMul`. The function `wnaf`, which is not part of the given
sources, is a parameter: it maps the limbs of the scalar and the window size
to the signed digits, least significant first. -/
def wnafMul (c : Consts) (wnaf : List Nat → Nat → List Int) (p : PointG2) (e : List Nat) :
    Outcome PointG2 :=
  let windowSize := 6
  let precompTable := List.replicate (1 <<< (windowSize - 1)) (New c)
  let indexForPositive := 1 <<< (windowSize - 2)
  let precompTable := precompTable.set indexForPositive (Copy p)
  let precompTable := precompTable.set (indexForPositive - 1) (Neg c p)
  let doubled := Double c p
  let precomp := Copy p
  let precompTable :=
    precompLoop c indexForPositive doubled (indexForPositive - 1) 1 precomp precompTable
  let digits := wnaf e windowSize
  match wnafLoop c indexForPositive precompTable digits (Zero c, false) with
  | some s => .ok (Copy s.1)
  | none => .panic "index out of range"

/-- The built-in `copy(dst, src)` on byte slices: the first
`min (len dst) (len src)` bytes of `dst` are overwritten. -/
def copyBytes (dst src : List Nat) : List Nat :=
  src.take dst.length ++ dst.drop src.length

/-- The loop `for i, v := range in` of the decoders under the infinity flag:
`false` when some byte makes the loop return an error (byte 0 must be `flag`,
every other byte zero). -/
def infinityLoop (flag : Nat) : Nat → List Nat → Bool
  | _, [] => true
  | i, v :: vs =>
    if (i == 0 && v != flag) || (i != 0 && v != 0x00) then false
    else infinityLoop flag (i + 1) vs

/-- The method `FromUncompressed`. -/
def FromUncompressed (c : Consts) (uncompressed : List Nat) : Outcome PointG2 :=
  if uncompressed.length < 192 then
    .error "input string should be equal or larger than 192"
  else
    let inp := copyBytes (List.replicate 192 0) (uncompressed.take 192)
    if inp.getD 0 0 &&& (1 <<< 7) ≠ 0 then
      .error "compression flag should be zero"
    else if inp.getD 0 0 &&& (1 <<< 5) ≠ 0 then
      .error "sort flag should be zero"
    else if inp.getD 0 0 &&& (1 <<< 6) ≠ 0 then
      if infinityLoop 0x40 0 inp then .ok (Zero c)
      else .error "input string should be zero when infinity flag is set"
    else
      let inp := inp.set 0 (inp.getD 0 0 &&& 0x1f)
      match fp2.fromBytes c (inp.take 96) with
      | .error e => .error e
      | .ok x =>
        match fp2.fromBytes c (inp.drop 96) with
        | .error e => .error e
        | .ok y =>
          let z := fp2.one c
          let p : PointG2 := ⟨x, y, z⟩
          if !IsOnCurve c p then .error "point is not on curve"
          else if !InCorrectSubgroup c p then .error "point is not on correct subgroup"
          else .ok p

/-- The method `ToUncompressed`: the returned bytes.  The source also leaves
its argument normalised in place, to `Affine c p`. -/
def ToUncompressed (c : Consts) (p : PointG2) : List Nat :=
  let out := List.replicate 192 0
  let p := Affine c p
  let out := if IsZero p then out.set 0 (out.getD 0 0 ||| (1 <<< 6)) else out
  let out := copyBytes (out.take 96) (fp2.toBytes c p.x) ++ out.drop 96
  let out := out.take 96 ++ copyBytes (out.drop 96) (fp2.toBytes c p.y)
  out

/-- The method `FromCompressed`. -/
def FromCompressed (c : Consts) (compressed : List Nat) : Outcome PointG2 :=
  if compressed.length < 96 then
    .error "input string should be equal or larger than 96"
  else
    let inp := copyBytes (List.replicate 96 0) compressed
    if inp.getD 0 0 &&& (1 <<< 7) = 0 then
      .error "bad compression"
    else if inp.getD 0 0 &&& (1 <<< 6) ≠ 0 then
      if infinityLoop 0xc0 0 inp then .ok (Zero c)
      else .error "input string should be zero when infinity flag is set"
    else
      let a : Bool := inp.getD 0 0 &&& (1 <<< 5) != 0
      let inp := inp.set 0 (inp.getD 0 0 &&& 0x1f)
      match fp2.fromBytes c inp with
      | .error e => .error e
      | .ok x =>
        let y := fp2.square c x
        let y := fp2.mul c y x
        let y := fp2.add c y c.b2
        match fp2.sqrt c y with
        | none => .error "point is not on curve"
        | some y =>
          let yn := fp2.fromMont c y
          let negY := fp2.neg c y
          let negYn := fp2.neg c yn
          let y :=
            if (decide (yn.c1 > negYn.c1) != a) ||
                (yn.c1 == 0 && (decide (yn.c0 > negYn.c0) != a)) then fp2.copy negY
            else y
          let z := fp2.one c
          let p : PointG2 := ⟨x, y, z⟩
          if !InCorrectSubgroup c p then .error "point is not on correct subgroup"
          else .ok p

/-- The method `ToCompressed`: the returned bytes.  The source also leaves its
argument normalised in place, to `Affine c p`. -/
def ToCompressed (c : Consts) (p : PointG2) : List Nat :=
  let out := List.replicate 96 0
  let p := Affine c p
  let out :=
    if IsZero p then out.set 0 (out.getD 0 0 ||| (1 <<< 6))
    else
      let out := copyBytes out (fp2.toBytes c p.x)
      let y := fp2.fromMont c p.y
      let negY := fp2.neg c y
      if decide (y.c1 > negY.c1) || (y.c1 == 0 && decide (y.c1 > negY.c1)) then
        out.set 0 (out.getD 0 0 ||| (1 <<< 5))
      else out
  out.set 0 (out.getD 0 0 ||| (1 <<< 7))

/-- The method `FromBytes`.  A slice expression `in[:96]` or `in[96:]` cannot
fail here because `len(in) ≥ 192` has been checked. -/
def FromBytes (c : Consts) (inp : List Nat) : Outcome PointG2 :=
  if inp.length < 192 then
    .error "input string should be equal or larger than 192"
  else
    match fp2.fromBytes c (inp.take 96) with
    | .error e => .error e
    | .ok p0 =>
      match fp2.fromBytes c (inp.drop 96) with
      | .error e => .panic e
      | .ok p1 =>
        let p2 := fp2.one c
        let p : PointG2 := ⟨p0, p1, p2⟩
        if !IsOnCurve c p then .error "point is not on curve"
        else .ok p

end G2

/-! ## The group operations on pointers

The methods of `G2` take pointers and write through the first of them. Here
the same source lines are translated with the memory made explicit. -/

/-- An address of type `*fe2`: coordinate `i` of the point at the address `a`
(`&p[i]`), or the scratch register `t[i]` of the group. -/
inductive Loc where
  | coord (a : Nat) (i : Nat)
  | temp (i : Nat)
deriving DecidableEq

/-- The memory: the field element at every address, and the first address of a
point that is not allocated yet. -/
structure Mem where
  cell : Loc → fe2
  next : Nat

/-- An assignment `*dst = v`. -/
def Mem.write (m : Mem) (dst : Loc) (v : fe2) : Mem :=
  ⟨fun l => if l = dst then v else m.cell l, m.next⟩

/-- The point `*p` at the address `p`. -/
def Mem.point (m : Mem) (p : Nat) : PointG2 :=
  ⟨m.cell (.coord p 0), m.cell (.coord p 1), m.cell (.coord p 2)⟩

/-- The memory in which the points of a list are allocated at the addresses
`0, 1, …`, in this order, and the scratch registers hold zero. -/
def Mem.ofList (ps : List PointG2) : Mem :=
  ⟨fun l =>
    match l with
    | .coord a 0 => (ps.getD a ⟨⟨0, 0⟩, ⟨0, 0⟩, ⟨0, 0⟩⟩).x
    | .coord a 1 => (ps.getD a ⟨⟨0, 0⟩, ⟨0, 0⟩, ⟨0, 0⟩⟩).y
    | .coord a 2 => (ps.getD a ⟨⟨0, 0⟩, ⟨0, 0⟩, ⟨0, 0⟩⟩).z
    | _ => ⟨0, 0⟩,
   ps.length⟩

namespace fp2

/-- Modelled from the spec: `f.square(dst, a)`, an arithmetic operation that
takes a destination argument and stores the result there. -/
def squareAt (c : Consts) (m : Mem) (dst a : Loc) : Mem :=
  m.write dst (fp2.square c (m.cell a))

/-- Modelled from the spec: `f.mul(dst, a, b)`, the product stored at `dst`. -/
def mulAt (c : Consts) (m : Mem) (dst a b : Loc) : Mem :=
  m.write dst (fp2.mul c (m.cell a) (m.cell b))

/-- Modelled from the spec: `f.add(dst, a, b)`, the sum stored at `dst`. -/
def addAt (c : Consts) (m : Mem) (dst a b : Loc) : Mem :=
  m.write dst (fp2.add c (m.cell a) (m.cell b))

/-- Modelled from the spec: `f.sub(dst, a, b)`, the difference stored at `dst`. -/
def subAt (c : Consts) (m : Mem) (dst a b : Loc) : Mem :=
  m.write dst (fp2.sub c (m.cell a) (m.cell b))

/-- Modelled from the spec: `f.double(dst, a)`, the double stored at `dst`. -/
def doubleAt (c : Consts) (m : Mem) (dst a : Loc) : Mem :=
  m.write dst (fp2.double c (m.cell a))

/-- Modelled from the spec: `f.copy(dst, a)`, the copy stored at `dst`. -/
def copyAt (m : Mem) (dst a : Loc) : Mem :=
  m.write dst (fp2.copy (m.cell a))

end fp2

namespace G2

/-- The method `Set` of `PointG2` on pointers, `p.Set(p2)`: its six assignments
of base-field limbs, in the order of the source. -/
def SetAt (m : Mem) (p p2 : Nat) : Mem :=
  let m := m.write (.coord p 0) ⟨(m.cell (.coord p2 0)).c0, (m.cell (.coord p 0)).c1⟩
  let m := m.write (.coord p 1) ⟨(m.cell (.coord p 1)).c0, (m.cell (.coord p2 1)).c1⟩
  let m := m.write (.coord p 2) ⟨(m.cell (.coord p2 2)).c0, (m.cell (.coord p 2)).c1⟩
  let m := m.write (.coord p 0) ⟨(m.cell (.coord p 0)).c0, (m.cell (.coord p2 0)).c1⟩
  let m := m.write (.coord p 1) ⟨(m.cell (.coord p2 1)).c0, (m.cell (.coord p 1)).c1⟩
  let m := m.write (.coord p 2) ⟨(m.cell (.coord p 2)).c0, (m.cell (.coord p2 2)).c1⟩
  m

/-- The same six assignments when the source is a constant of the package, which
no method writes: `p.Set(infinity2)`. -/
def SetConstAt (m : Mem) (p : Nat) (v : PointG2) : Mem :=
  let m := m.write (.coord p 0) ⟨v.x.c0, (m.cell (.coord p 0)).c1⟩
  let m := m.write (.coord p 1) ⟨(m.cell (.coord p 1)).c0, v.y.c1⟩
  let m := m.write (.coord p 2) ⟨v.z.c0, (m.cell (.coord p 2)).c1⟩
  let m := m.write (.coord p 0) ⟨(m.cell (.coord p 0)).c0, v.x.c1⟩
  let m := m.write (.coord p 1) ⟨v.y.c0, (m.cell (.coord p 1)).c1⟩
  let m := m.write (.coord p 2) ⟨(m.cell (.coord p 2)).c0, v.z.c1⟩
  m

/-- The method `Copy` on pointers: `dst.Set(src)`. -/
def CopyAt (m : Mem) (dst src : Nat) : Mem := SetAt m dst src

/-- The method `Zero` on pointers: a new point holding `(0, 1, 0)` is allocated
and its address returned. -/
def ZeroAt (c : Consts) (m : Mem) : Nat × Mem :=
  let a := m.next
  let m : Mem := ⟨m.cell, m.next + 1⟩
  let m := m.write (.coord a 0) fp2.zero
  let m := m.write (.coord a 1) (fp2.one c)
  let m := m.write (.coord a 2) fp2.zero
  (a, m)

/-- The method `New` on pointers. -/
def NewAt (c : Consts) (m : Mem) : Nat × Mem := ZeroAt c m

/-- The method `IsZero` on pointers. -/
def IsZeroAt (m : Mem) (p : Nat) : Bool := fp2.isZero (m.cell (.coord p 2))

/-- The method `Double` on pointers, `g.Double(r, p)`, line by line. -/
def DoubleAt (c : Consts) (m : Mem) (r p : Nat) : Mem :=
  if IsZeroAt m p then CopyAt m r p
  else
    let m := fp2.squareAt c m (.temp 0) (.coord p 0)
    let m := fp2.squareAt c m (.temp 1) (.coord p 1)
    let m := fp2.squareAt c m (.temp 2) (.temp 1)
    let m := fp2.addAt c m (.temp 1) (.coord p 0) (.temp 1)
    let m := fp2.squareAt c m (.temp 1) (.temp 1)
    let m := fp2.subAt c m (.temp 1) (.temp 1) (.temp 0)
    let m := fp2.subAt c m (.temp 1) (.temp 1) (.temp 2)
    let m := fp2.doubleAt c m (.temp 1) (.temp 1)
    let m := fp2.doubleAt c m (.temp 3) (.temp 0)
    let m := fp2.addAt c m (.temp 0) (.temp 3) (.temp 0)
    let m := fp2.squareAt c m (.temp 4) (.temp 0)
    let m := fp2.doubleAt c m (.temp 3) (.temp 1)
    let m := fp2.subAt c m (.coord r 0) (.temp 4) (.temp 3)
    let m := fp2.subAt c m (.temp 1) (.temp 1) (.coord r 0)
    let m := fp2.doubleAt c m (.temp 2) (.temp 2)
    let m := fp2.doubleAt c m (.temp 2) (.temp 2)
    let m := fp2.doubleAt c m (.temp 2) (.temp 2)
    let m := fp2.mulAt c m (.temp 0) (.temp 0) (.temp 1)
    let m := fp2.subAt c m (.temp 1) (.temp 0) (.temp 2)
    let m := fp2.mulAt c m (.temp 0) (.coord p 1) (.coord p 2)
    let m := fp2.copyAt m (.coord r 1) (.temp 1)
    let m := fp2.doubleAt c m (.coord r 2) (.temp 0)
    m

/-- The method `Add` on pointers, `g.Add(r, p1, p2)`, line by line. -/
def AddAt (c : Consts) (m : Mem) (r p1 p2 : Nat) : Mem :=
  if IsZeroAt m p1 then CopyAt m r p2
  else if IsZeroAt m p2 then CopyAt m r p1
  else
    let m := fp2.squareAt c m (.temp 7) (.coord p1 2)
    let m := fp2.mulAt c m (.temp 1) (.coord p2 0) (.temp 7)
    let m := fp2.mulAt c m (.temp 2) (.coord p1 2) (.temp 7)
    let m := fp2.mulAt c m (.temp 0) (.coord p2 1) (.temp 2)
    let m := fp2.squareAt c m (.temp 8) (.coord p2 2)
    let m := fp2.mulAt c m (.temp 3) (.coord p1 0) (.temp 8)
    let m := fp2.mulAt c m (.temp 4) (.coord p2 2) (.temp 8)
    let m := fp2.mulAt c m (.temp 2) (.coord p1 1) (.temp 4)
    if fp2.equal (m.cell (.temp 1)) (m.cell (.temp 3)) then
      if fp2.equal (m.cell (.temp 0)) (m.cell (.temp 2)) then DoubleAt c m r p1
      else SetConstAt m r (infinity2 c)
    else
      let m := fp2.subAt c m (.temp 1) (.temp 1) (.temp 3)
      let m := fp2.doubleAt c m (.temp 4) (.temp 1)
      let m := fp2.squareAt c m (.temp 4) (.temp 4)
      let m := fp2.mulAt c m (.temp 5) (.temp 1) (.temp 4)
      let m := fp2.subAt c m (.temp 0) (.temp 0) (.temp 2)
      let m := fp2.doubleAt c m (.temp 0) (.temp 0)
      let m := fp2.squareAt c m (.temp 6) (.temp 0)
      let m := fp2.subAt c m (.temp 6) (.temp 6) (.temp 5)
      let m := fp2.mulAt c m (.temp 3) (.temp 3) (.temp 4)
      let m := fp2.doubleAt c m (.temp 4) (.temp 3)
      let m := fp2.subAt c m (.coord r 0) (.temp 6) (.temp 4)
      let m := fp2.subAt c m (.temp 4) (.temp 3) (.coord r 0)
      let m := fp2.mulAt c m (.temp 6) (.temp 2) (.temp 5)
      let m := fp2.doubleAt c m (.temp 6) (.temp 6)
      let m := fp2.mulAt c m (.temp 0) (.temp 0) (.temp 4)
      let m := fp2.subAt c m (.coord r 1) (.temp 0) (.temp 6)
      let m := fp2.addAt c m (.temp 0) (.coord p1 2) (.coord p2 2)
      let m := fp2.squareAt c m (.temp 0) (.temp 0)
      let m := fp2.subAt c m (.temp 0) (.temp 0) (.temp 7)
      let m := fp2.subAt c m (.temp 0) (.temp 0) (.temp 8)
      let m := fp2.mulAt c m (.coord r 2) (.temp 0) (.temp 1)
      m

/-- The loop `for i := 0; i < n; i++ { bucket[i] = g.New() }` of `MultiExp`:
returns the addresses stored in the slice. -/
def newLoopAt (c : Consts) : Nat → Mem → List Nat × Mem
  | 0, m => ([], m)
  | n + 1, m =>
    let a := NewAt c m
    let rest := newLoopAt c n a.2
    (a.1 :: rest.1, rest.2)

/-- The loop of `MultiExp` over the inputs for one window, on pointers:
`g.Add(bucket[index-1], bucket[index-1], points[i])` writes the bucket, and
the entry of the scalar list is reassigned. The index is at most
`len(bucket)`, so `bucket[index-1]` exists and the default of `getD` is
never used. -/
def bucketLoopAt (c : Consts) (w : Nat) (bucket : List Nat) :
    List Nat → List Nat → Mem → Mem × List Nat
  | p :: ps, e :: es, m =>
    let s0 := e % 2 ^ 64
    let index := s0 &&& (2 ^ w - 1)
    let m :=
      if index ≠ 0 then
        AddAt c m (bucket.getD (index - 1) 0) (bucket.getD (index - 1) 0) p
      else m
    let rest := bucketLoopAt c w bucket ps es m
    (rest.1, (e >>> w) :: rest.2)
  | _, es, m => (m, es)

/-- The loop of `MultiExp` over the bucket array, from the last entry to the
first, on pointers: `g.Add(sum, sum, bucket[i])`, `g.Add(acc, acc, sum)`. -/
def sumLoopAt (c : Consts) (acc sum : Nat) : List Nat → Mem → Mem
  | [], m => m
  | b :: bs, m =>
    let m := sumLoopAt c acc sum bs m
    let m := AddAt c m sum sum b
    AddAt c m acc acc sum

/-- The loop `for cur <= numBits` of `MultiExp` on pointers; returns the
addresses stored in `windows[j]`, `windows[j+1]`, …, the scalar list and
the memory. -/
def windowLoopAt (c : Consts) (w numBits : Nat) (points : List Nat) (acc sum : Nat) :
    Nat → Nat → List Nat → Mem → List Nat × List Nat × Mem
  | 0, _, powers, m => ([], powers, m)
  | fuel + 1, cur, powers, m =>
    if cur ≤ numBits then
      let z := ZeroAt c m
      let m := CopyAt z.2 acc z.1
      let b := newLoopAt c (2 ^ w - 1) m
      let l := bucketLoopAt c w b.1 points powers b.2
      let z := ZeroAt c l.1
      let m := CopyAt z.2 sum z.1
      let m := sumLoopAt c acc sum b.1 m
      let wj := NewAt c m
      let m := CopyAt wj.2 wj.1 acc
      let rest := windowLoopAt c w numBits points acc sum fuel (cur + w) l.2 m
      (wj.1 :: rest.1, rest.2.1, rest.2.2)
    else ([], powers, m)

/-- The inner loop of the last pass of `MultiExp` on pointers: `k` times
`g.Double(acc, acc)`. -/
def doubleLoopAt (c : Consts) (acc : Nat) : Nat → Mem → Mem
  | 0, m => m
  | k + 1, m => doubleLoopAt c acc k (DoubleAt c m acc acc)

/-- The last pass of `MultiExp` over `windows`, from the last entry to the
first, on pointers. -/
def combineLoopAt (c : Consts) (w : Nat) (acc : Nat) : List Nat → Mem → Mem
  | [], m => m
  | win :: ws, m =>
    let m := combineLoopAt c w acc ws m
    let m := doubleLoopAt c acc w m
    AddAt c m acc acc win

/-- What a call of `MultiExp` on pointers leaves behind: the returned pair
(the address `r` or an error), the memory, and the caller's scalar list. -/
structure MultiExpCall where
  ret : Outcome Nat
  mem : Mem
  powers : List Nat

/-- The body of `MultiExp` after the length check, on pointers, for window
width `w`. -/
def multiExpWidthAt (c : Consts) (w : Nat) (m : Mem) (r : Nat) (points : List Nat)
    (powers : List Nat) : MultiExpCall :=
  let numBits := bitLen c.q
  let acc := NewAt c m
  let sum := NewAt c acc.2
  let b := newLoopAt c (2 ^ w - 1) sum.2
  let ws := windowLoopAt c w numBits points acc.1 sum.1 (numBits + 1) 0 powers b.2
  let z := ZeroAt c ws.2.2
  let m := CopyAt z.2 acc.1 z.1
  let m := combineLoopAt c w acc.1 ws.1 m
  let m := CopyAt m r acc.1
  ⟨.ok r, m, ws.2.1⟩

/-- The method `MultiExp` on pointers, `g.MultiExp(r, points, powers)`: `r` is
the address of the destination and `points` holds the addresses of the
inputs. -/
def MultiExpAt (c : Consts) (m : Mem) (r : Nat) (points : List Nat) (powers : List Nat) :
    MultiExpCall :=
  if points.length ≠ powers.length then
    ⟨.error "point and scalar vectors should be in same length", m, powers⟩
  else multiExpWidthAt c (windowWidth powers.length) m r points powers

end G2

/-! ## The reference sum of the specification -/

/-- The sum the specification compares `MultiExp` with, written from its
words: `Add` folded over `MulScalar p e` for the inputs in order, starting
from the identity. -/
def specSum (c : Consts) (points : List PointG2) (scalars : List Nat) : PointG2 :=
  (List.zip points scalars).foldl (fun acc pe => G2.Add c acc (G2.MulScalar c pe.1 pe.2))
    (G2.Zero c)

/-- The integer `Σ dᵢ · 2^i` of a signed-digit sequence, least significant
digit first. -/
def wnafValue : List Int → Int
  | [] => 0
  | d :: ds => d + 2 * wnafValue ds

/-! ## The BLS12-381 constants -/

/-- Modelled from the spec: the 381-bit prime modulus of BLS12-381. -/
def modulus : Nat :=
  4002409555221667393417789825735904156556882819939007885332058136124031650490837864442687629129015664037894272559787

/-- Modelled from the spec: the prime group order of BLS12-381. -/
def q : Nat :=
  52435875175126190479447740508185965837690552500527637822603658699938581184513

/-- Modelled from the spec: the inverse of `R = 2^384` modulo `modulus`. -/
def rinv : Nat :=
  3231460744492646417066832100176244795738767926513225105051837195607029917124509527734802654356338138714468589979680

/-- Modelled from the spec: the constants of BLS12-381; the twist coefficient
`b2` is `4 + 4u` in Montgomery form. -/
def bls : Consts :=
  { p := modulus
    rinv := rinv
    b2 := ⟨(4 * R) % modulus, (4 * R) % modulus⟩
    q := q }

/-- A small instance of the same construction, used to exercise the theorems:
`p = 19`, the curve `y² = x³ + 4 + 4u` over `F_361` has 373 points. -/
def toy : Consts :=
  { p := 19
    rinv := 11
    b2 := ⟨(4 * R) % 19, (4 * R) % 19⟩
    q := 373 }

/-! ## Sample points -/

/-- The compressed encoding of the standard generator of the BLS12-381 group G2. -/
def genBytes : List Nat :=
  [147, 224, 43, 96, 82, 113, 159, 96, 125, 172, 211, 160, 136, 39, 79, 101, 89, 107, 208, 208,
   153, 32, 182, 26, 181, 218, 97, 187, 220, 127, 80, 73, 51, 76, 241, 18, 19, 148, 93, 87, 229,
   172, 125, 5, 93, 4, 43, 126, 2, 74, 162, 178, 240, 143, 10, 145, 38, 8, 5, 39, 45, 197, 16, 81,
   198, 228, 122, 212, 250, 64, 59, 2, 180, 81, 11, 100, 122, 227, 209, 119, 11, 172, 3, 38, 168,
   5, 187, 239, 212, 128, 86, 200, 193, 33, 189, 184]

/-- The standard generator of G2, affine, coordinates in Montgomery form. -/
def gen : PointG2 :=
  { x := ⟨847470584266855032928757635943404894546635237585256699594242877795682550126782015488981422782858954978593114163728,
          2704417327042201261889307409987199682494730153537489190806827462670720762314346272876180490852182194366955699566086⟩
    y := ⟨79356212569921985836488380854675402448583730481084448002153671035985665325583653044997981847051525774365623405642,
          1719364808355513868764255749438476748842284891949482384499506442268400757930878339773098972942799514318283030704221⟩
    z := fp2.one bls }

/-- A point of the BLS12-381 twist with `y = -3` (so `c1 = 0`), in affine
Montgomery form. -/
def pointYInFp : PointG2 :=
  { x := ⟨607807961154225554052097939317558643021504001232752200167186911387503369275661564476004557322980620866086519530913,
          3413738640471118337672611468866185351547403839936150790055268916619285551067437993727296383677285475292948017896589⟩
    y := ⟨1866268067466584165696574471646283281467266786773896556116863870983784200233504099037830109215722998716944205873162, 0⟩
    z := fp2.one bls }

/-- A point of the small curve whose `y = 14 + 0u` lies in the base field and is
the greater root (`-y = 5`). -/
def toyPointYInFp : PointG2 := ⟨⟨7, 3⟩, ⟨3, 0⟩, fp2.one toy⟩

/-! ## Well-formedness of constants and values -/

/-- Montgomery-level sanity of the constants: what the arithmetic needs of
`p`, `rinv` and `b2`; every field is decidable. -/
structure Consts.Mont (c : Consts) : Prop where
  one_lt : 1 < c.p
  rinv_ok : (R * c.rinv) % c.p = 1
  b2_c0 : c.b2.c0 < c.p
  b2_c1 : c.b2.c1 < c.p
  bits : c.p < 2 ^ 381

/-- The constants describe a field: additionally `p` is a prime with
`p ≡ 3 (mod 4)`, so that `u² = -1` defines a quadratic extension. -/
structure Consts.Valid (c : Consts) : Prop where
  mont : c.Mont
  prime : Nat.Prime c.p
  mod4 : c.p % 4 = 3

/-- A field element is canonical: its limbs hold a value below the modulus. -/
def fe2.Canon (c : Consts) (a : fe2) : Prop := a.c0 < c.p ∧ a.c1 < c.p

/-- All six field elements of a point are canonical. -/
def PointG2.Canon (c : Consts) (P : PointG2) : Prop :=
  P.x.Canon c ∧ P.y.Canon c ∧ P.z.Canon c

instance (c : Consts) (a : fe2) : Decidable (a.Canon c) := by
  unfold fe2.Canon; infer_instance

instance (c : Consts) (P : PointG2) : Decidable (P.Canon c) := by
  unfold PointG2.Canon; infer_instance

/-! ## The mathematical field behind the representation -/

/-- The quadratic extension `Fp[u]/(u² + 1)` over `ZMod p`. -/
@[ext]
structure F2 (p : Nat) where
  re : ZMod p
  im : ZMod p
deriving DecidableEq

namespace F2
variable {p : Nat}

instance : Zero (F2 p) := ⟨⟨0, 0⟩⟩
instance : One (F2 p) := ⟨⟨1, 0⟩⟩
instance : Add (F2 p) := ⟨fun a b => ⟨a.re + b.re, a.im + b.im⟩⟩
instance : Neg (F2 p) := ⟨fun a => ⟨-a.re, -a.im⟩⟩
instance : Sub (F2 p) := ⟨fun a b => ⟨a.re - b.re, a.im - b.im⟩⟩
instance : Mul (F2 p) := ⟨fun a b => ⟨a.re * b.re - a.im * b.im, a.re * b.im + a.im * b.re⟩⟩
instance : Inv (F2 p) :=
  ⟨fun a => ⟨a.re * (a.re * a.re + a.im * a.im)⁻¹, -(a.im * (a.re * a.re + a.im * a.im)⁻¹)⟩⟩

@[simp] theorem zero_re : (0 : F2 p).re = 0 := rfl
@[simp] theorem zero_im : (0 : F2 p).im = 0 := rfl
@[simp] theorem one_re : (1 : F2 p).re = 1 := rfl
@[simp] theorem one_im : (1 : F2 p).im = 0 := rfl
@[simp] theorem add_re (a b : F2 p) : (a + b).re = a.re + b.re := rfl
@[simp] theorem add_im (a b : F2 p) : (a + b).im = a.im + b.im := rfl
@[simp] theorem neg_re (a : F2 p) : (-a).re = -a.re := rfl
@[simp] theorem neg_im (a : F2 p) : (-a).im = -a.im := rfl
@[simp] theorem sub_re (a b : F2 p) : (a - b).re = a.re - b.re := rfl
@[simp] theorem sub_im (a b : F2 p) : (a - b).im = a.im - b.im := rfl
@[simp] theorem mul_re (a b : F2 p) : (a * b).re = a.re * b.re - a.im * b.im := rfl
@[simp] theorem mul_im (a b : F2 p) : (a * b).im = a.re * b.im + a.im * b.re := rfl
theorem inv_re (a : F2 p) : (a⁻¹).re = a.re * (a.re * a.re + a.im * a.im)⁻¹ := rfl
theorem inv_im (a : F2 p) : (a⁻¹).im = -(a.im * (a.re * a.re + a.im * a.im)⁻¹) := rfl

instance : CommRing (F2 p) where
  add_assoc a b c := by ext <;> simp [add_assoc]
  zero_add a := by ext <;> simp
  add_zero a := by ext <;> simp
  add_comm a b := by ext <;> simp [add_comm]
  neg_add_cancel a := by ext <;> simp
  sub_eq_add_neg a b := by ext <;> simp [sub_eq_add_neg]
  nsmul := nsmulRec
  zsmul := zsmulRec
  mul_assoc a b c := by ext <;> simp <;> ring
  one_mul a := by ext <;> simp
  mul_one a := by ext <;> simp
  left_distrib a b c := by ext <;> simp <;> ring
  right_distrib a b c := by ext <;> simp <;> ring
  zero_mul a := by ext <;> simp
  mul_zero a := by ext <;> simp
  mul_comm a b := by ext <;> simp <;> ring

instance : Div (F2 p) := ⟨fun a b => a * b⁻¹⟩

theorem norm_ne_zero [Fact p.Prime] (h4 : p % 4 = 3) (a : F2 p) (ha : a ≠ 0) :
    a.re * a.re + a.im * a.im ≠ 0 := by
  intro h
  by_cases hi : a.im = 0
  · have hr : a.re = 0 := by
      rw [hi] at h; simpa using h
    exact ha (by ext <;> simp [hr, hi])
  · have hsq : IsSquare (-1 : ZMod p) := by
      refine ⟨a.re * a.im⁻¹, ?_⟩
      field_simp
      linear_combination -h
    rw [ZMod.exists_sq_eq_neg_one_iff] at hsq
    exact hsq h4

theorem mul_inv_cancel_of_ne [Fact p.Prime] (h4 : p % 4 = 3) (a : F2 p) (ha : a ≠ 0) :
    a * a⁻¹ = 1 := by
  have hn := norm_ne_zero h4 a ha
  ext
  · simp [inv_re, inv_im]; field_simp
  · simp [inv_re, inv_im]; ring

theorem inv_zero_eq : (0 : F2 p)⁻¹ = 0 := by
  ext <;> simp [inv_re, inv_im]

instance [Fact p.Prime] : Nontrivial (F2 p) :=
  ⟨⟨0, 1, by intro h; have := congrArg F2.re h; simp at this⟩⟩

/-- The field structure, for a prime `p ≡ 3 (mod 4)`. -/
instance instField [Fact p.Prime] [h4 : Fact (p % 4 = 3)] : Field (F2 p) where
  inv := fun a => a⁻¹
  div := fun a b => a / b
  div_eq_mul_inv a b := rfl
  mul_inv_cancel a ha := mul_inv_cancel_of_ne h4.out a ha
  inv_zero := inv_zero_eq
  nnqsmul := _
  nnqsmul_def := fun _ _ => rfl
  qsmul := _
  qsmul_def := fun _ _ => rfl

end F2

/-- The residue a Montgomery representative stands for: `a * R⁻¹`. -/
def val (c : Consts) (a : Nat) : ZMod c.p := (a : ZMod c.p) * (c.rinv : ZMod c.p)

/-- The element of `Fp2` an `fe2` stands for. -/
def val2 (c : Consts) (a : fe2) : F2 c.p := ⟨val c a.c0, val c a.c1⟩

/-- A canonical field element together with the value it stands for. -/
def Rep2 (c : Consts) (a : fe2) (v : F2 c.p) : Prop := a.Canon c ∧ val2 c a = v

/-- The constants describe an elliptic curve: additionally the characteristic
is not 3 and the coefficient `b2` is not zero, so `y² = x³ + b2` is smooth. -/
structure Consts.Curve (c : Consts) : Prop where
  valid : c.Valid
  p_ne3 : c.p ≠ 3
  b2_ne : c.b2 ≠ fp2.zero

/-- The curve `y² = x³ + b2` over `Fp2`, as a Weierstrass curve. -/
def curve (c : Consts) : WeierstrassCurve.Affine (F2 c.p) :=
  { a₁ := 0, a₂ := 0, a₃ := 0, a₄ := 0, a₆ := val2 c c.b2 }

/-- A canonical Jacobian point `P` stands for the point `A` of the curve: the
point at infinity when `Z = 0`, the affine point `(X/Z², Y/Z³)` otherwise. -/
def Represents (c : Consts) (P : PointG2) (A : (curve c).Point) : Prop :=
  P.Canon c ∧
    ((P.z = fp2.zero ∧ A = 0) ∨
      (P.z ≠ fp2.zero ∧ ∃ (x y : F2 c.p) (h : (curve c).Nonsingular x y),
        x = val2 c P.x / val2 c P.z ^ 2 ∧ y = val2 c P.y / val2 c P.z ^ 3 ∧
          A = WeierstrassCurve.Affine.Point.some h))

/-- The table of `wnafMul` holds the first `n` odd multiples of `A` from index
`ip` upwards and their negatives from index `ip - 1` downwards. -/
def OddMultiples (c : Consts) [Fact c.p.Prime] [Fact (c.p % 4 = 3)] (ip : Nat)
    (table : List PointG2) (A : (curve c).Point) (n : Nat) : Prop :=
  table.length = 2 * ip ∧
    ∀ k, k < n →
      (∃ T, table[ip + k]? = some T ∧ Represents c T ((2 * k + 1) • A)) ∧
      (∃ T, table[ip - 1 - k]? = some T ∧ Represents c T (-((2 * k + 1) • A)))

/-- The sum of `(k + 1) • G k` over a list `G 0, G 1, …` of group elements: what
the bucket method accumulates from its bucket array. -/
def weightedSum {M : Type} [AddCommMonoid M] : List M → M
  | [] => 0
  | G :: Gs => G + (Gs.sum + weightedSum Gs)

/-! ## Arithmetic of the representation -/

theorem R_mul_rinv {c : Consts} (h : c.Mont) : (R : ZMod c.p) * (c.rinv : ZMod c.p) = 1 := by
  have h2 : ((R * c.rinv : Nat) : ZMod c.p) = ((1 : Nat) : ZMod c.p) := by
    rw [ZMod.natCast_eq_natCast_iff', h.rinv_ok, Nat.mod_eq_of_lt h.one_lt]
  simpa using h2

theorem val_add (c : Consts) (a b : Nat) : val c (add c a b) = val c a + val c b := by
  unfold val add
  split
  · rename_i h
    rw [Nat.cast_sub h]; simp [ZMod.natCast_self]; ring
  · push_cast; ring

theorem val_double (c : Consts) (a : Nat) : val c (double c a) = val c a + val c a :=
  val_add c a a

theorem val_sub (c : Consts) (a b : Nat) (hb : b ≤ c.p) :
    val c (sub c a b) = val c a - val c b := by
  unfold val sub
  split
  · rename_i h
    rw [Nat.cast_sub h]; ring
  · rw [Nat.cast_sub (by omega)]; push_cast; simp [ZMod.natCast_self]; ring

theorem val_neg (c : Consts) (a : Nat) (ha : a ≤ c.p) : val c (neg c a) = - val c a := by
  unfold val neg
  split
  · rename_i h; simp [h]
  · rw [Nat.cast_sub ha]; simp [ZMod.natCast_self]

theorem val_mul (c : Consts) (a b : Nat) : val c (mul c a b) = val c a * val c b := by
  unfold val mul
  rw [ZMod.natCast_mod]; push_cast; ring

theorem val_square (c : Consts) (a : Nat) : val c (square c a) = val c a * val c a :=
  val_mul c a a

theorem val_one {c : Consts} (h : c.Mont) : val c (one c) = 1 := by
  unfold val one
  rw [ZMod.natCast_mod]; exact R_mul_rinv h

theorem val_zero (c : Consts) : val c 0 = 0 := by simp [val]

theorem val_inj {c : Consts} (h : c.Mont) {a b : Nat} (ha : a < c.p) (hb : b < c.p)
    (hv : val c a = val c b) : a = b := by
  unfold val at hv
  have h1 : (a : ZMod c.p) = b := by
    have := congrArg (fun t => t * (R : ZMod c.p)) hv
    simp only [mul_assoc] at this
    rw [mul_comm (c.rinv : ZMod c.p), R_mul_rinv h] at this
    simpa using this
  rw [ZMod.natCast_eq_natCast_iff'] at h1
  rwa [Nat.mod_eq_of_lt ha, Nat.mod_eq_of_lt hb] at h1

theorem add_lt {c : Consts} {a b : Nat} (ha : a < c.p) (hb : b < c.p) : add c a b < c.p := by
  unfold add; split <;> omega

theorem double_lt {c : Consts} {a : Nat} (ha : a < c.p) : double c a < c.p := add_lt ha ha

theorem sub_lt {c : Consts} {a b : Nat} (ha : a < c.p) (hb : b < c.p) : sub c a b < c.p := by
  unfold sub; split <;> omega

theorem neg_lt {c : Consts} {a : Nat} (ha : a < c.p) : neg c a < c.p := by
  unfold neg; split <;> omega

theorem mul_lt {c : Consts} (h : c.Mont) (a b : Nat) : mul c a b < c.p := by
  unfold mul; exact Nat.mod_lt _ (by have := h.one_lt; omega)

theorem one_lt {c : Consts} (h : c.Mont) : one c < c.p := by
  unfold one; exact Nat.mod_lt _ (by have := h.one_lt; omega)

namespace fp2

theorem canon_zero {c : Consts} (h : c.Mont) : fp2.zero.Canon c := by
  have := h.one_lt
  constructor <;> simp [fp2.zero] <;> omega

theorem canon_one {c : Consts} (h : c.Mont) : (fp2.one c).Canon c := by
  have := h.one_lt
  exact ⟨one_lt h, by simp [fp2.one]; omega⟩

theorem canon_add {c : Consts} {a b : fe2} (ha : a.Canon c) (hb : b.Canon c) :
    (fp2.add c a b).Canon c := ⟨add_lt ha.1 hb.1, add_lt ha.2 hb.2⟩

theorem canon_double {c : Consts} {a : fe2} (ha : a.Canon c) :
    (fp2.double c a).Canon c := ⟨double_lt ha.1, double_lt ha.2⟩

theorem canon_sub {c : Consts} {a b : fe2} (ha : a.Canon c) (hb : b.Canon c) :
    (fp2.sub c a b).Canon c := ⟨sub_lt ha.1 hb.1, sub_lt ha.2 hb.2⟩

theorem canon_neg {c : Consts} {a : fe2} (ha : a.Canon c) :
    (fp2.neg c a).Canon c := ⟨neg_lt ha.1, neg_lt ha.2⟩

theorem canon_mul {c : Consts} (h : c.Mont) (a b : fe2) : (fp2.mul c a b).Canon c :=
  ⟨sub_lt (mul_lt h _ _) (mul_lt h _ _), sub_lt (sub_lt (mul_lt h _ _) (mul_lt h _ _)) (mul_lt h _ _)⟩

theorem canon_square {c : Consts} (h : c.Mont) (a : fe2) : (fp2.square c a).Canon c :=
  ⟨mul_lt h _ _, mul_lt h _ _⟩

theorem val2_zero (c : Consts) : val2 c fp2.zero = 0 := by
  ext <;> simp [val2, fp2.zero, val_zero]

theorem val2_one {c : Consts} (h : c.Mont) : val2 c (fp2.one c) = 1 := by
  ext <;> simp [val2, fp2.one, val_zero, val_one h]

theorem val2_add (c : Consts) (a b : fe2) : val2 c (fp2.add c a b) = val2 c a + val2 c b := by
  ext <;> simp [val2, fp2.add, val_add]

theorem val2_double (c : Consts) (a : fe2) : val2 c (fp2.double c a) = 2 * val2 c a := by
  rw [two_mul]
  ext <;> simp [val2, fp2.double, val_double]

theorem val2_sub (c : Consts) (a b : fe2) (hb : b.Canon c) :
    val2 c (fp2.sub c a b) = val2 c a - val2 c b := by
  ext <;> simp [val2, fp2.sub, val_sub, hb.1.le, hb.2.le]

theorem val2_neg (c : Consts) (a : fe2) (ha : a.Canon c) :
    val2 c (fp2.neg c a) = - val2 c a := by
  ext <;> simp [val2, fp2.neg, val_neg, ha.1.le, ha.2.le]

theorem val2_mul {c : Consts} (h : c.Mont) (a b : fe2) :
    val2 c (fp2.mul c a b) = val2 c a * val2 c b := by
  have l1 := mul_lt h a.c0 b.c0
  have l2 := mul_lt h a.c1 b.c1
  ext
  · simp [val2, fp2.mul, val_sub, val_mul, l2.le]
  · simp [val2, fp2.mul, val_sub, val_mul, val_add, l1.le, l2.le]; ring

theorem val2_square {c : Consts} (a : fe2) (ha : a.Canon c) :
    val2 c (fp2.square c a) = val2 c a * val2 c a := by
  ext
  · simp [val2, fp2.square, val_sub, val_mul, val_add, ha.2.le]; ring
  · simp [val2, fp2.square, val_mul, val_double]; ring

theorem val2_inj {c : Consts} (h : c.Mont) {a b : fe2} (ha : a.Canon c) (hb : b.Canon c)
    (hv : val2 c a = val2 c b) : a = b := by
  have h0 := congrArg F2.re hv
  have h1 := congrArg F2.im hv
  simp only [val2] at h0 h1
  have e0 := val_inj h ha.1 hb.1 h0
  have e1 := val_inj h ha.2 hb.2 h1
  cases a; cases b; simp_all

theorem equal_iff (a b : fe2) : fp2.equal a b = true ↔ a = b := by
  cases a; cases b; simp [fp2.equal]

theorem isZero_iff (a : fe2) : fp2.isZero a = true ↔ a = fp2.zero := by
  cases a; simp [fp2.isZero, fp2.zero]

theorem val2_eq_zero_iff {c : Consts} (h : c.Mont) {a : fe2} (ha : a.Canon c) :
    val2 c a = 0 ↔ a = fp2.zero := by
  constructor
  · intro hv
    exact val2_inj h ha (canon_zero h) (by rw [hv, val2_zero])
  · rintro rfl; exact val2_zero c

end fp2

namespace G2

theorem IsZero_iff (p : PointG2) : IsZero p = true ↔ p.z = fp2.zero := fp2.isZero_iff p.z

theorem IsZero_eq_false_iff (p : PointG2) : IsZero p = false ↔ p.z ≠ fp2.zero := by
  rw [Ne, ← IsZero_iff]; simp

theorem val2_z_ne_zero {c : Consts} (h : c.Mont) {p : PointG2} (hp : p.Canon c)
    (hz : p.z ≠ fp2.zero) : val2 c p.z ≠ 0 := by
  intro hv
  exact hz ((fp2.val2_eq_zero_iff h hp.2.2).1 hv)

/-- What `Equal` computes on two non-zero points, at the level of field values. -/
theorem Equal_nonzero_iff {c : Consts} (h : c.Mont) {p1 p2 : PointG2}
    (h1 : p1.Canon c) (h2 : p2.Canon c)
    (z1 : p1.z ≠ fp2.zero) (z2 : p2.z ≠ fp2.zero) :
    Equal c p1 p2 = true ↔
      (val2 c p1.z ^ 3 * val2 c p2.y = val2 c p2.z ^ 3 * val2 c p1.y ∧
       val2 c p1.z ^ 2 * val2 c p2.x = val2 c p2.z ^ 2 * val2 c p1.x) := by
  have n1 : IsZero p1 = false := (IsZero_eq_false_iff p1).2 z1
  have n2 : IsZero p2 = false := (IsZero_eq_false_iff p2).2 z2
  unfold Equal
  simp only [n1, n2, Bool.false_eq_true, if_false, Bool.and_eq_true, fp2.equal_iff]
  constructor
  · rintro ⟨e1, e2⟩
    have e1 := congrArg (val2 c) e1
    have e2 := congrArg (val2 c) e2
    simp only [fp2.val2_mul h, fp2.val2_square _ h1.2.2, fp2.val2_square _ h2.2.2] at e1 e2
    constructor
    · linear_combination e1
    · linear_combination e2
  · rintro ⟨e1, e2⟩
    constructor
    · apply fp2.val2_inj h (fp2.canon_mul h _ _) (fp2.canon_mul h _ _)
      simp only [fp2.val2_mul h, fp2.val2_square _ h1.2.2, fp2.val2_square _ h2.2.2]
      linear_combination e1
    · apply fp2.val2_inj h (fp2.canon_mul h _ _) (fp2.canon_mul h _ _)
      simp only [fp2.val2_mul h, fp2.val2_square _ h1.2.2, fp2.val2_square _ h2.2.2]
      linear_combination e2

end G2

/-! ## Bytes and flags -/

theorem and_bit_eq_zero_iff (b i : Nat) : b &&& (1 <<< i) = 0 ↔ b.testBit i = false := by
  rw [Nat.one_shiftLeft]
  constructor
  · intro h
    have := congrArg (fun n => n.testBit i) h
    simpa [Nat.testBit_two_pow_self] using this
  · intro h
    apply Nat.eq_of_testBit_eq
    intro j
    by_cases hj : i = j
    · subst hj; simp [h]
    · simp [Nat.testBit_two_pow, hj]

theorem and_bit_ne_zero_iff (b i : Nat) : b &&& (1 <<< i) ≠ 0 ↔ b.testBit i = true := by
  rw [Ne, and_bit_eq_zero_iff]; simp

theorem copyBytes_of_length_le (dst src : List Nat) (h : dst.length ≤ src.length) :
    G2.copyBytes dst src = src.take dst.length := by
  simp [G2.copyBytes, List.drop_eq_nil_of_le h]

theorem infinityLoop_succ (flag i : Nat) (l : List Nat) :
    G2.infinityLoop flag (i + 1) l = true ↔ l = List.replicate l.length 0 := by
  induction l generalizing i with
  | nil => simp [G2.infinityLoop]
  | cons v vs ih =>
    simp only [G2.infinityLoop, List.length_cons, List.replicate_succ, List.cons.injEq]
    by_cases hv : v = 0
    · subst hv; simpa using ih (i + 1)
    · simp [hv]

theorem infinityLoop_zero (flag : Nat) (v : Nat) (vs : List Nat) :
    G2.infinityLoop flag 0 (v :: vs) = true ↔ v :: vs = flag :: List.replicate vs.length 0 := by
  simp only [G2.infinityLoop, List.cons.injEq]
  by_cases hv : v = flag
  · subst hv; simpa using infinityLoop_succ v 0 vs
  · simp [hv]

/-- Copying at least `n` bytes into a fresh array of `n` bytes keeps the first `n`. -/
theorem copyBytes_replicate (n : Nat) (src : List Nat) (h : n ≤ src.length) :
    G2.copyBytes (List.replicate n 0) src = src.take n := by
  unfold G2.copyBytes
  rw [List.length_replicate, List.drop_eq_nil_of_le (by rw [List.length_replicate]; exact h),
    List.append_nil]

/-- The working array `in` of `FromUncompressed` is the first 192 bytes. -/
theorem inp_uncompressed (bs : List Nat) (h : 192 ≤ bs.length) :
    G2.copyBytes (List.replicate 192 0) (bs.take 192) = bs.take 192 := by
  rw [copyBytes_replicate 192 _ (by rw [List.length_take]; omega), List.take_take]
  congr 1

/-- The working array `in` of `FromCompressed` is the first 96 bytes. -/
theorem inp_compressed (bs : List Nat) (h : 96 ≤ bs.length) :
    G2.copyBytes (List.replicate 96 0) bs = bs.take 96 :=
  copyBytes_replicate 96 bs h

theorem getD_take_zero (bs : List Nat) (n : Nat) (h : 0 < n) :
    (bs.take n).getD 0 0 = bs.getD 0 0 := by
  cases bs with
  | nil => simp
  | cons b rest =>
    cases n with
    | zero => omega
    | succ m => simp

/-- C8: `FromUncompressed` returns an error for every input whose byte 0 has
bit 7 (compression flag) or bit 5 (sign flag) set, and `FromCompressed` returns
an error for every input whose byte 0 has bit 7 clear. -/
theorem decode_rejects_wrong_flags (c : Consts) (b : Nat) (rest : List Nat) :
    ((b.testBit 7 = true ∨ b.testBit 5 = true) →
      ∃ e, G2.FromUncompressed c (b :: rest) = .error e) ∧
    (b.testBit 7 = false → ∃ e, G2.FromCompressed c (b :: rest) = .error e) := by
  constructor
  · intro hb
    unfold G2.FromUncompressed
    by_cases hl : (b :: rest).length < 192
    · rw [if_pos hl]; exact ⟨_, rfl⟩
    · have hl2 : 192 ≤ (b :: rest).length := by omega
      rw [if_neg hl]
      rw [inp_uncompressed _ hl2]
      have g0 : ((b :: rest).take 192).getD 0 0 = b := by
        rw [getD_take_zero _ 192 (by omega)]; rfl
      simp only [g0, and_bit_ne_zero_iff]
      by_cases h7 : b.testBit 7 = true
      · rw [if_pos h7]; exact ⟨_, rfl⟩
      · have h5 : b.testBit 5 = true := by
          rcases hb with h | h
          · exact absurd h h7
          · exact h
        rw [if_neg h7, if_pos h5]; exact ⟨_, rfl⟩
  · intro hb
    unfold G2.FromCompressed
    by_cases hl : (b :: rest).length < 96
    · rw [if_pos hl]; exact ⟨_, rfl⟩
    · have hl2 : 96 ≤ (b :: rest).length := by omega
      rw [if_neg hl]
      rw [inp_compressed _ hl2]
      have g0 : ((b :: rest).take 96).getD 0 0 = b := by
        rw [getD_take_zero _ 96 (by omega)]; rfl
      simp only [g0, and_bit_eq_zero_iff]
      rw [if_pos hb]; exact ⟨_, rfl⟩

/-- C9, counterexample: a 193-byte input (the 192-byte encoding of the
identity followed by one more byte) is not rejected by `FromUncompressed`, and
a 97-byte input is not rejected by `FromCompressed`. -/
theorem decode_accepts_longer_input :
    (0x40 :: List.replicate 192 0).length ≠ 192 ∧
    G2.FromUncompressed bls (0x40 :: List.replicate 192 0) = .ok (G2.Zero bls) ∧
    (0xc0 :: List.replicate 96 0).length ≠ 96 ∧
    G2.FromCompressed bls (0xc0 :: List.replicate 96 0) = .ok (G2.Zero bls) := by
  set_option maxRecDepth 100000 in decide

/-- C9, amended: `FromUncompressed` returns an error for every input shorter
than 192 bytes and `FromCompressed` for every input shorter than 96 bytes; a
longer input is decoded from its first 192 (respectively 96) bytes alone. -/
theorem decode_length_check (c : Consts) (bs : List Nat) :
    (bs.length < 192 → ∃ e, G2.FromUncompressed c bs = .error e) ∧
    (bs.length < 96 → ∃ e, G2.FromCompressed c bs = .error e) ∧
    (192 ≤ bs.length → G2.FromUncompressed c bs = G2.FromUncompressed c (bs.take 192)) ∧
    (96 ≤ bs.length → G2.FromCompressed c bs = G2.FromCompressed c (bs.take 96)) := by
  refine ⟨?_, ?_, ?_, ?_⟩
  · intro h
    unfold G2.FromUncompressed
    rw [if_pos h]; exact ⟨_, rfl⟩
  · intro h
    unfold G2.FromCompressed
    rw [if_pos h]; exact ⟨_, rfl⟩
  · intro h
    have hl : (bs.take 192).length = 192 := by rw [List.length_take]; omega
    have hA : ¬ bs.length < 192 := by omega
    have hB : ¬ (bs.take 192).length < 192 := by omega
    unfold G2.FromUncompressed
    rw [if_neg hA, if_neg hB, List.take_take, Nat.min_self]
  · intro h
    have hl : (bs.take 96).length = 96 := by rw [List.length_take]; omega
    have hA : ¬ bs.length < 96 := by omega
    have hB : ¬ (bs.take 96).length < 96 := by omega
    unfold G2.FromCompressed
    rw [if_neg hA, if_neg hB, inp_compressed _ h,
      inp_compressed _ (by omega), List.take_take, Nat.min_self]

theorem Copy_eq (p : PointG2) : G2.Copy p = p := rfl

theorem Affine_of_zero (c : Consts) (p : PointG2) (h : p.z = fp2.zero) : G2.Affine c p = p := by
  unfold G2.Affine
  rw [if_pos ((G2.IsZero_iff p).2 h)]

/-- C4: for every point `P` with `Z = 0`, `ToCompressed P` is a 96-byte value
whose byte 0 is `0xC0` (compression and infinity flags set, sign flag clear)
and whose bytes 1..95 are all zero. -/
theorem ToCompressed_identity (c : Consts) (P : PointG2) (h : P.z = fp2.zero) :
    G2.ToCompressed c P = 0xc0 :: List.replicate 95 0 := by
  unfold G2.ToCompressed
  rw [Affine_of_zero c P h]
  simp only [(G2.IsZero_iff P).2 h, if_true]
  rfl

/-- C4 at the identity `(0, 1, 0)` of BLS12-381. -/
theorem ToCompressed_identity_witness :
    (G2.Zero bls).z = fp2.zero ∧
    G2.ToCompressed bls (G2.Zero bls) = 0xc0 :: List.replicate 95 0 :=
  ⟨rfl, ToCompressed_identity bls (G2.Zero bls) rfl⟩

/-- C5: when byte 0 carries the infinity flag (bit 6) and the format's
compression flag (bit 7 clear for the 192-byte form, set for the 96-byte form),
the decoder succeeds exactly when every other bit of the encoding is zero, the
result is then the identity `(0, 1, 0)`, and otherwise the decode fails. -/
theorem decode_infinity (c : Consts) (b : Nat) (rest : List Nat) (h6 : b.testBit 6 = true) :
    (192 ≤ (b :: rest).length → b.testBit 7 = false →
      ((b :: rest).take 192 = 0x40 :: List.replicate 191 0 →
        G2.FromUncompressed c (b :: rest) = .ok (G2.Zero c)) ∧
      ((b :: rest).take 192 ≠ 0x40 :: List.replicate 191 0 →
        ∃ e, G2.FromUncompressed c (b :: rest) = .error e)) ∧
    (96 ≤ (b :: rest).length → b.testBit 7 = true →
      ((b :: rest).take 96 = 0xc0 :: List.replicate 95 0 →
        G2.FromCompressed c (b :: rest) = .ok (G2.Zero c)) ∧
      ((b :: rest).take 96 ≠ 0xc0 :: List.replicate 95 0 →
        ∃ e, G2.FromCompressed c (b :: rest) = .error e)) := by
  constructor
  · intro hl h7
    have hA : ¬ (b :: rest).length < 192 := by omega
    have g0 : ((b :: rest).take 192).getD 0 0 = b := by
      rw [getD_take_zero _ 192 (by omega)]; rfl
    have e1 : (b :: rest).take 192 = b :: rest.take 191 := rfl
    have len : (rest.take 191).length = 191 := by
      rw [List.length_take]; simp only [List.length_cons] at hl; omega
    have loop := infinityLoop_zero 0x40 b (rest.take 191)
    rw [len] at loop
    unfold G2.FromUncompressed
    rw [if_neg hA, inp_uncompressed _ hl]
    simp only [g0, and_bit_ne_zero_iff, h6, h7, if_true, Bool.false_eq_true, if_false]
    cases h5 : b.testBit 5
    swap
    · simp only [if_true]
      constructor
      · intro hb
        rw [e1] at hb
        have hb0 : b = 0x40 := (List.cons.inj hb).1
        rw [hb0] at h5
        exact absurd h5 (by decide)
      · intro _; exact ⟨_, rfl⟩
    · simp only [Bool.false_eq_true, if_false]
      rw [e1]
      constructor
      · intro hb
        rw [if_pos (loop.2 hb)]
      · intro hb
        have : ¬ G2.infinityLoop 0x40 0 (b :: rest.take 191) = true := fun hh => hb (loop.1 hh)
        rw [if_neg this]; exact ⟨_, rfl⟩
  · intro hl h7
    have hA : ¬ (b :: rest).length < 96 := by omega
    have g0 : ((b :: rest).take 96).getD 0 0 = b := by
      rw [getD_take_zero _ 96 (by omega)]; rfl
    have e1 : (b :: rest).take 96 = b :: rest.take 95 := rfl
    have len : (rest.take 95).length = 95 := by
      rw [List.length_take]; simp only [List.length_cons] at hl; omega
    have loop := infinityLoop_zero 0xc0 b (rest.take 95)
    rw [len] at loop
    unfold G2.FromCompressed
    rw [if_neg hA, inp_compressed _ hl]
    simp only [g0, and_bit_ne_zero_iff, and_bit_eq_zero_iff, h6, h7, if_true,
      Bool.true_eq_false, if_false]
    rw [e1]
    constructor
    · intro hb
      rw [if_pos (loop.2 hb)]
    · intro hb
      have : ¬ G2.infinityLoop 0xc0 0 (b :: rest.take 95) = true := fun hh => hb (loop.1 hh)
      rw [if_neg this]; exact ⟨_, rfl⟩

/-- C5 at the two encodings of the identity. -/
theorem decode_infinity_witness :
    Nat.testBit 0x40 6 = true ∧
    G2.FromUncompressed bls (0x40 :: List.replicate 191 0) = .ok (G2.Zero bls) :=
  ⟨by decide,
   ((decode_infinity bls 0x40 (List.replicate 191 0) (by decide)).1
      (by rw [List.length_cons, List.length_replicate]) (by decide)).1 rfl⟩

/-! ## Evaluations at the BLS12-381 constants -/

/-- C1, the failing input: the identity `(0, 1, 0)` is on the curve and in the
subgroup, `ToUncompressed` writes the infinity flag and then overwrites byte 0
with the encoding of `x = 0`, and `FromUncompressed` rejects the result. -/
theorem uncompressed_identity_roundtrip_fails :
    G2.IsOnCurve bls (G2.Zero bls) = true ∧
    G2.InCorrectSubgroup bls (G2.Zero bls) = true ∧
    G2.ToUncompressed bls (G2.Zero bls) = List.replicate 191 0 ++ [1] ∧
    G2.FromUncompressed bls (G2.ToUncompressed bls (G2.Zero bls)) =
      .error "point is not on curve" := by
  set_option maxRecDepth 100000 in decide

/-- C3, the failing input: `pointYInFp` is on the curve, its `y` is `-3 + 0u`,
which is lexicographically greater than `-y = 3 + 0u`, and `ToCompressed`
leaves bit 5 of byte 0 clear. -/
theorem ToCompressed_sign_missing :
    G2.IsOnCurve bls pointYInFp = true ∧
    G2.IsZero pointYInFp = false ∧
    fp2.fromMont bls pointYInFp.y = ⟨modulus - 3, 0⟩ ∧
    fp2.neg bls (fp2.fromMont bls pointYInFp.y) = ⟨3, 0⟩ ∧
    ((G2.ToCompressed bls pointYInFp).getD 0 0).testBit 5 = false := by
  set_option maxRecDepth 100000 in decide

/-- C6, the failing input: 192 bytes whose first 96 decode to the `Fp2` zero
and whose last 96 are `0xff` (a value above the modulus) make `FromBytes`
panic. -/
theorem FromBytes_panics :
    (List.replicate 96 0 ++ List.replicate 96 0xff).length = 192 ∧
    fp2.fromBytes bls (List.replicate 96 0) = .ok fp2.zero ∧
    G2.FromBytes bls (List.replicate 96 0 ++ List.replicate 96 0xff) =
      .panic "must be less than modulus" := by
  set_option maxRecDepth 100000 in decide

/-! ## Decoders return valid points -/

theorem Add_of_zero_left (c : Consts) (p1 p2 : PointG2) (h : G2.IsZero p1 = true) :
    G2.Add c p1 p2 = p2 := by
  unfold G2.Add; rw [if_pos h]; rfl

theorem Double_of_zero (c : Consts) (p : PointG2) (h : G2.IsZero p = true) :
    G2.Double c p = p := by
  unfold G2.Double; rw [if_pos h]; rfl

theorem mulScalarLoop_zero (c : Consts) (e : Nat) (k i : Nat) (q n : PointG2)
    (hq : G2.IsZero q = true) (hn : G2.IsZero n = true) :
    G2.IsZero (G2.mulScalarLoop c e k i q n) = true := by
  induction k generalizing i q n with
  | zero => simpa [G2.mulScalarLoop] using hq
  | succ k ih =>
    unfold G2.mulScalarLoop
    apply ih
    · by_cases hb : e.testBit i = true
      · simp only [hb, if_true, Add_of_zero_left c q n hq, hn]
      · simp only [hb, if_false, hq]; simpa using hq
    · rw [Double_of_zero c n hn]; exact hn

theorem InCorrectSubgroup_of_zero (c : Consts) (p : PointG2) (h : G2.IsZero p = true) :
    G2.InCorrectSubgroup c p = true := by
  unfold G2.InCorrectSubgroup G2.MulScalar
  exact mulScalarLoop_zero c c.q _ 0 G2.empty (G2.Copy p) rfl h

theorem fromBytes_canon {c : Consts} (h : c.Mont) {bs : List Nat} {a : Nat}
    (hb : fromBytes c bs = .ok a) : a < c.p := by
  unfold fromBytes at hb
  split at hb
  · cases hb
  · split at hb
    · cases hb
    · cases hb; exact mul_lt h _ _

theorem fp2.fromBytes2_canon {c : Consts} (h : c.Mont) {bs : List Nat} {a : fe2}
    (hb : fp2.fromBytes c bs = .ok a) : a.Canon c := by
  unfold fp2.fromBytes at hb
  split at hb
  · cases hb
  · split at hb
    · cases hb
    · rename_i c1 h1
      split at hb
      · cases hb
      · rename_i c0 h0
        cases hb
        exact ⟨Bls12381.fromBytes_canon h h0, Bls12381.fromBytes_canon h h1⟩

theorem fp2.canon_sqrtCandidate {c : Consts} (h : c.Mont) (a : fe2) :
    (fp2.sqrtCandidate c a).Canon c := by
  unfold fp2.sqrtCandidate
  simp only
  split
  · exact ⟨neg_lt (fp2.canon_mul h _ _).2, (fp2.canon_mul h _ _).1⟩
  · exact fp2.canon_mul h _ _

/-- The square root is verified by re-squaring: a returned root is canonical
and squares to the argument. -/
theorem fp2.sqrt_sound {c : Consts} (h : c.Mont) {a y : fe2} (hs : fp2.sqrt c a = some y) :
    fp2.square c y = a ∧ y.Canon c := by
  unfold fp2.sqrt at hs
  simp only at hs
  split at hs
  · rename_i heq
    cases hs
    exact ⟨(fp2.equal_iff _ _).1 heq, fp2.canon_sqrtCandidate h a⟩
  · cases hs

theorem one_ne_zero {c : Consts} (h : c.Mont) : one c ≠ 0 := by
  intro h0
  have := h.rinv_ok
  unfold one at h0
  rw [Nat.mul_mod, h0, Nat.zero_mul, Nat.zero_mod] at this
  exact absurd this (by decide)

theorem fp2.one_not_zero {c : Consts} (h : c.Mont) : fp2.isZero (fp2.one c) = false := by
  have := Bls12381.one_ne_zero h
  simp [fp2.isZero, fp2.one, this]

/-- An affine point `(x, y, 1)` whose `y` squares to `x³ + b2` passes `IsOnCurve`. -/
theorem IsOnCurve_affine {c : Consts} (h : c.Mont) {x y : fe2} (hx : x.Canon c)
    (hy : y.Canon c)
    (hv : val2 c y * val2 c y = val2 c x * val2 c x * val2 c x + val2 c c.b2) :
    G2.IsOnCurve c ⟨x, y, fp2.one c⟩ = true := by
  have hb : c.b2.Canon c := ⟨h.b2_c0, h.b2_c1⟩
  unfold G2.IsOnCurve G2.IsZero
  simp only [fp2.one_not_zero h, Bool.false_eq_true, if_false, fp2.equal_iff]
  apply fp2.val2_inj h (fp2.canon_square h _)
    (fp2.canon_add (fp2.canon_mul h _ _) (fp2.canon_mul h _ _))
  rw [fp2.val2_add, fp2.val2_mul h, fp2.val2_mul h, fp2.val2_mul h,
    fp2.val2_square _ hy, fp2.val2_square _ hx,
    fp2.val2_square _ (fp2.canon_square h _), fp2.val2_square _ (fp2.canon_one h),
    fp2.val2_one h, hv]
  ring

theorem Zero_valid (c : Consts) :
    G2.IsOnCurve c (G2.Zero c) = true ∧ G2.InCorrectSubgroup c (G2.Zero c) = true :=
  ⟨rfl, InCorrectSubgroup_of_zero c _ rfl⟩

theorem FromUncompressed_sound (c : Consts) (bs : List Nat) (P : PointG2)
    (h : G2.FromUncompressed c bs = .ok P) :
    G2.IsOnCurve c P = true ∧ G2.InCorrectSubgroup c P = true ∧
      (P = G2.Zero c ∨ P.z = fp2.one c) := by
  unfold G2.FromUncompressed at h
  by_cases hl : bs.length < 192
  · rw [if_pos hl] at h; cases h
  rw [if_neg hl, inp_uncompressed _ (by omega)] at h
  simp only at h
  split at h
  · cases h
  split at h
  · cases h
  split at h
  · split at h
    · cases h
      exact ⟨(Zero_valid c).1, (Zero_valid c).2, Or.inl rfl⟩
    · cases h
  split at h
  · cases h
  split at h
  · cases h
  split at h
  · cases h
  split at h
  · cases h
  rename_i hc hs
  cases h
  exact ⟨by simpa using hc, by simpa using hs, Or.inr rfl⟩

theorem FromCompressed_sound (c : Consts) (hm : c.Mont) (bs : List Nat) (P : PointG2)
    (h : G2.FromCompressed c bs = .ok P) :
    G2.IsOnCurve c P = true ∧ G2.InCorrectSubgroup c P = true ∧
      (P = G2.Zero c ∨ P.z = fp2.one c) := by
  unfold G2.FromCompressed at h
  by_cases hl : bs.length < 96
  · rw [if_pos hl] at h; cases h
  rw [if_neg hl, inp_compressed _ (by omega)] at h
  simp only at h
  split at h
  · cases h
  split at h
  · split at h
    · cases h
      exact ⟨(Zero_valid c).1, (Zero_valid c).2, Or.inl rfl⟩
    · cases h
  split at h
  · cases h
  rename_i x hx
  split at h
  · cases h
  rename_i y hy
  have cx := fp2.fromBytes2_canon hm hx
  obtain ⟨sq, cy⟩ := fp2.sqrt_sound hm hy
  have hb : c.b2.Canon c := ⟨hm.b2_c0, hm.b2_c1⟩
  have hv : val2 c y * val2 c y = val2 c x * val2 c x * val2 c x + val2 c c.b2 := by
    have := congrArg (val2 c) sq
    rw [fp2.val2_square _ cy, fp2.val2_add, fp2.val2_mul hm, fp2.val2_square _ cx] at this
    exact this
  split at h
  · split at h
    · cases h
    rename_i hs
    cases h
    refine ⟨?_, by simpa using hs, Or.inr rfl⟩
    apply IsOnCurve_affine hm cx (fp2.canon_neg cy)
    show val2 c (fp2.neg c y) * val2 c (fp2.neg c y) = _
    rw [fp2.val2_neg _ _ cy, ← hv]; ring
  · split at h
    · cases h
    rename_i hs
    cases h
    exact ⟨IsOnCurve_affine hm cx cy hv, by simpa using hs, Or.inr rfl⟩

/-- C7: every point that `FromUncompressed` or `FromCompressed` returns
without error satisfies `IsOnCurve` and `InCorrectSubgroup`, and is either the
identity `(0, 1, 0)` or in affine form (`Z = 1`). -/
theorem decoded_point_valid (c : Consts) (hm : c.Mont) (bs : List Nat) (P : PointG2)
    (h : G2.FromUncompressed c bs = .ok P ∨ G2.FromCompressed c bs = .ok P) :
    G2.IsOnCurve c P = true ∧ G2.InCorrectSubgroup c P = true ∧
      (P = G2.Zero c ∨ P.z = fp2.one c) := by
  rcases h with h | h
  · exact FromUncompressed_sound c bs P h
  · exact FromCompressed_sound c hm bs P h

/-! ## The constants are sane -/

theorem bls_mont : bls.Mont :=
  ⟨by decide, by decide, by decide, by decide, by norm_num [bls, modulus]⟩

theorem toy_mont : toy.Mont :=
  ⟨by decide, by decide, by decide, by decide, by norm_num [toy]⟩

theorem toy_valid : toy.Valid :=
  ⟨toy_mont, by norm_num [toy], by decide⟩

/-- The encoding of the generator decodes to the generator. -/
theorem gen_decodes : G2.FromCompressed bls genBytes = .ok gen := by
  set_option maxRecDepth 100000 in decide!

/-- C7 at the standard generator of BLS12-381. -/
theorem decoded_point_valid_witness :
    bls.Mont ∧ G2.FromCompressed bls genBytes = .ok gen ∧
      G2.IsOnCurve bls gen = true ∧ G2.InCorrectSubgroup bls gen = true ∧
      (gen = G2.Zero bls ∨ gen.z = fp2.one bls) :=
  ⟨bls_mont, gen_decodes, decoded_point_valid bls bls_mont genBytes gen (Or.inr gen_decodes)⟩

/-! ## Equality of points -/

/-- C10: for all points `p1 = (X1, Y1, Z1)` and `p2 = (X2, Y2, Z2)`,
`Equal p1 p2` is true when both have `Z = 0`, false when exactly one has
`Z = 0`, and otherwise true if and only if the affine coordinates agree:
`X1/Z1² = X2/Z2²` and `Y1/Z1³ = Y2/Z2³`. -/
theorem Equal_spec (c : Consts) (hc : c.Valid) (p1 p2 : PointG2)
    (h1 : p1.Canon c) (h2 : p2.Canon c) :
    (p1.z = fp2.zero → p2.z = fp2.zero → G2.Equal c p1 p2 = true) ∧
    (p1.z = fp2.zero → p2.z ≠ fp2.zero → G2.Equal c p1 p2 = false) ∧
    (p1.z ≠ fp2.zero → p2.z = fp2.zero → G2.Equal c p1 p2 = false) ∧
    (p1.z ≠ fp2.zero → p2.z ≠ fp2.zero →
      (G2.Equal c p1 p2 = true ↔
        (val2 c p1.x / val2 c p1.z ^ 2 = val2 c p2.x / val2 c p2.z ^ 2 ∧
         val2 c p1.y / val2 c p1.z ^ 3 = val2 c p2.y / val2 c p2.z ^ 3))) := by
  haveI : Fact c.p.Prime := ⟨hc.prime⟩
  haveI : Fact (c.p % 4 = 3) := ⟨hc.mod4⟩
  refine ⟨?_, ?_, ?_, ?_⟩
  · intro z1 z2
    have n1 := (G2.IsZero_iff p1).2 z1
    have n2 := (G2.IsZero_iff p2).2 z2
    simp [G2.Equal, n1, n2]
  · intro z1 z2
    have n1 := (G2.IsZero_iff p1).2 z1
    have n2 := (G2.IsZero_eq_false_iff p2).2 z2
    simp [G2.Equal, n1, n2]
  · intro z1 z2
    have n1 := (G2.IsZero_eq_false_iff p1).2 z1
    have n2 := (G2.IsZero_iff p2).2 z2
    simp [G2.Equal, n1, n2]
  · intro z1 z2
    rw [G2.Equal_nonzero_iff hc.mont h1 h2 z1 z2]
    have v1 := G2.val2_z_ne_zero hc.mont h1 z1
    have v2 := G2.val2_z_ne_zero hc.mont h2 z2
    constructor
    · rintro ⟨e1, e2⟩
      constructor
      · field_simp
        linear_combination -e2
      · field_simp
        linear_combination -e1
    · rintro ⟨e1, e2⟩
      field_simp at e1 e2
      constructor
      · linear_combination -e2
      · linear_combination -e1

/-- C10 on two Jacobian representatives of one point of the small curve. -/
theorem Equal_spec_witness :
    toy.Valid ∧
    PointG2.Canon toy ⟨⟨0, 7⟩, ⟨2, 13⟩, ⟨7, 0⟩⟩ ∧
    PointG2.Canon toy ⟨⟨10, 2⟩, ⟨13, 10⟩, ⟨14, 7⟩⟩ ∧
    G2.Equal toy ⟨⟨0, 7⟩, ⟨2, 13⟩, ⟨7, 0⟩⟩ ⟨⟨10, 2⟩, ⟨13, 10⟩, ⟨14, 7⟩⟩ = true ∧
    (val2 toy ⟨0, 7⟩ / val2 toy ⟨7, 0⟩ ^ 2 = val2 toy ⟨10, 2⟩ / val2 toy ⟨14, 7⟩ ^ 2 ∧
     val2 toy ⟨2, 13⟩ / val2 toy ⟨7, 0⟩ ^ 3 = val2 toy ⟨13, 10⟩ / val2 toy ⟨14, 7⟩ ^ 3) :=
  have hE : G2.Equal toy ⟨⟨0, 7⟩, ⟨2, 13⟩, ⟨7, 0⟩⟩ ⟨⟨10, 2⟩, ⟨13, 10⟩, ⟨14, 7⟩⟩ = true := by
    decide
  ⟨toy_valid, by decide, by decide, hE,
    ((Equal_spec toy toy_valid ⟨⟨0, 7⟩, ⟨2, 13⟩, ⟨7, 0⟩⟩ ⟨⟨10, 2⟩, ⟨13, 10⟩, ⟨14, 7⟩⟩
      (by decide) (by decide)).2.2.2 (by decide) (by decide)).1 hE⟩

/-! ## The compressed round trip and the sign bit -/

/-- On the small curve the compressed round trip of `toyPointYInFp`, a point on
the curve and of order `q`, returns the opposite point: `ToCompressed` leaves
the sign bit clear because `y.c1 = 0`, and `FromCompressed` then selects the
smaller root. -/
theorem compressed_roundtrip_small_curve :
    G2.IsOnCurve toy toyPointYInFp = true ∧
    G2.InCorrectSubgroup toy toyPointYInFp = true ∧
    G2.FromCompressed toy (G2.ToCompressed toy toyPointYInFp) =
      .ok (G2.Neg toy toyPointYInFp) ∧
    G2.Equal toy (G2.Neg toy toyPointYInFp) toyPointYInFp = false := by
  set_option maxRecDepth 100000 in decide!

/-- On BLS12-381 the compressed round trip of the generator and of its double
(kept in Jacobian form) returns an equal point. -/
theorem compressed_roundtrip_generator :
    G2.FromCompressed bls (G2.ToCompressed bls gen) = .ok gen ∧
    G2.Equal bls (G2.Affine bls (G2.Double bls gen)) (G2.Double bls gen) = true ∧
    G2.FromCompressed bls (G2.ToCompressed bls (G2.Double bls gen)) =
      .ok (G2.Affine bls (G2.Double bls gen)) := by
  set_option maxRecDepth 100000 in decide!

/-! ## Bit length -/

theorem bitLenAux_spec (fuel e : Nat) (h : e ≤ fuel) :
    e < 2 ^ bitLenAux fuel e ∧ (e ≠ 0 → 2 ^ (bitLenAux fuel e - 1) ≤ e) := by
  induction fuel generalizing e with
  | zero =>
    have : e = 0 := by omega
    subst this
    simp [bitLenAux]
  | succ f ih =>
    unfold bitLenAux
    by_cases h0 : e = 0
    · subst h0; simp
    · rw [if_neg h0]
      have hle : e / 2 ≤ f := by omega
      obtain ⟨h1, h2⟩ := ih (e / 2) hle
      constructor
      · rw [pow_succ]; omega
      · intro _
        rw [Nat.add_sub_cancel]
        by_cases h3 : e / 2 = 0
        · have : bitLenAux f (e / 2) = 0 := by
            rw [h3]; cases f <;> simp [bitLenAux]
          rw [this]; simp; omega
        · have h4 := h2 h3
          have h5 : 0 < bitLenAux f (e / 2) := by
            rcases Nat.eq_zero_or_pos (bitLenAux f (e / 2)) with hz | hz
            · rw [hz] at h1; simp at h1; omega
            · exact hz
          have h6 : 2 ^ bitLenAux f (e / 2) = 2 ^ (bitLenAux f (e / 2) - 1) * 2 := by
            rw [← pow_succ]; congr 1; omega
          omega

/-- The model of `BitLen`: `bitLen e` is the number of binary digits of `e`. -/
theorem bitLen_spec (e : Nat) :
    e < 2 ^ bitLen e ∧ (e ≠ 0 → 2 ^ (bitLen e - 1) ≤ e) :=
  bitLenAux_spec e e (Nat.le_refl e)

/-! ## Scalar multiplication by zero and one -/

/-- C18: for every point `P`, `MulScalar P 0` is a point for which `IsZero`
holds and which `Equal` reports equal to `Zero()`, and `MulScalar P 1` is `P`
with identical coordinates. -/
theorem MulScalar_zero_one (c : Consts) (P : PointG2) :
    G2.IsZero (G2.MulScalar c P 0) = true ∧
    G2.Equal c (G2.MulScalar c P 0) (G2.Zero c) = true ∧
    G2.MulScalar c P 1 = P := by
  have h0 : G2.MulScalar c P 0 = G2.empty := rfl
  have h1 : G2.MulScalar c P 1 = P := by
    show G2.Copy (G2.mulScalarLoop c 1 1 0 G2.empty (G2.Copy P)) = P
    unfold G2.mulScalarLoop
    have hb : Nat.testBit 1 0 = true := by decide
    rw [if_pos hb, Add_of_zero_left c G2.empty (G2.Copy P) rfl]
    rfl
  refine ⟨by rw [h0]; rfl, by rw [h0]; rfl, h1⟩

/-! ## Addition with a zero operand -/

theorem Add_of_zero_right (c : Consts) (p1 p2 : PointG2) (h1 : G2.IsZero p1 = false)
    (h2 : G2.IsZero p2 = true) : G2.Add c p1 p2 = p1 := by
  unfold G2.Add
  rw [if_neg (by simp [h1]), if_pos h2]; rfl

/-- C13, counterexample: the all-zero point `PointG2{}` (what `MulScalar`
starts from and returns for `e = 0`) has `Z = 0`; adding the identity
`(0, 1, 0)` on the right returns `(0, 1, 0)`, not the coordinates of `P`. -/
theorem Add_zero_zero_returns_other :
    G2.empty.z = fp2.zero ∧ (G2.Zero bls).z = fp2.zero ∧
    G2.Add bls G2.empty (G2.Zero bls) = G2.Zero bls ∧
    G2.Add bls G2.empty (G2.Zero bls) ≠ G2.empty := by
  decide

/-- C13, amended: for every point `O` with `Z = 0`, if `P` has `Z ≠ 0` then
`Add P O` and `Add O P` both return `P` with identical coordinates; if `P` has
`Z = 0` as well, `Add P O` returns the coordinates of `O` and `Add O P` those of
`P` (the other operand, a zero point either way). -/
theorem Add_zero_operand (c : Consts) (P O : PointG2) (hO : O.z = fp2.zero) :
    (P.z ≠ fp2.zero → G2.Add c P O = P ∧ G2.Add c O P = P) ∧
    (P.z = fp2.zero → G2.Add c P O = O ∧ G2.Add c O P = P) := by
  have zO : G2.IsZero O = true := (G2.IsZero_iff O).2 hO
  constructor
  · intro hP
    exact ⟨Add_of_zero_right c P O ((G2.IsZero_eq_false_iff P).2 hP) zO,
      Add_of_zero_left c O P zO⟩
  · intro hP
    exact ⟨Add_of_zero_left c P O ((G2.IsZero_iff P).2 hP), Add_of_zero_left c O P zO⟩

/-- C13 amended, at the generator and the identity of BLS12-381. -/
theorem Add_zero_operand_witness :
    (G2.Zero bls).z = fp2.zero ∧
    G2.Add bls gen (G2.Zero bls) = gen ∧ G2.Add bls (G2.Zero bls) gen = gen :=
  ⟨rfl, (Add_zero_operand bls gen (G2.Zero bls) rfl).1 (by decide)⟩

/-! ## Addition of equal points -/

/-- The two comparisons of `Add`, at the level of field values. -/
theorem Add_tests {c : Consts} (h : c.Mont) {p1 p2 : PointG2}
    (h1 : p1.Canon c) (h2 : p2.Canon c) :
    (fp2.equal (fp2.mul c p2.x (fp2.square c p1.z)) (fp2.mul c p1.x (fp2.square c p2.z)) = true ↔
      val2 c p1.z ^ 2 * val2 c p2.x = val2 c p2.z ^ 2 * val2 c p1.x) ∧
    (fp2.equal (fp2.mul c p2.y (fp2.mul c p1.z (fp2.square c p1.z)))
        (fp2.mul c p1.y (fp2.mul c p2.z (fp2.square c p2.z))) = true ↔
      val2 c p1.z ^ 3 * val2 c p2.y = val2 c p2.z ^ 3 * val2 c p1.y) := by
  constructor
  · rw [fp2.equal_iff]
    constructor
    · intro e
      have e := congrArg (val2 c) e
      simp only [fp2.val2_mul h, fp2.val2_square _ h1.2.2, fp2.val2_square _ h2.2.2] at e
      linear_combination e
    · intro e
      apply fp2.val2_inj h (fp2.canon_mul h _ _) (fp2.canon_mul h _ _)
      simp only [fp2.val2_mul h, fp2.val2_square _ h1.2.2, fp2.val2_square _ h2.2.2]
      linear_combination e
  · rw [fp2.equal_iff]
    constructor
    · intro e
      have e := congrArg (val2 c) e
      simp only [fp2.val2_mul h, fp2.val2_square _ h1.2.2, fp2.val2_square _ h2.2.2] at e
      linear_combination e
    · intro e
      apply fp2.val2_inj h (fp2.canon_mul h _ _) (fp2.canon_mul h _ _)
      simp only [fp2.val2_mul h, fp2.val2_square _ h1.2.2, fp2.val2_square _ h2.2.2]
      linear_combination e

/-- C15: for all non-zero points `p1` and `p2` that `Equal` reports equal,
`Add p1 p2` returns exactly the coordinates of `Double p1`. -/
theorem Add_equal_is_Double (c : Consts) (hc : c.Mont) (p1 p2 : PointG2)
    (h1 : p1.Canon c) (h2 : p2.Canon c)
    (z1 : p1.z ≠ fp2.zero) (z2 : p2.z ≠ fp2.zero)
    (he : G2.Equal c p1 p2 = true) :
    G2.Add c p1 p2 = G2.Double c p1 := by
  obtain ⟨ey, ex⟩ := (G2.Equal_nonzero_iff hc h1 h2 z1 z2).1 he
  obtain ⟨tx, ty⟩ := Add_tests hc h1 h2
  have n1 : G2.IsZero p1 = false := (G2.IsZero_eq_false_iff p1).2 z1
  have n2 : G2.IsZero p2 = false := (G2.IsZero_eq_false_iff p2).2 z2
  unfold G2.Add
  simp only [n1, n2, Bool.false_eq_true, if_false]
  rw [if_pos (tx.2 ex), if_pos (ty.2 ey)]

/-- C15 on two Jacobian representatives of one point of the small curve. -/
theorem Add_equal_is_Double_witness :
    toy.Mont ∧
    G2.Equal toy ⟨⟨0, 7⟩, ⟨2, 13⟩, ⟨7, 0⟩⟩ ⟨⟨10, 2⟩, ⟨13, 10⟩, ⟨14, 7⟩⟩ = true ∧
    G2.Add toy ⟨⟨0, 7⟩, ⟨2, 13⟩, ⟨7, 0⟩⟩ ⟨⟨10, 2⟩, ⟨13, 10⟩, ⟨14, 7⟩⟩ =
      G2.Double toy ⟨⟨0, 7⟩, ⟨2, 13⟩, ⟨7, 0⟩⟩ :=
  ⟨toy_mont, by decide,
    Add_equal_is_Double toy toy_mont ⟨⟨0, 7⟩, ⟨2, 13⟩, ⟨7, 0⟩⟩ ⟨⟨10, 2⟩, ⟨13, 10⟩, ⟨14, 7⟩⟩
      (by decide) (by decide) (by decide) (by decide) (by decide)⟩

/-! ## Exponentiation and inversion -/

theorem testBit_exponent (e i : Nat) :
    e % 2 ^ (i + 1) = e % 2 ^ i + 2 ^ i * (if e.testBit i then 1 else 0) := by
  rw [Nat.mod_pow_succ, Nat.testBit_to_div_mod]
  congr 2
  rcases Nat.mod_two_eq_zero_or_one (e / 2 ^ i) with h | h <;> simp [h]

theorem val_expLoop (c : Consts) (a e : Nat) (i : Nat) (z : Nat) :
    val c (expLoop c a e i z) = val c z ^ (2 ^ i) * val c a ^ (e % 2 ^ i) := by
  induction i generalizing z with
  | zero => simp [expLoop, Nat.mod_one]
  | succ i ih =>
    unfold expLoop
    simp only
    rw [ih, testBit_exponent e i]
    by_cases hb : e.testBit i = true
    · simp only [hb, if_true, val_mul, val_square]
      ring
    · simp only [hb, Bool.false_eq_true, if_false, val_square]
      ring

theorem val_exp {c : Consts} (h : c.Mont) (a e : Nat) : val c (exp c a e) = val c a ^ e := by
  unfold exp
  rw [val_expLoop, val_one h, one_pow, one_mul, Nat.mod_eq_of_lt (bitLen_spec e).1]

theorem exp_lt {c : Consts} (h : c.Mont) (a e : Nat) : exp c a e < c.p := by
  unfold exp
  have : ∀ i z, z < c.p → expLoop c a e i z < c.p := by
    intro i
    induction i with
    | zero => intro z hz; simpa [expLoop] using hz
    | succ i ih =>
      intro z hz
      unfold expLoop
      apply ih
      split
      · exact mul_lt h _ _
      · exact mul_lt h _ _
  exact this _ _ (one_lt h)

theorem val_inverse {c : Consts} (h : c.Valid) (a : Nat) :
    val c (inverse c a) = (val c a)⁻¹ := by
  haveI : Fact c.p.Prime := ⟨h.prime⟩
  unfold inverse
  rw [val_exp h.mont]
  have hp3 : 3 ≤ c.p := by
    have := h.mod4
    have := h.prime.two_le
    omega
  by_cases h0 : val c a = 0
  · rw [h0, inv_zero, zero_pow (by omega)]
  · have h1 : val c a ^ (c.p - 1) = 1 := ZMod.pow_card_sub_one_eq_one h0
    have h2 : val c a ^ (c.p - 2) * val c a = 1 := by
      rw [← pow_succ]
      have : c.p - 2 + 1 = c.p - 1 := by omega
      rw [this, h1]
    exact eq_inv_of_mul_eq_one_left h2

theorem fp2.val2_inverse {c : Consts} (h : c.Valid) (a : fe2) :
    val2 c (fp2.inverse c a) = (val2 c a)⁻¹ := by
  have hm := h.mont
  ext
  · simp only [val2, fp2.inverse, F2.inv_re, val_mul, val_inverse h, val_add, val_square]
  · simp only [val2, fp2.inverse, F2.inv_im, val_mul, val_inverse h, val_add, val_square,
      val_neg _ _ (mul_lt hm _ _).le]

theorem fp2.canon_inverse {c : Consts} (h : c.Mont) (a : fe2) :
    (fp2.inverse c a).Canon c :=
  ⟨mul_lt h _ _, neg_lt (mul_lt h _ _)⟩

/-! ## The curve equation -/

/-- What `IsOnCurve` computes on a non-zero point, at the level of field values. -/
theorem IsOnCurve_nonzero_iff {c : Consts} (h : c.Mont) {P : PointG2} (hP : P.Canon c)
    (hz : P.z ≠ fp2.zero) :
    G2.IsOnCurve c P = true ↔
      val2 c P.y ^ 2 = val2 c P.x ^ 3 + val2 c c.b2 * val2 c P.z ^ 6 := by
  have n1 : G2.IsZero P = false := (G2.IsZero_eq_false_iff P).2 hz
  have hb : c.b2.Canon c := ⟨h.b2_c0, h.b2_c1⟩
  have key : val2 c (fp2.add c (fp2.mul c (fp2.square c P.x) P.x)
      (fp2.mul c c.b2 (fp2.mul c (fp2.square c P.z) (fp2.square c (fp2.square c P.z))))) =
      val2 c P.x ^ 3 + val2 c c.b2 * val2 c P.z ^ 6 := by
    rw [fp2.val2_add, fp2.val2_mul h, fp2.val2_mul h, fp2.val2_mul h,
      fp2.val2_square _ hP.1, fp2.val2_square _ (fp2.canon_square h _),
      fp2.val2_square _ hP.2.2]
    ring
  unfold G2.IsOnCurve
  simp only [n1, Bool.false_eq_true, if_false, fp2.equal_iff]
  constructor
  · intro e
    have e := congrArg (val2 c) e
    rw [key, fp2.val2_square _ hP.2.1] at e
    rw [← e]; ring
  · intro e
    apply fp2.val2_inj h (fp2.canon_square h _)
      (fp2.canon_add (fp2.canon_mul h _ _) (fp2.canon_mul h _ _))
    rw [key, fp2.val2_square _ hP.2.1, ← e]; ring

/-- C11: for every point `p = (X, Y, Z)`, `IsOnCurve p` is true when `Z = 0`,
and when `Z ≠ 0` it is true if and only if `Y² = X³ + b2·Z⁶`, equivalently if
and only if the affine point `(X/Z², Y/Z³)` satisfies `y² = x³ + b2`. -/
theorem IsOnCurve_spec (c : Consts) (hc : c.Valid) (P : PointG2) (hP : P.Canon c) :
    (P.z = fp2.zero → G2.IsOnCurve c P = true) ∧
    (P.z ≠ fp2.zero →
      (G2.IsOnCurve c P = true ↔
        val2 c P.y ^ 2 = val2 c P.x ^ 3 + val2 c c.b2 * val2 c P.z ^ 6) ∧
      (G2.IsOnCurve c P = true ↔
        (val2 c P.y / val2 c P.z ^ 3) ^ 2 =
          (val2 c P.x / val2 c P.z ^ 2) ^ 3 + val2 c c.b2)) := by
  haveI : Fact c.p.Prime := ⟨hc.prime⟩
  haveI : Fact (c.p % 4 = 3) := ⟨hc.mod4⟩
  constructor
  · intro hz
    unfold G2.IsOnCurve
    rw [if_pos ((G2.IsZero_iff P).2 hz)]
  · intro hz
    have v := G2.val2_z_ne_zero hc.mont hP hz
    have e1 := IsOnCurve_nonzero_iff hc.mont hP hz
    refine ⟨e1, e1.trans ?_⟩
    constructor
    · intro e
      field_simp
      linear_combination (val2 c P.z ^ 6) * e
    · intro e
      field_simp at e
      apply mul_right_cancel₀ (pow_ne_zero 6 v)
      linear_combination e

/-- C11 on a Jacobian representative of a point of the small curve. -/
theorem IsOnCurve_spec_witness :
    toy.Valid ∧ PointG2.Canon toy ⟨⟨10, 2⟩, ⟨13, 10⟩, ⟨14, 7⟩⟩ ∧
    G2.IsOnCurve toy ⟨⟨10, 2⟩, ⟨13, 10⟩, ⟨14, 7⟩⟩ = true ∧
    (val2 toy ⟨13, 10⟩ / val2 toy ⟨14, 7⟩ ^ 3) ^ 2 =
      (val2 toy ⟨10, 2⟩ / val2 toy ⟨14, 7⟩ ^ 2) ^ 3 + val2 toy toy.b2 :=
  have hE : G2.IsOnCurve toy ⟨⟨10, 2⟩, ⟨13, 10⟩, ⟨14, 7⟩⟩ = true := by decide
  ⟨toy_valid, by decide, hE,
    (((IsOnCurve_spec toy toy_valid ⟨⟨10, 2⟩, ⟨13, 10⟩, ⟨14, 7⟩⟩ (by decide)).2
      (by decide)).2).1 hE⟩

/-! ## Affine form -/

theorem Affine_canon {c : Consts} (h : c.Mont) {P : PointG2} (hP : P.Canon c) :
    (G2.Affine c P).Canon c := by
  unfold G2.Affine
  split
  · exact hP
  · split
    · exact ⟨fp2.canon_mul h _ _, fp2.canon_mul h _ _, fp2.canon_one h⟩
    · exact hP

/-- The coordinates `Affine` computes on a non-zero point. -/
theorem Affine_nonzero {c : Consts} (hc : c.Valid) {P : PointG2} (hP : P.Canon c)
    (hz : P.z ≠ fp2.zero) :
    val2 c (G2.Affine c P).x = val2 c P.x / val2 c P.z ^ 2 ∧
    val2 c (G2.Affine c P).y = val2 c P.y / val2 c P.z ^ 3 ∧
    (G2.Affine c P).z = fp2.one c := by
  haveI : Fact c.p.Prime := ⟨hc.prime⟩
  haveI : Fact (c.p % 4 = 3) := ⟨hc.mod4⟩
  have hm := hc.mont
  have n1 : G2.IsZero P = false := (G2.IsZero_eq_false_iff P).2 hz
  have v := G2.val2_z_ne_zero hm hP hz
  unfold G2.Affine
  simp only [n1, Bool.false_eq_true, if_false]
  by_cases ha : G2.IsAffine c P = true
  · simp only [ha, Bool.not_true, Bool.false_eq_true, if_false]
    have hz1 : P.z = fp2.one c := (fp2.equal_iff _ _).1 ha
    have hv1 : val2 c P.z = 1 := by rw [hz1, fp2.val2_one hm]
    rw [hv1]
    simp [hz1]
  · simp only [ha, Bool.not_false, if_true, fp2.copy]
    refine ⟨?_, ?_, trivial⟩
    · rw [fp2.val2_mul hm, fp2.val2_square _ (fp2.canon_inverse hm _), fp2.val2_inverse hc,
        div_eq_mul_inv]
      ring
    · rw [fp2.val2_mul hm, fp2.val2_mul hm, fp2.val2_square _ (fp2.canon_inverse hm _),
        fp2.val2_inverse hc, div_eq_mul_inv]
      ring

/-- C12: for every point `p = (X, Y, Z)` with `Z ≠ 0`, `Affine p` yields
`(X/Z², Y/Z³, 1)`, which `Equal` reports equal to the original `p`; for every
`p` with `Z = 0`, `Affine p` leaves all three coordinates unchanged. -/
theorem Affine_spec (c : Consts) (hc : c.Valid) (P : PointG2) (hP : P.Canon c) :
    (P.z ≠ fp2.zero →
      val2 c (G2.Affine c P).x = val2 c P.x / val2 c P.z ^ 2 ∧
      val2 c (G2.Affine c P).y = val2 c P.y / val2 c P.z ^ 3 ∧
      (G2.Affine c P).z = fp2.one c ∧
      G2.Equal c (G2.Affine c P) P = true) ∧
    (P.z = fp2.zero → G2.Affine c P = P) := by
  haveI : Fact c.p.Prime := ⟨hc.prime⟩
  haveI : Fact (c.p % 4 = 3) := ⟨hc.mod4⟩
  have hm := hc.mont
  constructor
  · intro hz
    obtain ⟨ex, ey, ez⟩ := Affine_nonzero hc hP hz
    refine ⟨ex, ey, ez, ?_⟩
    have v := G2.val2_z_ne_zero hm hP hz
    have za : (G2.Affine c P).z ≠ fp2.zero := by
      rw [ez]
      intro h0
      have := fp2.one_not_zero hm
      rw [h0] at this
      exact absurd this (by decide)
    rw [G2.Equal_nonzero_iff hm (Affine_canon hm hP) hP za hz, ex, ey, ez, fp2.val2_one hm]
    constructor
    · field_simp
    · field_simp
  · intro hz
    exact Affine_of_zero c P hz

/-- C12 on a Jacobian representative of a point of the small curve. -/
theorem Affine_spec_witness :
    toy.Valid ∧ PointG2.Canon toy ⟨⟨10, 2⟩, ⟨13, 10⟩, ⟨14, 7⟩⟩ ∧
    G2.Affine toy ⟨⟨10, 2⟩, ⟨13, 10⟩, ⟨14, 7⟩⟩ = ⟨⟨0, 7⟩, ⟨2, 13⟩, ⟨7, 0⟩⟩ ∧
    G2.Equal toy (G2.Affine toy ⟨⟨10, 2⟩, ⟨13, 10⟩, ⟨14, 7⟩⟩) ⟨⟨10, 2⟩, ⟨13, 10⟩, ⟨14, 7⟩⟩ = true :=
  ⟨toy_valid, by decide, by decide,
    ((Affine_spec toy toy_valid ⟨⟨10, 2⟩, ⟨13, 10⟩, ⟨14, 7⟩⟩ (by decide)).1 (by decide)).2.2.2⟩

/-! ## Canonical representatives and their values -/

theorem Rep2.of_canon {c : Consts} {a : fe2} (h : a.Canon c) : Rep2 c a (val2 c a) := ⟨h, rfl⟩

theorem Rep2.congr {c : Consts} {a : fe2} {v w : F2 c.p} (h : Rep2 c a v) (e : v = w) :
    Rep2 c a w := e ▸ h

theorem Rep2.add {c : Consts} {a b : fe2} {va vb : F2 c.p} (ha : Rep2 c a va)
    (hb : Rep2 c b vb) : Rep2 c (fp2.add c a b) (va + vb) :=
  ⟨fp2.canon_add ha.1 hb.1, by rw [fp2.val2_add, ha.2, hb.2]⟩

theorem Rep2.sub {c : Consts} {a b : fe2} {va vb : F2 c.p} (ha : Rep2 c a va)
    (hb : Rep2 c b vb) : Rep2 c (fp2.sub c a b) (va - vb) :=
  ⟨fp2.canon_sub ha.1 hb.1, by rw [fp2.val2_sub _ _ _ hb.1, ha.2, hb.2]⟩

theorem Rep2.double {c : Consts} {a : fe2} {va : F2 c.p} (ha : Rep2 c a va) :
    Rep2 c (fp2.double c a) (2 * va) :=
  ⟨fp2.canon_double ha.1, by rw [fp2.val2_double, ha.2]⟩

theorem Rep2.neg {c : Consts} {a : fe2} {va : F2 c.p} (ha : Rep2 c a va) :
    Rep2 c (fp2.neg c a) (-va) :=
  ⟨fp2.canon_neg ha.1, by rw [fp2.val2_neg _ _ ha.1, ha.2]⟩

theorem Rep2.mul {c : Consts} (hm : c.Mont) {a b : fe2} {va vb : F2 c.p} (ha : Rep2 c a va)
    (hb : Rep2 c b vb) : Rep2 c (fp2.mul c a b) (va * vb) :=
  ⟨fp2.canon_mul hm _ _, by rw [fp2.val2_mul hm, ha.2, hb.2]⟩

theorem Rep2.square {c : Consts} (hm : c.Mont) {a : fe2} {va : F2 c.p} (ha : Rep2 c a va) :
    Rep2 c (fp2.square c a) (va * va) :=
  ⟨fp2.canon_square hm _, by rw [fp2.val2_square _ ha.1, ha.2]⟩

/-! ## Doubling -/

/-- The field values `Double` computes on a non-zero point (formulas
`dbl-2009-l`); the result is canonical. -/
theorem Double_nonzero {c : Consts} (hm : c.Mont) {P : PointG2} (hP : P.Canon c)
    (hz : P.z ≠ fp2.zero) :
    Rep2 c (G2.Double c P).x
      ((3 * val2 c P.x ^ 2) ^ 2 - 8 * val2 c P.x * val2 c P.y ^ 2) ∧
    Rep2 c (G2.Double c P).y
      (3 * val2 c P.x ^ 2 * (4 * val2 c P.x * val2 c P.y ^ 2 -
        ((3 * val2 c P.x ^ 2) ^ 2 - 8 * val2 c P.x * val2 c P.y ^ 2)) - 8 * val2 c P.y ^ 4) ∧
    Rep2 c (G2.Double c P).z (2 * val2 c P.y * val2 c P.z) := by
  have n1 : G2.IsZero P = false := (G2.IsZero_eq_false_iff P).2 hz
  have hx := Rep2.of_canon hP.1
  have hy := Rep2.of_canon hP.2.1
  have hzc := Rep2.of_canon hP.2.2
  unfold G2.Double
  simp only [n1, Bool.false_eq_true, if_false, fp2.copy]
  refine ⟨?_, ?_, ?_⟩
  · apply Rep2.congr
    · with_reducible repeat' first
        | exact hx | exact hy | exact hzc | apply Rep2.add | apply Rep2.sub | apply Rep2.double
        | apply Rep2.mul hm | apply Rep2.square hm
    · ring
  · apply Rep2.congr
    · with_reducible repeat' first
        | exact hx | exact hy | exact hzc | apply Rep2.add | apply Rep2.sub | apply Rep2.double
        | apply Rep2.mul hm | apply Rep2.square hm
    · ring
  · apply Rep2.congr
    · exact Rep2.double (Rep2.mul hm hy hzc)
    · ring

/-! ## The tangent and chord rules in Jacobian coordinates -/

theorem tangent_x {F : Type} [Field F] (X Y Z : F) (h2 : (2 : F) ≠ 0) (hY : Y ≠ 0) (hZ : Z ≠ 0) :
    ((3 * X ^ 2) ^ 2 - 8 * X * Y ^ 2) / (2 * Y * Z) ^ 2 =
      (3 * (X / Z ^ 2) ^ 2 / (2 * (Y / Z ^ 3))) ^ 2 - 2 * (X / Z ^ 2) := by
  field_simp
  ring

theorem tangent_y {F : Type} [Field F] (X Y Z : F) (h2 : (2 : F) ≠ 0) (hY : Y ≠ 0) (hZ : Z ≠ 0) :
    (3 * X ^ 2 * (4 * X * Y ^ 2 - ((3 * X ^ 2) ^ 2 - 8 * X * Y ^ 2)) - 8 * Y ^ 4) / (2 * Y * Z) ^ 3 =
      (3 * (X / Z ^ 2) ^ 2 / (2 * (Y / Z ^ 3))) *
        (X / Z ^ 2 - ((3 * (X / Z ^ 2) ^ 2 / (2 * (Y / Z ^ 3))) ^ 2 - 2 * (X / Z ^ 2)))
        - Y / Z ^ 3 := by
  have e1 : 3 * (X / Z ^ 2) ^ 2 / (2 * (Y / Z ^ 3)) = 3 * X ^ 2 / (2 * Y * Z) := by
    field_simp
    ring
  rw [e1]
  rw [div_eq_iff (pow_ne_zero 3 (mul_ne_zero (mul_ne_zero h2 hY) hZ))]
  have hd : (2 * Y * Z) ≠ 0 := mul_ne_zero (mul_ne_zero h2 hY) hZ
  have e2 : X / Z ^ 2 = 4 * X * Y ^ 2 / (2 * Y * Z) ^ 2 := by
    field_simp
    ring
  have e3 : Y / Z ^ 3 = 8 * Y ^ 4 / (2 * Y * Z) ^ 3 := by
    field_simp
    ring
  rw [e2, e3]
  generalize 2 * Y * Z = D at hd ⊢
  field_simp
  ring

theorem chord_den {F : Type} [Field F] (X1 Z1 X2 Z2 : F) (h1 : Z1 ≠ 0) (h2 : Z2 ≠ 0) :
    X2 / Z2 ^ 2 - X1 / Z1 ^ 2 = (X2 * Z1 ^ 2 - X1 * Z2 ^ 2) / (Z1 ^ 2 * Z2 ^ 2) := by
  field_simp
  ring

theorem chord_slope {F : Type} [Field F] (X1 Y1 Z1 X2 Y2 Z2 : F) (h2 : (2 : F) ≠ 0)
    (hZ1 : Z1 ≠ 0) (hZ2 : Z2 ≠ 0) (hH : X2 * Z1 ^ 2 - X1 * Z2 ^ 2 ≠ 0) :
    (Y2 / Z2 ^ 3 - Y1 / Z1 ^ 3) / (X2 / Z2 ^ 2 - X1 / Z1 ^ 2) =
      2 * (Y2 * Z1 ^ 3 - Y1 * Z2 ^ 3) / (2 * Z1 * Z2 * (X2 * Z1 ^ 2 - X1 * Z2 ^ 2)) := by
  rw [chord_den X1 Z1 X2 Z2 hZ1 hZ2]
  field_simp
  ring

theorem chord_x {F : Type} [Field F] (X1 Y1 Z1 X2 Y2 Z2 : F) (h2 : (2 : F) ≠ 0)
    (hZ1 : Z1 ≠ 0) (hZ2 : Z2 ≠ 0) (hH : X2 * Z1 ^ 2 - X1 * Z2 ^ 2 ≠ 0) :
    ((2 * (Y2 * Z1 ^ 3 - Y1 * Z2 ^ 3)) ^ 2
        - 4 * (X2 * Z1 ^ 2 - X1 * Z2 ^ 2) ^ 2 * (X2 * Z1 ^ 2 + X1 * Z2 ^ 2)) /
      (2 * Z1 * Z2 * (X2 * Z1 ^ 2 - X1 * Z2 ^ 2)) ^ 2 =
    ((Y2 / Z2 ^ 3 - Y1 / Z1 ^ 3) / (X2 / Z2 ^ 2 - X1 / Z1 ^ 2)) ^ 2
      - X1 / Z1 ^ 2 - X2 / Z2 ^ 2 := by
  rw [chord_slope X1 Y1 Z1 X2 Y2 Z2 h2 hZ1 hZ2 hH]
  have hd : 2 * Z1 * Z2 * (X2 * Z1 ^ 2 - X1 * Z2 ^ 2) ≠ 0 :=
    mul_ne_zero (mul_ne_zero (mul_ne_zero h2 hZ1) hZ2) hH
  have e1 : X1 / Z1 ^ 2 = 4 * X1 * Z2 ^ 2 * (X2 * Z1 ^ 2 - X1 * Z2 ^ 2) ^ 2 /
      (2 * Z1 * Z2 * (X2 * Z1 ^ 2 - X1 * Z2 ^ 2)) ^ 2 := by
    field_simp
    ring
  have e2 : X2 / Z2 ^ 2 = 4 * X2 * Z1 ^ 2 * (X2 * Z1 ^ 2 - X1 * Z2 ^ 2) ^ 2 /
      (2 * Z1 * Z2 * (X2 * Z1 ^ 2 - X1 * Z2 ^ 2)) ^ 2 := by
    field_simp
    ring
  rw [e1, e2]
  generalize 2 * Z1 * Z2 * (X2 * Z1 ^ 2 - X1 * Z2 ^ 2) = D at hd ⊢
  field_simp
  ring

theorem chord_y {F : Type} [Field F] (X1 Y1 Z1 X2 Y2 Z2 X3 : F) (h2 : (2 : F) ≠ 0)
    (hZ1 : Z1 ≠ 0) (hZ2 : Z2 ≠ 0) (hH : X2 * Z1 ^ 2 - X1 * Z2 ^ 2 ≠ 0) :
    (2 * (Y2 * Z1 ^ 3 - Y1 * Z2 ^ 3) *
        (4 * X1 * Z2 ^ 2 * (X2 * Z1 ^ 2 - X1 * Z2 ^ 2) ^ 2 - X3)
        - 8 * Y1 * Z2 ^ 3 * (X2 * Z1 ^ 2 - X1 * Z2 ^ 2) ^ 3) /
      (2 * Z1 * Z2 * (X2 * Z1 ^ 2 - X1 * Z2 ^ 2)) ^ 3 =
    ((Y2 / Z2 ^ 3 - Y1 / Z1 ^ 3) / (X2 / Z2 ^ 2 - X1 / Z1 ^ 2)) *
      (X1 / Z1 ^ 2 - X3 / (2 * Z1 * Z2 * (X2 * Z1 ^ 2 - X1 * Z2 ^ 2)) ^ 2) - Y1 / Z1 ^ 3 := by
  rw [chord_slope X1 Y1 Z1 X2 Y2 Z2 h2 hZ1 hZ2 hH]
  have hd : 2 * Z1 * Z2 * (X2 * Z1 ^ 2 - X1 * Z2 ^ 2) ≠ 0 :=
    mul_ne_zero (mul_ne_zero (mul_ne_zero h2 hZ1) hZ2) hH
  have e1 : X1 / Z1 ^ 2 = 4 * X1 * Z2 ^ 2 * (X2 * Z1 ^ 2 - X1 * Z2 ^ 2) ^ 2 /
      (2 * Z1 * Z2 * (X2 * Z1 ^ 2 - X1 * Z2 ^ 2)) ^ 2 := by
    field_simp
    ring
  have e3 : Y1 / Z1 ^ 3 = 8 * Y1 * Z2 ^ 3 * (X2 * Z1 ^ 2 - X1 * Z2 ^ 2) ^ 3 /
      (2 * Z1 * Z2 * (X2 * Z1 ^ 2 - X1 * Z2 ^ 2)) ^ 3 := by
    field_simp
    ring
  rw [e1, e3]
  generalize 2 * Z1 * Z2 * (X2 * Z1 ^ 2 - X1 * Z2 ^ 2) = D at hd ⊢
  field_simp
  ring

/-! ## Addition of points with different `x` -/

/-- The field values `Add` computes when neither operand is zero and the
affine `x`-coordinates differ (formulas `add-2007-bl`); the result is
canonical. -/
theorem Add_generic {c : Consts} (hm : c.Mont) {p1 p2 : PointG2}
    (h1 : p1.Canon c) (h2 : p2.Canon c) (z1 : p1.z ≠ fp2.zero) (z2 : p2.z ≠ fp2.zero)
    (hH : val2 c p2.x * val2 c p1.z ^ 2 - val2 c p1.x * val2 c p2.z ^ 2 ≠ 0) :
    Rep2 c (G2.Add c p1 p2).x
      ((2 * (val2 c p2.y * val2 c p1.z ^ 3 - val2 c p1.y * val2 c p2.z ^ 3)) ^ 2
        - 4 * (val2 c p2.x * val2 c p1.z ^ 2 - val2 c p1.x * val2 c p2.z ^ 2) ^ 2
          * (val2 c p2.x * val2 c p1.z ^ 2 + val2 c p1.x * val2 c p2.z ^ 2)) ∧
    Rep2 c (G2.Add c p1 p2).y
      (2 * (val2 c p2.y * val2 c p1.z ^ 3 - val2 c p1.y * val2 c p2.z ^ 3) *
        (4 * val2 c p1.x * val2 c p2.z ^ 2
            * (val2 c p2.x * val2 c p1.z ^ 2 - val2 c p1.x * val2 c p2.z ^ 2) ^ 2
          - ((2 * (val2 c p2.y * val2 c p1.z ^ 3 - val2 c p1.y * val2 c p2.z ^ 3)) ^ 2
            - 4 * (val2 c p2.x * val2 c p1.z ^ 2 - val2 c p1.x * val2 c p2.z ^ 2) ^ 2
              * (val2 c p2.x * val2 c p1.z ^ 2 + val2 c p1.x * val2 c p2.z ^ 2)))
        - 8 * val2 c p1.y * val2 c p2.z ^ 3
          * (val2 c p2.x * val2 c p1.z ^ 2 - val2 c p1.x * val2 c p2.z ^ 2) ^ 3) ∧
    Rep2 c (G2.Add c p1 p2).z
      (2 * val2 c p1.z * val2 c p2.z
        * (val2 c p2.x * val2 c p1.z ^ 2 - val2 c p1.x * val2 c p2.z ^ 2)) := by
  have n1 : G2.IsZero p1 = false := (G2.IsZero_eq_false_iff p1).2 z1
  have n2 : G2.IsZero p2 = false := (G2.IsZero_eq_false_iff p2).2 z2
  have hx1 := Rep2.of_canon h1.1
  have hy1 := Rep2.of_canon h1.2.1
  have hz1 := Rep2.of_canon h1.2.2
  have hx2 := Rep2.of_canon h2.1
  have hy2 := Rep2.of_canon h2.2.1
  have hz2 := Rep2.of_canon h2.2.2
  have ne : ¬ fp2.equal (fp2.mul c p2.x (fp2.square c p1.z))
      (fp2.mul c p1.x (fp2.square c p2.z)) = true := by
    intro he
    apply hH
    have := (Add_tests hm h1 h2).1.1 he
    linear_combination this
  unfold G2.Add
  simp only [n1, n2, Bool.false_eq_true, if_false]
  rw [if_neg ne]
  refine ⟨?_, ?_, ?_⟩
  · apply Rep2.congr
    · with_reducible repeat' first
        | exact hx1 | exact hy1 | exact hz1 | exact hx2 | exact hy2 | exact hz2
        | apply Rep2.add | apply Rep2.sub | apply Rep2.double
        | apply Rep2.mul hm | apply Rep2.square hm
    · ring
  · apply Rep2.congr
    · with_reducible repeat' first
        | exact hx1 | exact hy1 | exact hz1 | exact hx2 | exact hy2 | exact hz2
        | apply Rep2.add | apply Rep2.sub | apply Rep2.double
        | apply Rep2.mul hm | apply Rep2.square hm
    · ring
  · apply Rep2.congr
    · with_reducible repeat' first
        | exact hx1 | exact hy1 | exact hz1 | exact hx2 | exact hy2 | exact hz2
        | apply Rep2.add | apply Rep2.sub | apply Rep2.double
        | apply Rep2.mul hm | apply Rep2.square hm
    · ring

theorem F2.two_ne_zero {p : Nat} (hp : p.Prime) (h4 : p % 4 = 3) : (2 : F2 p) ≠ 0 := by
  intro h
  have h2 : ((2 : F2 p)).re = 0 := by rw [h]; rfl
  rw [← one_add_one_eq_two] at h2
  simp only [F2.add_re, F2.one_re] at h2
  have h3 : ((2 : Nat) : ZMod p) = 0 := by
    push_cast
    rw [← one_add_one_eq_two]; exact h2
  rw [ZMod.natCast_zmod_eq_zero_iff_dvd] at h3
  have := Nat.le_of_dvd (by norm_num) h3
  have := hp.two_le
  omega

theorem ne_zero_of_val2 {c : Consts} {a : fe2} (h : val2 c a ≠ 0) : a ≠ fp2.zero := by
  rintro rfl
  exact h (fp2.val2_zero c)

/-- C17: `Double p` returns `p` unchanged when `p` has `Z = 0`; for every `p`
with `Z ≠ 0` and `Y ≠ 0` it returns a point with `Z ≠ 0` whose affine
coordinates are the tangent-rule double of the affine point `(x, y)` of `p`:
with `l = 3x²/(2y)`, `x3 = l² − 2x` and `y3 = l·(x − x3) − y`. -/
theorem Double_spec (c : Consts) (hc : c.Valid) (P : PointG2) (hP : P.Canon c) :
    (P.z = fp2.zero → G2.Double c P = P) ∧
    (P.z ≠ fp2.zero → P.y ≠ fp2.zero →
      (G2.Double c P).z ≠ fp2.zero ∧
      val2 c (G2.Double c P).x / val2 c (G2.Double c P).z ^ 2 =
        (3 * (val2 c P.x / val2 c P.z ^ 2) ^ 2 / (2 * (val2 c P.y / val2 c P.z ^ 3))) ^ 2
          - 2 * (val2 c P.x / val2 c P.z ^ 2) ∧
      val2 c (G2.Double c P).y / val2 c (G2.Double c P).z ^ 3 =
        (3 * (val2 c P.x / val2 c P.z ^ 2) ^ 2 / (2 * (val2 c P.y / val2 c P.z ^ 3))) *
          (val2 c P.x / val2 c P.z ^ 2 -
            ((3 * (val2 c P.x / val2 c P.z ^ 2) ^ 2 / (2 * (val2 c P.y / val2 c P.z ^ 3))) ^ 2
              - 2 * (val2 c P.x / val2 c P.z ^ 2)))
          - val2 c P.y / val2 c P.z ^ 3) := by
  haveI : Fact c.p.Prime := ⟨hc.prime⟩
  haveI : Fact (c.p % 4 = 3) := ⟨hc.mod4⟩
  have hm := hc.mont
  constructor
  · intro hz
    exact Double_of_zero c P ((G2.IsZero_iff P).2 hz)
  · intro hz hy
    obtain ⟨ex, ey, ez⟩ := Double_nonzero hm hP hz
    have vz := G2.val2_z_ne_zero hm hP hz
    have vy : val2 c P.y ≠ 0 := fun h0 => hy ((fp2.val2_eq_zero_iff hm hP.2.1).1 h0)
    have v2 := F2.two_ne_zero hc.prime hc.mod4
    have vz3 : val2 c (G2.Double c P).z ≠ 0 := by
      rw [ez.2]; exact mul_ne_zero (mul_ne_zero v2 vy) vz
    refine ⟨ne_zero_of_val2 vz3, ?_, ?_⟩
    · rw [ex.2, ez.2]
      exact tangent_x _ _ _ v2 vy vz
    · rw [ey.2, ez.2]
      exact tangent_y _ _ _ v2 vy vz

/-- C17 on a Jacobian representative of a point of the small curve. -/
theorem Double_spec_witness :
    toy.Valid ∧ PointG2.Canon toy ⟨⟨10, 2⟩, ⟨13, 10⟩, ⟨14, 7⟩⟩ ∧
    (G2.Double toy ⟨⟨10, 2⟩, ⟨13, 10⟩, ⟨14, 7⟩⟩).z ≠ fp2.zero :=
  ⟨toy_valid, by decide,
    ((Double_spec toy toy_valid ⟨⟨10, 2⟩, ⟨13, 10⟩, ⟨14, 7⟩⟩ (by decide)).2
      (by decide) (by decide)).1⟩

/-! ## The chord rule -/

theorem affine_x_ne_iff {c : Consts} (hc : c.Valid) {p1 p2 : PointG2}
    (v1 : val2 c p1.z ≠ 0) (v2 : val2 c p2.z ≠ 0) :
    val2 c p1.x / val2 c p1.z ^ 2 ≠ val2 c p2.x / val2 c p2.z ^ 2 ↔
      val2 c p2.x * val2 c p1.z ^ 2 - val2 c p1.x * val2 c p2.z ^ 2 ≠ 0 := by
  haveI : Fact c.p.Prime := ⟨hc.prime⟩
  haveI : Fact (c.p % 4 = 3) := ⟨hc.mod4⟩
  rw [Ne, Ne, div_eq_div_iff (pow_ne_zero 2 v1) (pow_ne_zero 2 v2), sub_eq_zero]
  constructor
  · intro h e; exact h (by rw [e])
  · intro h e; exact h (by rw [e])

/-- C16: for all non-zero points `p1`, `p2` whose affine `x`-coordinates
`x1 = X1/Z1²` and `x2 = X2/Z2²` differ, `Add p1 p2` returns a point with
`Z ≠ 0` whose affine coordinates are the chord-rule sum: with
`l = (y2 − y1)/(x2 − x1)`, `x3 = l² − x1 − x2` and `y3 = l·(x1 − x3) − y1`. -/
theorem Add_chord (c : Consts) (hc : c.Valid) (p1 p2 : PointG2)
    (h1 : p1.Canon c) (h2 : p2.Canon c) (z1 : p1.z ≠ fp2.zero) (z2 : p2.z ≠ fp2.zero)
    (hx : val2 c p1.x / val2 c p1.z ^ 2 ≠ val2 c p2.x / val2 c p2.z ^ 2) :
    (G2.Add c p1 p2).z ≠ fp2.zero ∧
    val2 c (G2.Add c p1 p2).x / val2 c (G2.Add c p1 p2).z ^ 2 =
      ((val2 c p2.y / val2 c p2.z ^ 3 - val2 c p1.y / val2 c p1.z ^ 3) /
        (val2 c p2.x / val2 c p2.z ^ 2 - val2 c p1.x / val2 c p1.z ^ 2)) ^ 2
        - val2 c p1.x / val2 c p1.z ^ 2 - val2 c p2.x / val2 c p2.z ^ 2 ∧
    val2 c (G2.Add c p1 p2).y / val2 c (G2.Add c p1 p2).z ^ 3 =
      ((val2 c p2.y / val2 c p2.z ^ 3 - val2 c p1.y / val2 c p1.z ^ 3) /
        (val2 c p2.x / val2 c p2.z ^ 2 - val2 c p1.x / val2 c p1.z ^ 2)) *
        (val2 c p1.x / val2 c p1.z ^ 2 -
          val2 c (G2.Add c p1 p2).x / val2 c (G2.Add c p1 p2).z ^ 2)
        - val2 c p1.y / val2 c p1.z ^ 3 := by
  haveI : Fact c.p.Prime := ⟨hc.prime⟩
  haveI : Fact (c.p % 4 = 3) := ⟨hc.mod4⟩
  have hm := hc.mont
  have v1 := G2.val2_z_ne_zero hm h1 z1
  have v2 := G2.val2_z_ne_zero hm h2 z2
  have hH := (affine_x_ne_iff hc v1 v2).1 hx
  obtain ⟨ex, ey, ez⟩ := Add_generic hm h1 h2 z1 z2 hH
  have t2 := F2.two_ne_zero hc.prime hc.mod4
  have vz3 : val2 c (G2.Add c p1 p2).z ≠ 0 := by
    rw [ez.2]; exact mul_ne_zero (mul_ne_zero (mul_ne_zero t2 v1) v2) hH
  refine ⟨ne_zero_of_val2 vz3, ?_, ?_⟩
  · rw [ex.2, ez.2]
    exact chord_x _ _ _ _ _ _ t2 v1 v2 hH
  · rw [ey.2, ex.2, ez.2]
    exact chord_y _ _ _ _ _ _ _ t2 v1 v2 hH

/-- C16 on two points of the small curve, one of them not in affine form. -/
theorem Add_chord_witness :
    toy.Valid ∧
    val2 toy (⟨7, 3⟩ : fe2) / val2 toy (fp2.one toy) ^ 2 ≠
      val2 toy (⟨10, 2⟩ : fe2) / val2 toy (⟨14, 7⟩ : fe2) ^ 2 ∧
    (G2.Add toy toyPointYInFp ⟨⟨10, 2⟩, ⟨13, 10⟩, ⟨14, 7⟩⟩).z ≠ fp2.zero :=
  have hx : val2 toy toyPointYInFp.x / val2 toy toyPointYInFp.z ^ 2 ≠
      val2 toy (⟨10, 2⟩ : fe2) / val2 toy (⟨14, 7⟩ : fe2) ^ 2 := by
    rw [@affine_x_ne_iff toy toy_valid toyPointYInFp ⟨⟨10, 2⟩, ⟨13, 10⟩, ⟨14, 7⟩⟩
      (by decide) (by decide)]
    decide
  ⟨toy_valid, hx,
    (Add_chord toy toy_valid toyPointYInFp ⟨⟨10, 2⟩, ⟨13, 10⟩, ⟨14, 7⟩⟩
      (by decide) (by decide) (by decide) (by decide) hx).1⟩

/-! ## Addition of opposite points -/

/-- C14: for all non-zero points `p1` and `p2` that represent affine points
with the same `x` and opposite `y` (in particular `p2 = Neg p1`, in any
Jacobian representative), `Add p1 p2` returns a point for which `IsZero`
holds. -/
theorem Add_opposite (c : Consts) (hc : c.Valid) (p1 p2 : PointG2)
    (h1 : p1.Canon c) (h2 : p2.Canon c) (z1 : p1.z ≠ fp2.zero) (z2 : p2.z ≠ fp2.zero)
    (hx : val2 c p1.x / val2 c p1.z ^ 2 = val2 c p2.x / val2 c p2.z ^ 2)
    (hy : val2 c p2.y / val2 c p2.z ^ 3 = -(val2 c p1.y / val2 c p1.z ^ 3)) :
    G2.IsZero (G2.Add c p1 p2) = true := by
  haveI : Fact c.p.Prime := ⟨hc.prime⟩
  haveI : Fact (c.p % 4 = 3) := ⟨hc.mod4⟩
  have hm := hc.mont
  have v1 := G2.val2_z_ne_zero hm h1 z1
  have v2 := G2.val2_z_ne_zero hm h2 z2
  have n1 : G2.IsZero p1 = false := (G2.IsZero_eq_false_iff p1).2 z1
  have n2 : G2.IsZero p2 = false := (G2.IsZero_eq_false_iff p2).2 z2
  obtain ⟨tx, ty⟩ := Add_tests hm h1 h2
  have ex : val2 c p1.z ^ 2 * val2 c p2.x = val2 c p2.z ^ 2 * val2 c p1.x := by
    field_simp at hx
    linear_combination -hx
  have ey : val2 c p1.z ^ 3 * val2 c p2.y = -(val2 c p2.z ^ 3 * val2 c p1.y) := by
    field_simp at hy
    linear_combination hy
  unfold G2.Add
  simp only [n1, n2, Bool.false_eq_true, if_false]
  rw [if_pos (tx.2 ex)]
  split
  · rename_i he
    have e2 := ty.1 he
    have t2 := F2.two_ne_zero hc.prime hc.mod4
    have hy0 : val2 c p1.y = 0 := by
      have h3 : 2 * val2 c p2.z ^ 3 * val2 c p1.y = 0 := by
        linear_combination ey - e2
      rcases mul_eq_zero.1 h3 with h4 | h4
      · exact absurd h4 (mul_ne_zero t2 (pow_ne_zero 3 v2))
      · exact h4
    obtain ⟨_, _, ez⟩ := Double_nonzero hm h1 z1
    have hzero : val2 c (G2.Double c p1).z = 0 := by
      rw [ez.2, hy0]; ring
    exact (G2.IsZero_iff _).2 ((fp2.val2_eq_zero_iff hm ez.1).1 hzero)
  · rfl

/-- Points that `Equal` reports equal have the same affine coordinates. -/
theorem affine_eq_of_Equal {c : Consts} (hc : c.Valid) {p1 p2 : PointG2}
    (h1 : p1.Canon c) (h2 : p2.Canon c) (z1 : p1.z ≠ fp2.zero) (z2 : p2.z ≠ fp2.zero)
    (he : G2.Equal c p1 p2 = true) :
    val2 c p1.x / val2 c p1.z ^ 2 = val2 c p2.x / val2 c p2.z ^ 2 ∧
    val2 c p1.y / val2 c p1.z ^ 3 = val2 c p2.y / val2 c p2.z ^ 3 := by
  haveI : Fact c.p.Prime := ⟨hc.prime⟩
  haveI : Fact (c.p % 4 = 3) := ⟨hc.mod4⟩
  obtain ⟨e1, e2⟩ := (G2.Equal_nonzero_iff hc.mont h1 h2 z1 z2).1 he
  have v1 := G2.val2_z_ne_zero hc.mont h1 z1
  have v2 := G2.val2_z_ne_zero hc.mont h2 z2
  constructor
  · field_simp
    linear_combination -e2
  · field_simp
    linear_combination -e1

/-- The affine coordinates of `Neg p`. -/
theorem Neg_affine {c : Consts} (hc : c.Valid) {p : PointG2} (hp : p.Canon c) :
    val2 c (G2.Neg c p).x / val2 c (G2.Neg c p).z ^ 2 = val2 c p.x / val2 c p.z ^ 2 ∧
    val2 c (G2.Neg c p).y / val2 c (G2.Neg c p).z ^ 3 = -(val2 c p.y / val2 c p.z ^ 3) := by
  haveI : Fact c.p.Prime := ⟨hc.prime⟩
  haveI : Fact (c.p % 4 = 3) := ⟨hc.mod4⟩
  refine ⟨rfl, ?_⟩
  show val2 c (fp2.neg c p.y) / val2 c p.z ^ 3 = _
  rw [fp2.val2_neg _ _ hp.2.1, neg_div]

/-- C14 on a point of the small curve and the opposite of another Jacobian
representative of it. -/
theorem Add_opposite_witness :
    toy.Valid ∧
    G2.Equal toy ⟨⟨10, 2⟩, ⟨13, 10⟩, ⟨14, 7⟩⟩ ⟨⟨0, 7⟩, ⟨2, 13⟩, ⟨7, 0⟩⟩ = true ∧
    G2.IsZero (G2.Add toy ⟨⟨0, 7⟩, ⟨2, 13⟩, ⟨7, 0⟩⟩
      (G2.Neg toy ⟨⟨10, 2⟩, ⟨13, 10⟩, ⟨14, 7⟩⟩)) = true :=
  have hE : G2.Equal toy ⟨⟨10, 2⟩, ⟨13, 10⟩, ⟨14, 7⟩⟩ ⟨⟨0, 7⟩, ⟨2, 13⟩, ⟨7, 0⟩⟩ = true := by
    decide
  have hA := @affine_eq_of_Equal toy toy_valid ⟨⟨10, 2⟩, ⟨13, 10⟩, ⟨14, 7⟩⟩
    ⟨⟨0, 7⟩, ⟨2, 13⟩, ⟨7, 0⟩⟩ (by decide) (by decide) (by decide) (by decide) hE
  have hN := @Neg_affine toy toy_valid ⟨⟨10, 2⟩, ⟨13, 10⟩, ⟨14, 7⟩⟩ (by decide)
  ⟨toy_valid, hE,
    Add_opposite toy toy_valid ⟨⟨0, 7⟩, ⟨2, 13⟩, ⟨7, 0⟩⟩
      (G2.Neg toy ⟨⟨10, 2⟩, ⟨13, 10⟩, ⟨14, 7⟩⟩)
      (by decide) (by decide) (by decide) (by decide)
      (hA.1.symm.trans hN.1.symm) (hN.2.trans (congrArg Neg.neg hA.2))⟩

/-! ## The group of the curve -/

theorem F2.natCast_re {p : Nat} (n : Nat) : ((n : F2 p)).re = (n : ZMod p) := by
  induction n with
  | zero => simp
  | succ n ih => rw [Nat.cast_succ, F2.add_re, ih, F2.one_re, Nat.cast_succ]

theorem F2.three_ne_zero {p : Nat} (hp : p.Prime) (h3 : p ≠ 3) : (3 : F2 p) ≠ 0 := by
  intro h
  have h2 : (((3 : Nat) : F2 p)).re = 0 := by
    rw [Nat.cast_ofNat, h]; rfl
  rw [F2.natCast_re, ZMod.natCast_zmod_eq_zero_iff_dvd] at h2
  exact h3 ((Nat.prime_dvd_prime_iff_eq hp Nat.prime_three).1 h2)

theorem curve_equation_iff (c : Consts) (x y : F2 c.p) :
    (curve c).Equation x y ↔ y ^ 2 = x ^ 3 + val2 c c.b2 := by
  rw [WeierstrassCurve.Affine.equation_iff]
  simp [curve]

theorem curve_negY (c : Consts) (x y : F2 c.p) : (curve c).negY x y = -y := by
  simp [curve]

theorem val2_b2_ne_zero {c : Consts} (hc : c.Curve) : val2 c c.b2 ≠ 0 := by
  intro h
  exact hc.b2_ne ((fp2.val2_eq_zero_iff hc.valid.mont
    ⟨hc.valid.mont.b2_c0, hc.valid.mont.b2_c1⟩).1 h)

/-- On a smooth curve every point of the curve is nonsingular. -/
theorem curve_nonsingular {c : Consts} (hc : c.Curve) [Fact c.p.Prime] [Fact (c.p % 4 = 3)]
    {x y : F2 c.p} (h : (curve c).Equation x y) : (curve c).Nonsingular x y := by
  rw [WeierstrassCurve.Affine.nonsingular_iff']
  refine ⟨h, ?_⟩
  have e := (curve_equation_iff c x y).1 h
  have t2 := F2.two_ne_zero hc.valid.prime hc.valid.mod4
  have t3 := F2.three_ne_zero hc.valid.prime hc.p_ne3
  have hb := val2_b2_ne_zero hc
  simp only [curve, zero_mul, mul_zero, add_zero, zero_sub, neg_ne_zero]
  by_cases hy : y = 0
  · left
    have hx : x ≠ 0 := by
      rintro rfl
      rw [hy] at e
      apply hb
      have : (0 : F2 c.p) ^ 2 = 0 ^ 3 + val2 c c.b2 := e
      simpa using this.symm
    exact mul_ne_zero t3 (pow_ne_zero 2 hx)
  · right
    exact mul_ne_zero t2 hy

theorem curve_double_coords (c : Consts) [Fact c.p.Prime] [Fact (c.p % 4 = 3)]
    (x y : F2 c.p) (hy : y ≠ (curve c).negY x y) :
    (curve c).addX x x ((curve c).slope x x y y) = (3 * x ^ 2 / (2 * y)) ^ 2 - 2 * x ∧
    (curve c).addY x x y ((curve c).slope x x y y) =
      (3 * x ^ 2 / (2 * y)) * (x - ((3 * x ^ 2 / (2 * y)) ^ 2 - 2 * x)) - y := by
  have hs : (curve c).slope x x y y = 3 * x ^ 2 / (2 * y) := by
    rw [WeierstrassCurve.Affine.slope_of_Y_ne rfl hy]
    simp only [curve, WeierstrassCurve.Affine.negY, mul_zero, zero_mul, add_zero, sub_zero,
      sub_neg_eq_add, ← two_mul]
  rw [hs]
  constructor
  · simp only [curve, WeierstrassCurve.Affine.addX, zero_mul, add_zero, sub_zero]
    ring
  · simp only [curve, WeierstrassCurve.Affine.addY, WeierstrassCurve.Affine.negAddY,
      WeierstrassCurve.Affine.negY, WeierstrassCurve.Affine.addX, zero_mul, add_zero, sub_zero]
    ring

theorem curve_add_coords (c : Consts) [Fact c.p.Prime] [Fact (c.p % 4 = 3)]
    (x1 y1 x2 y2 : F2 c.p) (hx : x1 ≠ x2) :
    (curve c).addX x1 x2 ((curve c).slope x1 x2 y1 y2) =
      ((y2 - y1) / (x2 - x1)) ^ 2 - x1 - x2 ∧
    (curve c).addY x1 x2 y1 ((curve c).slope x1 x2 y1 y2) =
      ((y2 - y1) / (x2 - x1)) * (x1 - (((y2 - y1) / (x2 - x1)) ^ 2 - x1 - x2)) - y1 := by
  have hs : (curve c).slope x1 x2 y1 y2 = (y2 - y1) / (x2 - x1) := by
    rw [WeierstrassCurve.Affine.slope_of_X_ne hx, ← neg_sub y2 y1, ← neg_sub x2 x1,
      neg_div_neg_eq]
  rw [hs]
  constructor
  · simp only [curve, WeierstrassCurve.Affine.addX, zero_mul, add_zero, sub_zero]
  · simp only [curve, WeierstrassCurve.Affine.addY, WeierstrassCurve.Affine.negAddY,
      WeierstrassCurve.Affine.negY, WeierstrassCurve.Affine.addX, zero_mul, add_zero, sub_zero]
    ring

theorem Represents.canon {c : Consts} {P : PointG2} {A : (curve c).Point}
    (h : Represents c P A) : P.Canon c := h.1

theorem Represents.of_zero {c : Consts} {P : PointG2} (hP : P.Canon c) (hz : P.z = fp2.zero) :
    Represents c P 0 := ⟨hP, Or.inl ⟨hz, rfl⟩⟩

theorem Represents.eq_zero {c : Consts} {P : PointG2} {A : (curve c).Point}
    (h : Represents c P A) (hz : P.z = fp2.zero) : A = 0 := by
  rcases h.2 with ⟨_, h0⟩ | ⟨hn, _⟩
  · exact h0
  · exact absurd hz hn

theorem Represents.of_coords {c : Consts} {P : PointG2} (hP : P.Canon c)
    (hz : P.z ≠ fp2.zero) {x y : F2 c.p} (h : (curve c).Nonsingular x y)
    (ex : val2 c P.x / val2 c P.z ^ 2 = x) (ey : val2 c P.y / val2 c P.z ^ 3 = y) :
    Represents c P (WeierstrassCurve.Affine.Point.some h) :=
  ⟨hP, Or.inr ⟨hz, x, y, h, ex.symm, ey.symm, rfl⟩⟩

/-- Every canonical point that passes `IsOnCurve` stands for a point of the curve. -/
theorem Represents.exists_of_IsOnCurve {c : Consts} (hc : c.Curve) {P : PointG2}
    (hP : P.Canon c) (h : G2.IsOnCurve c P = true) : ∃ A, Represents c P A := by
  haveI : Fact c.p.Prime := ⟨hc.valid.prime⟩
  haveI : Fact (c.p % 4 = 3) := ⟨hc.valid.mod4⟩
  by_cases hz : P.z = fp2.zero
  · exact ⟨0, Represents.of_zero hP hz⟩
  · have v := G2.val2_z_ne_zero hc.valid.mont hP hz
    have e := (IsOnCurve_nonzero_iff hc.valid.mont hP hz).1 h
    have heq : (curve c).Equation (val2 c P.x / val2 c P.z ^ 2) (val2 c P.y / val2 c P.z ^ 3) := by
      rw [curve_equation_iff]
      field_simp
      linear_combination (val2 c P.z ^ 6) * e
    exact ⟨_, Represents.of_coords hP hz (curve_nonsingular hc heq) rfl rfl⟩

theorem Represents.of_eq {c : Consts} {P : PointG2} {A B : (curve c).Point}
    (h : Represents c P A) (e : A = B) : Represents c P B := e ▸ h

theorem infinity2_canon {c : Consts} (hm : c.Mont) : (G2.infinity2 c).Canon c :=
  ⟨fp2.canon_zero hm, fp2.canon_one hm, fp2.canon_zero hm⟩

theorem empty_canon {c : Consts} (hm : c.Mont) : G2.empty.Canon c :=
  ⟨fp2.canon_zero hm, fp2.canon_zero hm, fp2.canon_zero hm⟩

/-- Doubling a represented point represents the double in the group of the curve. -/
theorem Represents.of_Double {c : Consts} [Fact c.p.Prime] [Fact (c.p % 4 = 3)] (hc : c.Curve) {P : PointG2} {A : (curve c).Point}
    (h : Represents c P A) : Represents c (G2.Double c P) (A + A) := by
  have hm := hc.valid.mont
  have t2 := F2.two_ne_zero hc.valid.prime hc.valid.mod4
  obtain ⟨hP, ⟨hz, rfl⟩ | ⟨hz, x, y, hns, rfl, rfl, rfl⟩⟩ := h
  · rw [Double_of_zero c P ((G2.IsZero_iff P).2 hz), add_zero]
    exact Represents.of_zero hP hz
  · obtain ⟨ex, ey, ez⟩ := Double_nonzero hm hP hz
    have hD : (G2.Double c P).Canon c := ⟨ex.1, ey.1, ez.1⟩
    have vz := G2.val2_z_ne_zero hm hP hz
    by_cases hy : val2 c P.y = 0
    · have hzero : val2 c (G2.Double c P).z = 0 := by rw [ez.2, hy]; ring
      have hz0 : (G2.Double c P).z = fp2.zero := (fp2.val2_eq_zero_iff hm ez.1).1 hzero
      have hneg : val2 c P.y / val2 c P.z ^ 3 =
          (curve c).negY (val2 c P.x / val2 c P.z ^ 2) (val2 c P.y / val2 c P.z ^ 3) := by
        rw [curve_negY, hy]; simp
      rw [WeierstrassCurve.Affine.Point.add_self_of_Y_eq hneg]
      exact Represents.of_zero hD hz0
    · have hneg : val2 c P.y / val2 c P.z ^ 3 ≠
          (curve c).negY (val2 c P.x / val2 c P.z ^ 2) (val2 c P.y / val2 c P.z ^ 3) := by
        rw [curve_negY]
        intro e
        have e2 : 2 * (val2 c P.y / val2 c P.z ^ 3) = 0 := by linear_combination e
        rcases mul_eq_zero.1 e2 with h0 | h0
        · exact t2 h0
        · exact div_ne_zero hy (pow_ne_zero 3 vz) h0
      have vz3 : val2 c (G2.Double c P).z ≠ 0 := by
        rw [ez.2]; exact mul_ne_zero (mul_ne_zero t2 hy) vz
      rw [WeierstrassCurve.Affine.Point.add_self_of_Y_ne hneg]
      apply Represents.of_coords hD (ne_zero_of_val2 vz3)
      · rw [(curve_double_coords c _ _ hneg).1, ex.2, ez.2]
        exact tangent_x _ _ _ t2 hy vz
      · rw [(curve_double_coords c _ _ hneg).2, ey.2, ez.2]
        exact tangent_y _ _ _ t2 hy vz

/-- The branch of `Add` taken when both cross-multiplied tests succeed. -/
theorem Add_eq_Double_of_tests {c : Consts} (hm : c.Mont) {p1 p2 : PointG2}
    (h1 : p1.Canon c) (h2 : p2.Canon c) (z1 : p1.z ≠ fp2.zero) (z2 : p2.z ≠ fp2.zero)
    (ex : val2 c p1.z ^ 2 * val2 c p2.x = val2 c p2.z ^ 2 * val2 c p1.x)
    (ey : val2 c p1.z ^ 3 * val2 c p2.y = val2 c p2.z ^ 3 * val2 c p1.y) :
    G2.Add c p1 p2 = G2.Double c p1 := by
  have n1 : G2.IsZero p1 = false := (G2.IsZero_eq_false_iff p1).2 z1
  have n2 : G2.IsZero p2 = false := (G2.IsZero_eq_false_iff p2).2 z2
  obtain ⟨tx, ty⟩ := Add_tests hm h1 h2
  unfold G2.Add
  simp only [n1, n2, Bool.false_eq_true, if_false]
  rw [if_pos (tx.2 ex), if_pos (ty.2 ey)]

/-- The branch of `Add` taken when only the `x` test succeeds. -/
theorem Add_eq_infinity_of_tests {c : Consts} (hm : c.Mont) {p1 p2 : PointG2}
    (h1 : p1.Canon c) (h2 : p2.Canon c) (z1 : p1.z ≠ fp2.zero) (z2 : p2.z ≠ fp2.zero)
    (ex : val2 c p1.z ^ 2 * val2 c p2.x = val2 c p2.z ^ 2 * val2 c p1.x)
    (ey : val2 c p1.z ^ 3 * val2 c p2.y ≠ val2 c p2.z ^ 3 * val2 c p1.y) :
    G2.Add c p1 p2 = G2.infinity2 c := by
  have n1 : G2.IsZero p1 = false := (G2.IsZero_eq_false_iff p1).2 z1
  have n2 : G2.IsZero p2 = false := (G2.IsZero_eq_false_iff p2).2 z2
  obtain ⟨tx, ty⟩ := Add_tests hm h1 h2
  unfold G2.Add
  simp only [n1, n2, Bool.false_eq_true, if_false]
  rw [if_pos (tx.2 ex), if_neg (fun h => ey (ty.1 h))]
  rfl

/-- Adding represented points represents the sum in the group of the curve. -/
theorem Represents.of_Add {c : Consts} [Fact c.p.Prime] [Fact (c.p % 4 = 3)] (hc : c.Curve) {P Q : PointG2} {A B : (curve c).Point}
    (hA : Represents c P A) (hB : Represents c Q B) :
    Represents c (G2.Add c P Q) (A + B) := by
  have hm := hc.valid.mont
  have t2 := F2.two_ne_zero hc.valid.prime hc.valid.mod4
  by_cases hz1 : P.z = fp2.zero
  · rw [Add_of_zero_left c P Q ((G2.IsZero_iff P).2 hz1), hA.eq_zero hz1, zero_add]
    exact hB
  by_cases hz2 : Q.z = fp2.zero
  · rw [Add_of_zero_right c P Q ((G2.IsZero_eq_false_iff P).2 hz1) ((G2.IsZero_iff Q).2 hz2),
      hB.eq_zero hz2, add_zero]
    exact hA
  have hdbl := Represents.of_Double hc hA
  obtain ⟨hP, ⟨hz, _⟩ | ⟨_, x1, y1, hn1, rfl, rfl, rfl⟩⟩ := hA
  · exact absurd hz hz1
  obtain ⟨hQ, ⟨hz, _⟩ | ⟨_, x2, y2, hn2, rfl, rfl, rfl⟩⟩ := hB
  · exact absurd hz hz2
  have v1 := G2.val2_z_ne_zero hm hP hz1
  have v2 := G2.val2_z_ne_zero hm hQ hz2
  by_cases hx : val2 c P.x / val2 c P.z ^ 2 = val2 c Q.x / val2 c Q.z ^ 2
  · have ex : val2 c P.z ^ 2 * val2 c Q.x = val2 c Q.z ^ 2 * val2 c P.x := by
      field_simp at hx
      linear_combination -hx
    by_cases hy : val2 c P.y / val2 c P.z ^ 3 = val2 c Q.y / val2 c Q.z ^ 3
    · have ey : val2 c P.z ^ 3 * val2 c Q.y = val2 c Q.z ^ 3 * val2 c P.y := by
        field_simp at hy
        linear_combination -hy
      rw [Add_eq_Double_of_tests hm hP hQ hz1 hz2 ex ey]
      have hAB : WeierstrassCurve.Affine.Point.some hn2 = WeierstrassCurve.Affine.Point.some hn1 := by
        rw [WeierstrassCurve.Affine.Point.some.injEq]
        exact ⟨hx.symm, hy.symm⟩
      rw [hAB]
      exact hdbl
    · have ey : val2 c P.z ^ 3 * val2 c Q.y ≠ val2 c Q.z ^ 3 * val2 c P.y := by
        intro e
        apply hy
        field_simp
        linear_combination -e
      rw [Add_eq_infinity_of_tests hm hP hQ hz1 hz2 ex ey]
      have hneg : val2 c P.y / val2 c P.z ^ 3 =
          (curve c).negY (val2 c Q.x / val2 c Q.z ^ 2) (val2 c Q.y / val2 c Q.z ^ 3) := by
        rcases WeierstrassCurve.Affine.Y_eq_of_X_eq hn1.1 hn2.1 hx with h | h
        · exact absurd h hy
        · exact h
      rw [WeierstrassCurve.Affine.Point.add_of_Y_eq hx hneg]
      exact Represents.of_zero (infinity2_canon hm) rfl
  · have hH := (affine_x_ne_iff hc.valid v1 v2).1 hx
    obtain ⟨ex, ey, ez⟩ := Add_generic hm hP hQ hz1 hz2 hH
    have vz3 : val2 c (G2.Add c P Q).z ≠ 0 := by
      rw [ez.2]; exact mul_ne_zero (mul_ne_zero (mul_ne_zero t2 v1) v2) hH
    rw [WeierstrassCurve.Affine.Point.add_of_X_ne hx]
    apply Represents.of_coords ⟨ex.1, ey.1, ez.1⟩ (ne_zero_of_val2 vz3)
    · rw [(curve_add_coords c _ _ _ _ hx).1, ex.2, ez.2]
      exact chord_x _ _ _ _ _ _ t2 v1 v2 hH
    · rw [(curve_add_coords c _ _ _ _ hx).2, ey.2, ez.2]
      rw [← chord_x _ _ _ _ _ _ t2 v1 v2 hH]
      exact chord_y _ _ _ _ _ _ _ t2 v1 v2 hH

/-- On represented points `Equal` decides equality in the group of the curve. -/
theorem Represents.Equal_iff {c : Consts} [Fact c.p.Prime] [Fact (c.p % 4 = 3)] (hc : c.Curve) {P Q : PointG2}
    {A B : (curve c).Point} (hA : Represents c P A) (hB : Represents c Q B) :
    G2.Equal c P Q = true ↔ A = B := by
  have hm := hc.valid.mont
  obtain ⟨hP, ⟨hz1, rfl⟩ | ⟨hz1, x1, y1, hn1, rfl, rfl, rfl⟩⟩ := hA
  · obtain ⟨hQ, ⟨hz2, rfl⟩ | ⟨hz2, x2, y2, hn2, rfl, rfl, rfl⟩⟩ := hB
    · unfold G2.Equal
      rw [if_pos ((G2.IsZero_iff P).2 hz1)]
      simp [(G2.IsZero_iff Q).2 hz2]
    · unfold G2.Equal
      rw [if_pos ((G2.IsZero_iff P).2 hz1)]
      simp only [(G2.IsZero_eq_false_iff Q).2 hz2, Bool.false_eq_true, false_iff]
      exact fun h => WeierstrassCurve.Affine.Point.some_ne_zero _ h.symm
  · obtain ⟨hQ, ⟨hz2, rfl⟩ | ⟨hz2, x2, y2, hn2, rfl, rfl, rfl⟩⟩ := hB
    · unfold G2.Equal
      simp only [(G2.IsZero_eq_false_iff P).2 hz1, (G2.IsZero_iff Q).2 hz2, Bool.false_eq_true,
        if_false, if_true, false_iff]
      exact WeierstrassCurve.Affine.Point.some_ne_zero _
    · have v1 := G2.val2_z_ne_zero hm hP hz1
      have v2 := G2.val2_z_ne_zero hm hQ hz2
      rw [G2.Equal_nonzero_iff hm hP hQ hz1 hz2, WeierstrassCurve.Affine.Point.some.injEq]
      constructor
      · rintro ⟨e1, e2⟩
        constructor
        · field_simp
          linear_combination -e2
        · field_simp
          linear_combination -e1
      · rintro ⟨e2, e1⟩
        constructor
        · field_simp at e1
          linear_combination -e1
        · field_simp at e2
          linear_combination -e2

/-! ## Scalar multiplication -/

/-- The loop of `MulScalar` adds to the accumulator the multiple of the running
point given by the `k` bits of `e` from position `i` on. -/
theorem Represents.of_mulScalarLoop {c : Consts} [Fact c.p.Prime] [Fact (c.p % 4 = 3)]
    (hc : c.Curve) (e : Nat) (k i : Nat) {q n : PointG2} {Aq An : (curve c).Point}
    (hq : Represents c q Aq) (hn : Represents c n An) :
    Represents c (G2.mulScalarLoop c e k i q n) (Aq + ((e / 2 ^ i) % 2 ^ k) • An) := by
  induction k generalizing i q n Aq An with
  | zero =>
    unfold G2.mulScalarLoop
    apply hq.of_eq
    rw [pow_zero, Nat.mod_one, zero_nsmul, add_zero]
  | succ k ih =>
    unfold G2.mulScalarLoop
    have hn2 := Represents.of_Double hc hn
    have hq2 : Represents c (if e.testBit i = true then G2.Add c q n else q)
        (Aq + ((e / 2 ^ i) % 2) • An) := by
      rw [Nat.testBit_to_div_mod]
      rcases Nat.mod_two_eq_zero_or_one (e / 2 ^ i) with h | h
      · rw [h]
        simp only [zero_ne_one, decide_False, Bool.false_eq_true, if_false, zero_nsmul, add_zero]
        exact hq
      · rw [h]
        simp only [decide_True, if_true, one_nsmul]
        exact Represents.of_Add hc hq hn
    apply (ih (i + 1) hq2 hn2).of_eq
    have e1 : e / 2 ^ (i + 1) = e / 2 ^ i / 2 := by
      rw [pow_succ, Nat.div_div_eq_div_mul]
    rw [e1, pow_succ' 2 k, Nat.mod_mul, add_assoc, add_nsmul, mul_nsmul, two_nsmul]

/-- The method `MulScalar` computes the scalar multiple in the group of the curve. -/
theorem Represents.of_MulScalar {c : Consts} [Fact c.p.Prime] [Fact (c.p % 4 = 3)]
    (hc : c.Curve) {P : PointG2} {A : (curve c).Point} (h : Represents c P A) (e : Nat) :
    Represents c (G2.MulScalar c P e) (e • A) := by
  have h0 : Represents c G2.empty (0 : (curve c).Point) :=
    Represents.of_zero (empty_canon hc.valid.mont) rfl
  have hl := Represents.of_mulScalarLoop hc e (bitLen e) 0 h0 h
  apply hl.of_eq
  rw [pow_zero, Nat.div_one, Nat.mod_eq_of_lt (bitLen_spec e).1, zero_add]

/-! ## Scalar multiplication as repeated addition -/

/-- C19: for every point `P` on the curve (canonical coordinates, `IsOnCurve`
holds) and every non-negative integer `e`, `Equal` reports
`MulScalar P (e + 1)` equal to `Add (MulScalar P e) P`. -/
theorem MulScalar_succ (c : Consts) (hc : c.Curve) (P : PointG2) (hP : P.Canon c)
    (hon : G2.IsOnCurve c P = true) (e : Nat) :
    G2.Equal c (G2.MulScalar c P (e + 1)) (G2.Add c (G2.MulScalar c P e) P) = true := by
  haveI : Fact c.p.Prime := ⟨hc.valid.prime⟩
  haveI : Fact (c.p % 4 = 3) := ⟨hc.valid.mod4⟩
  obtain ⟨A, hA⟩ := Represents.exists_of_IsOnCurve hc hP hon
  have h1 := Represents.of_MulScalar hc hA (e + 1)
  have h2 := Represents.of_Add hc (Represents.of_MulScalar hc hA e) hA
  rw [Represents.Equal_iff hc h1 h2, succ_nsmul]

theorem toy_curve : toy.Curve := ⟨toy_valid, by decide, by decide⟩

/-- C19 on a point of the small curve that is not in affine form, with
`e = 5`. -/
theorem MulScalar_succ_witness :
    toy.Curve ∧ PointG2.Canon toy ⟨⟨10, 2⟩, ⟨13, 10⟩, ⟨14, 7⟩⟩ ∧
    G2.IsOnCurve toy ⟨⟨10, 2⟩, ⟨13, 10⟩, ⟨14, 7⟩⟩ = true ∧
    G2.Equal toy (G2.MulScalar toy ⟨⟨10, 2⟩, ⟨13, 10⟩, ⟨14, 7⟩⟩ (5 + 1))
      (G2.Add toy (G2.MulScalar toy ⟨⟨10, 2⟩, ⟨13, 10⟩, ⟨14, 7⟩⟩ 5)
        ⟨⟨10, 2⟩, ⟨13, 10⟩, ⟨14, 7⟩⟩) = true :=
  ⟨toy_curve, by decide, by decide,
    MulScalar_succ toy toy_curve ⟨⟨10, 2⟩, ⟨13, 10⟩, ⟨14, 7⟩⟩ (by decide) (by decide) 5⟩

/-! ## The loops of `MultiExp` in the group of the curve -/

theorem Represents.of_Zero {c : Consts} (hm : c.Mont) : Represents c (G2.Zero c) 0 :=
  Represents.of_zero (infinity2_canon hm) rfl

theorem bucketAdd_length (c : Consts) (bs : List PointG2) (k : Nat) (P : PointG2) :
    (G2.bucketAdd c bs k P).length = bs.length := by
  induction bs generalizing k with
  | nil => rfl
  | cons b bs ih =>
    cases k with
    | zero => rfl
    | succ k => simp [G2.bucketAdd, ih]

/-- Adding a point to bucket `k` adds its value `k + 1` times to the weighted
sum of the buckets. -/
theorem bucketAdd_rep {c : Consts} [Fact c.p.Prime] [Fact (c.p % 4 = 3)] (hc : c.Curve)
    {bs : List PointG2} {Gs : List (curve c).Point} (h : List.Forall₂ (Represents c) bs Gs)
    {P : PointG2} {A : (curve c).Point} (hP : Represents c P A) (k : Nat) (hk : k < bs.length) :
    ∃ Gs', List.Forall₂ (Represents c) (G2.bucketAdd c bs k P) Gs' ∧
      Gs'.sum = Gs.sum + A ∧ weightedSum Gs' = weightedSum Gs + (k + 1) • A := by
  induction h generalizing k with
  | nil => simp at hk
  | @cons b G bs Gs hb hbs ih =>
    cases k with
    | zero =>
      refine ⟨(G + A) :: Gs, List.Forall₂.cons (Represents.of_Add hc hb hP) hbs, ?_, ?_⟩
      · simp only [List.sum_cons]; abel
      · simp only [weightedSum, zero_add, one_nsmul]; abel
    | succ k =>
      obtain ⟨Gs', h1, h2, h3⟩ := ih k (by simpa using hk)
      refine ⟨G :: Gs', List.Forall₂.cons hb h1, ?_, ?_⟩
      · simp only [List.sum_cons, h2]; abel
      · simp only [weightedSum]
        rw [h2, h3, succ_nsmul A (k + 1)]
        abel

theorem zipWith_window_zero {M : Type} [AddCommMonoid M] (es : List Nat) (As : List M) :
    (List.zipWith (fun e A => (e % 2 ^ 0) • A) es As).sum = 0 := by
  induction es generalizing As with
  | nil => simp
  | cons e es ih =>
    cases As with
    | nil => simp
    | cons A As =>
      rw [List.zipWith_cons_cons, List.sum_cons, ih As, pow_zero, Nat.mod_one, zero_nsmul,
        add_zero]

/-- The digits of one window and of the windows above it make up the digits
of one more window. -/
theorem zipWith_window_succ {M : Type} [AddCommMonoid M] (w k : Nat) (es : List Nat)
    (As : List M) :
    2 ^ w • (List.zipWith (fun e A => (e % 2 ^ k) • A) (es.map (fun e => e / 2 ^ w)) As).sum +
        (List.zipWith (fun e A => (e % 2 ^ w) • A) es As).sum =
      (List.zipWith (fun e A => (e % 2 ^ (w + k)) • A) es As).sum := by
  induction es generalizing As with
  | nil => simp
  | cons e es ih =>
    cases As with
    | nil => simp
    | cons A As =>
      simp only [List.map_cons, List.zipWith_cons_cons, List.sum_cons, nsmul_add]
      rw [← ih As, pow_add, Nat.mod_mul, add_nsmul, mul_nsmul']
      abel

theorem zipWith_mod_of_lt {M : Type} [AddCommMonoid M] (B : Nat) (es : List Nat)
    (As : List M) (h : ∀ e ∈ es, e < B) :
    List.zipWith (fun e A => (e % B) • A) es As = List.zipWith (fun e A => e • A) es As := by
  induction es generalizing As with
  | nil => simp
  | cons e es ih =>
    cases As with
    | nil => simp
    | cons A As =>
      simp only [List.zipWith_cons_cons]
      rw [Nat.mod_eq_of_lt (h e (List.mem_cons_self _ _)),
        ih As (fun e he => h e (List.mem_cons_of_mem _ he))]

theorem replicate_rep {c : Consts} (hm : c.Mont) (n : Nat) :
    List.Forall₂ (Represents c) (List.replicate n (G2.New c))
      (List.replicate n (0 : (curve c).Point)) := by
  induction n with
  | zero => exact List.Forall₂.nil
  | succ n ih => exact List.Forall₂.cons (Represents.of_Zero hm) ih

theorem weightedSum_replicate_zero {M : Type} [AddCommMonoid M] (n : Nat) :
    weightedSum (List.replicate n (0 : M)) = 0 := by
  induction n with
  | zero => rfl
  | succ n ih => simp [List.replicate_succ, weightedSum, ih]

/-- The loop over the inputs adds, to the weighted sum of the buckets, every
point times the low `w` bits of its scalar, and divides every scalar by
`2^w`. -/
theorem bucketLoop_rep {c : Consts} [Fact c.p.Prime] [Fact (c.p % 4 = 3)] (hc : c.Curve)
    (w : Nat) (hw : w ≤ 64) {points : List PointG2} {As : List (curve c).Point}
    (h : List.Forall₂ (Represents c) points As) (es : List Nat)
    (hlen : points.length = es.length)
    {bucket : List PointG2} {Gs : List (curve c).Point}
    (hb : List.Forall₂ (Represents c) bucket Gs) (hbl : bucket.length = 2 ^ w - 1) :
    ∃ Gs', List.Forall₂ (Represents c) (G2.bucketLoop c w points es bucket).1 Gs' ∧
      weightedSum Gs' =
        weightedSum Gs + (List.zipWith (fun e A => (e % 2 ^ w) • A) es As).sum ∧
      (G2.bucketLoop c w points es bucket).2 = es.map (fun e => e / 2 ^ w) := by
  induction h generalizing es bucket Gs with
  | nil =>
    cases es with
    | nil => exact ⟨Gs, hb, by simp, rfl⟩
    | cons e es => simp at hlen
  | @cons P A ps As hP hps ih =>
    cases es with
    | nil => simp at hlen
    | cons e es =>
      have hlen2 : ps.length = es.length := by simpa using hlen
      have hidx : e % 2 ^ 64 &&& (2 ^ w - 1) = e % 2 ^ w := by
        rw [Nat.and_pow_two_sub_one_eq_mod, Nat.mod_mod_of_dvd _ (pow_dvd_pow 2 hw)]
      have hlt : e % 2 ^ w < 2 ^ w := Nat.mod_lt _ (by positivity)
      unfold G2.bucketLoop
      simp only [hidx, Nat.shiftRight_eq_div_pow, List.map_cons, List.zipWith_cons_cons,
        List.sum_cons]
      by_cases h0 : e % 2 ^ w = 0
      · obtain ⟨Gs', h1, h2, h3⟩ := ih es hlen2 hb hbl
        refine ⟨Gs', ?_, ?_, ?_⟩
        · simpa [h0] using h1
        · rw [h2, h0, zero_nsmul, zero_add]
        · simp only [h0, ne_eq, not_true_eq_false, if_false]
          rw [h3]
      · obtain ⟨Gs1, g1, g2, g3⟩ := bucketAdd_rep hc hb hP (e % 2 ^ w - 1) (by omega)
        obtain ⟨Gs', h1, h2, h3⟩ := ih es hlen2 g1 (by rw [bucketAdd_length, hbl])
        have hk : e % 2 ^ w - 1 + 1 = e % 2 ^ w := by omega
        refine ⟨Gs', ?_, ?_, ?_⟩
        · simpa [h0] using h1
        · rw [h2, g3, hk, add_assoc]
        · simp only [h0, ne_eq, not_false_eq_true, if_true]
          rw [h3]

/-- The loop over the buckets leaves their weighted sum in `acc`. -/
theorem sumLoop_rep {c : Consts} [Fact c.p.Prime] [Fact (c.p % 4 = 3)] (hc : c.Curve)
    {bucket : List PointG2} {Gs : List (curve c).Point}
    (h : List.Forall₂ (Represents c) bucket Gs) {acc sum : PointG2}
    (ha : Represents c acc 0) (hs : Represents c sum 0) :
    Represents c (G2.sumLoop c bucket acc sum).1 (weightedSum Gs) ∧
    Represents c (G2.sumLoop c bucket acc sum).2 Gs.sum := by
  induction h with
  | nil => exact ⟨ha, hs⟩
  | @cons b G bs Gs hb hbs ih =>
    obtain ⟨i1, i2⟩ := ih
    constructor
    · apply (Represents.of_Add hc i1 (Represents.of_Add hc i2 hb)).of_eq
      simp only [weightedSum]; abel
    · apply (Represents.of_Add hc i2 hb).of_eq
      simp only [List.sum_cons]; abel

theorem doubleLoop_rep {c : Consts} [Fact c.p.Prime] [Fact (c.p % 4 = 3)] (hc : c.Curve)
    (k : Nat) {acc : PointG2} {A : (curve c).Point} (h : Represents c acc A) :
    Represents c (G2.doubleLoop c k acc) (2 ^ k • A) := by
  induction k generalizing acc A with
  | zero => simpa [G2.doubleLoop] using h
  | succ k ih =>
    unfold G2.doubleLoop
    apply (ih (Represents.of_Double hc h)).of_eq
    rw [pow_succ, mul_nsmul, two_nsmul, nsmul_add]

/-- The last pass evaluates the windows as the digits of a number in base
`2^w`. -/
theorem combineLoop_rep {c : Consts} [Fact c.p.Prime] [Fact (c.p % 4 = 3)] (hc : c.Curve)
    (w : Nat) {ws : List PointG2} {Hs : List (curve c).Point}
    (h : List.Forall₂ (Represents c) ws Hs) {acc : PointG2} (ha : Represents c acc 0) :
    Represents c (G2.combineLoop c w ws acc) (Hs.foldr (fun H a => 2 ^ w • a + H) 0) := by
  induction h with
  | nil => exact ha
  | @cons b G bs Gs hb hbs ih =>
    exact Represents.of_Add hc (doubleLoop_rep hc w ih) hb

/-- The outer loop: its windows are the base-`2^w` digits of the scalars, one
window per iteration, and it leaves the scalars divided accordingly. -/
theorem windowLoop_rep {c : Consts} [Fact c.p.Prime] [Fact (c.p % 4 = 3)] (hc : c.Curve)
    (w numBits : Nat) (hw : w ≤ 64) {points : List PointG2} {As : List (curve c).Point}
    (h : List.Forall₂ (Represents c) points As) (fuel cur : Nat) (es : List Nat)
    (hlen : points.length = es.length) :
    ∃ Hs, List.Forall₂ (Represents c) (G2.windowLoop c w numBits points fuel cur es).1 Hs ∧
      Hs.foldr (fun H a => 2 ^ w • a + H) 0 =
        (List.zipWith (fun e A =>
          (e % 2 ^ (w * (G2.windowLoop c w numBits points fuel cur es).1.length)) • A)
          es As).sum ∧
      (G2.windowLoop c w numBits points fuel cur es).2 =
        es.map (fun e => e / 2 ^ (w * (G2.windowLoop c w numBits points fuel cur es).1.length)) := by
  have hm := hc.valid.mont
  have base : ∃ Hs, List.Forall₂ (Represents c) ([] : List PointG2) Hs ∧
      Hs.foldr (fun H a => 2 ^ w • a + H) 0 =
        (List.zipWith (fun e A => (e % 2 ^ (w * ([] : List PointG2).length)) • A) es As).sum ∧
      es = es.map (fun e => e / 2 ^ (w * ([] : List PointG2).length)) := by
    refine ⟨[], List.Forall₂.nil, ?_, ?_⟩
    · rw [List.length_nil, Nat.mul_zero, zipWith_window_zero]; rfl
    · simp
  induction fuel generalizing cur es with
  | zero => exact base
  | succ fuel ih =>
    unfold G2.windowLoop
    by_cases hcur : cur ≤ numBits
    · rw [if_pos hcur]
      obtain ⟨Gs, g1, g2, g3⟩ := bucketLoop_rep hc w hw h es hlen
        (replicate_rep hm (2 ^ w - 1)) (List.length_replicate _ _)
      have hs := (sumLoop_rep hc g1
        (show Represents c (G2.Copy (G2.Zero c)) 0 from Represents.of_Zero hm)
        (show Represents c (G2.Copy (G2.Zero c)) 0 from Represents.of_Zero hm)).1
      rw [g2, weightedSum_replicate_zero, zero_add] at hs
      have hlen2 : points.length = (es.map (fun e => e / 2 ^ w)).length := by
        rw [List.length_map]; exact hlen
      have hbase2 : ∃ Hs, List.Forall₂ (Represents c) ([] : List PointG2) Hs ∧
          Hs.foldr (fun H a => 2 ^ w • a + H) 0 =
            (List.zipWith (fun e A => (e % 2 ^ (w * ([] : List PointG2).length)) • A)
              (es.map (fun e => e / 2 ^ w)) As).sum ∧
          es.map (fun e => e / 2 ^ w) =
            (es.map (fun e => e / 2 ^ w)).map
              (fun e => e / 2 ^ (w * ([] : List PointG2).length)) := by
        refine ⟨[], List.Forall₂.nil, ?_, ?_⟩
        · rw [List.length_nil, Nat.mul_zero, zipWith_window_zero]; rfl
        · simp
      obtain ⟨Hs, i1, i2, i3⟩ := ih (cur + w) (es.map (fun e => e / 2 ^ w)) hlen2 hbase2
      simp only [g3]
      refine ⟨_ :: Hs, List.Forall₂.cons hs i1, ?_, ?_⟩
      · simp only [List.foldr_cons, List.length_cons]
        rw [i2, Nat.mul_succ, Nat.add_comm (w * _) w, zipWith_window_succ]
      · rw [i3, List.map_map]
        apply List.map_congr_left
        intro e _
        simp only [Function.comp, List.length_cons]
        rw [Nat.div_div_eq_div_mul, ← pow_add, Nat.mul_succ, Nat.add_comm (w * _) w]
    · rw [if_neg hcur]
      exact base

/-- The outer loop ends by its own test: with enough iterations allowed it
runs once for every multiple of `w` up to `numBits`. -/
theorem windowLoop_length (c : Consts) (w numBits : Nat) (hw : 1 ≤ w) (points : List PointG2)
    (fuel cur : Nat) (es : List Nat) (hf : numBits < cur + fuel) :
    (G2.windowLoop c w numBits points fuel cur es).1.length = (numBits + w - cur) / w := by
  induction fuel generalizing cur es with
  | zero =>
    unfold G2.windowLoop
    rw [List.length_nil, Nat.div_eq_of_lt (by omega)]
  | succ fuel ih =>
    unfold G2.windowLoop
    by_cases hcur : cur ≤ numBits
    · rw [if_pos hcur]
      simp only [List.length_cons]
      rw [ih (cur + w) _ (by omega)]
      have e1 : numBits + w - cur = numBits + w - (cur + w) + w := by omega
      rw [e1, Nat.add_div_right _ (by omega)]
    · rw [if_neg hcur, List.length_nil, Nat.div_eq_of_lt (by omega)]

/-- The sum of the specification in the group of the curve. -/
theorem specSum_rep {c : Consts} [Fact c.p.Prime] [Fact (c.p % 4 = 3)] (hc : c.Curve)
    {points : List PointG2} {As : List (curve c).Point}
    (h : List.Forall₂ (Represents c) points As) (es : List Nat) :
    Represents c (specSum c points es) (List.zipWith (fun e A => e • A) es As).sum := by
  have key : ∀ (acc : PointG2) (G : (curve c).Point), Represents c acc G →
      Represents c ((List.zip points es).foldl
        (fun acc pe => G2.Add c acc (G2.MulScalar c pe.1 pe.2)) acc)
        (G + (List.zipWith (fun e A => e • A) es As).sum) := by
    induction h generalizing es with
    | nil =>
      intro acc G hG
      simpa using hG
    | @cons P A ps As hP hps ih =>
      intro acc G hG
      cases es with
      | nil => simpa using hG
      | cons e es =>
        simp only [List.zip_cons_cons, List.foldl_cons, List.zipWith_cons_cons, List.sum_cons]
        apply (ih es _ _ (Represents.of_Add hc hG (Represents.of_MulScalar hc hP e))).of_eq
        abel
  have := key (G2.Zero c) 0 (Represents.of_Zero hc.valid.mont)
  rw [zero_add] at this
  exact this

theorem exists_rep_list {c : Consts} (hc : c.Curve) (points : List PointG2)
    (h : ∀ P ∈ points, P.Canon c ∧ G2.IsOnCurve c P = true) :
    ∃ As, List.Forall₂ (Represents c) points As := by
  induction points with
  | nil => exact ⟨[], List.Forall₂.nil⟩
  | cons P ps ih =>
    obtain ⟨As, hAs⟩ := ih (fun Q hQ => h Q (List.mem_cons_of_mem _ hQ))
    obtain ⟨A, hA⟩ := Represents.exists_of_IsOnCurve hc (h P (List.mem_cons_self _ _)).1
      (h P (List.mem_cons_self _ _)).2
    exact ⟨A :: As, List.Forall₂.cons hA hAs⟩

theorem ceilLog10Aux_ge (n fuel k pw : Nat) : k ≤ G2.ceilLog10Aux n fuel k pw := by
  induction fuel generalizing k pw with
  | zero => exact Nat.le_refl k
  | succ fuel ih =>
    unfold G2.ceilLog10Aux
    split
    · exact Nat.le_refl k
    · exact Nat.le_trans (Nat.le_succ k) (ih (k + 1) (pw * 10))

theorem ceilLog10Aux_le (n fuel k m : Nat) (hk : k ≤ m) (hn : n ≤ 10 ^ m) :
    G2.ceilLog10Aux n fuel k (10 ^ k) ≤ m := by
  induction fuel generalizing k with
  | zero => exact hk
  | succ fuel ih =>
    unfold G2.ceilLog10Aux
    split
    · exact hk
    · rename_i hlt
      have hne : k ≠ m := by
        rintro rfl
        exact hlt hn
      rw [← pow_succ]
      exact ih (k + 1) (by omega)

/-- The window width is between 1 and 64 for every slice length. -/
theorem windowWidth_bounds (n : Nat) (hn : n < 2 ^ 63) :
    1 ≤ G2.windowWidth n ∧ G2.windowWidth n ≤ 64 := by
  unfold G2.windowWidth
  split
  · rename_i h32
    constructor
    · unfold G2.ceilLog10
      obtain ⟨m, rfl⟩ : ∃ m, n = m + 1 := ⟨n - 1, by omega⟩
      unfold G2.ceilLog10Aux
      rw [if_neg (by omega)]
      exact ceilLog10Aux_ge _ _ _ _
    · have := ceilLog10Aux_le n n 0 64 (by omega)
        (Nat.le_trans (Nat.le_of_lt hn) (by norm_num))
      simpa [G2.ceilLog10] using this
  · exact ⟨by omega, by omega⟩

/-- The body of `MultiExp` for any window width between 1 and 64: the result
is the sum of the specification when every scalar fits in the windows. -/
theorem multiExpWidth_spec {c : Consts} (hc : c.Curve) (w : Nat) (hw1 : 1 ≤ w) (hw : w ≤ 64)
    (points : List PointG2) (powers : List Nat) (hlen : points.length = powers.length)
    (hon : ∀ P ∈ points, P.Canon c ∧ G2.IsOnCurve c P = true)
    (hsc : ∀ e ∈ powers, e < 2 ^ (w * (bitLen c.q / w + 1))) :
    ∃ R, (G2.multiExpWidth c w points powers).ret = .ok R ∧
      (G2.multiExpWidth c w points powers).r = R ∧
      G2.Equal c R (specSum c points powers) = true := by
  haveI : Fact c.p.Prime := ⟨hc.valid.prime⟩
  haveI : Fact (c.p % 4 = 3) := ⟨hc.valid.mod4⟩
  obtain ⟨As, hAs⟩ := exists_rep_list hc points hon
  obtain ⟨Hs, h1, h2, _⟩ := windowLoop_rep hc w (bitLen c.q) hw hAs (bitLen c.q + 1) 0 powers hlen
  have hL := windowLoop_length c w (bitLen c.q) hw1 points (bitLen c.q + 1) 0 powers (by omega)
  rw [Nat.sub_zero, Nat.add_div_right _ (by omega)] at hL
  rw [hL, zipWith_mod_of_lt _ _ _ hsc] at h2
  have hR := combineLoop_rep hc w h1
    (show Represents c (G2.Copy (G2.Zero c)) 0 from Represents.of_Zero hc.valid.mont)
  rw [h2] at hR
  refine ⟨_, rfl, rfl, ?_⟩
  exact (Represents.Equal_iff hc hR (specSum_rep hc hAs powers)).2 rfl

/-! ## Multi-exponentiation -/

/-- C20, counterexample: for the generator and the scalar `2^258`, `MultiExp`
succeeds with a zero point, while `MulScalar` gives a non-zero point, so
`Equal` reports the result different from the sum of the specification. -/
theorem MultiExp_drops_high_bits :
    G2.IsOnCurve bls gen = true ∧
    ∃ R, (G2.MultiExp bls (G2.Zero bls) [gen] [2 ^ 258]).ret = .ok R ∧
      G2.IsZero R = true ∧
      G2.IsZero (specSum bls [gen] [2 ^ 258]) = false ∧
      G2.Equal bls R (specSum bls [gen] [2 ^ 258]) = false := by
  refine ⟨by decide!, _, rfl, ?_, ?_, ?_⟩
  · set_option maxRecDepth 100000 in decide!
  · set_option maxRecDepth 100000 in decide!
  · set_option maxRecDepth 100000 in decide!

/-- C20: for every list of on-curve points (canonical coordinates) and every
equally long list of non-negative scalars that are all below
`2^(w * (numBits / w + 1))`, where `w` is the window width chosen for the
number of inputs and `numBits` the bit length of the group order (`2^258` for
fewer than 32 inputs of BLS12-381), `MultiExp` succeeds, stores its result in
`r`, and `Equal` reports the result equal to `Add` folded over
`MulScalar p e` from the identity. -/
theorem MultiExp_spec (c : Consts) (hc : c.Curve) (r : PointG2) (points : List PointG2)
    (powers : List Nat) (hlen : points.length = powers.length) (hn : points.length < 2 ^ 63)
    (hon : ∀ P ∈ points, P.Canon c ∧ G2.IsOnCurve c P = true)
    (hsc : ∀ e ∈ powers, e < 2 ^ (G2.windowWidth powers.length *
      (bitLen c.q / G2.windowWidth powers.length + 1))) :
    ∃ R, (G2.MultiExp c r points powers).ret = .ok R ∧
      (G2.MultiExp c r points powers).r = R ∧
      G2.Equal c R (specSum c points powers) = true := by
  have hb := windowWidth_bounds powers.length (hlen ▸ hn)
  unfold G2.MultiExp
  rw [if_neg (not_not.2 hlen)]
  exact multiExpWidth_spec hc _ hb.1 hb.2 points powers hlen hon hsc

/-- C20 on two points of the small curve with the scalars 5 and 300. -/
theorem MultiExp_spec_witness :
    toy.Curve ∧
    (∀ P ∈ [toyPointYInFp, (⟨⟨10, 2⟩, ⟨13, 10⟩, ⟨14, 7⟩⟩ : PointG2)],
      P.Canon toy ∧ G2.IsOnCurve toy P = true) ∧
    (∀ e ∈ [5, 300], e < 2 ^ (G2.windowWidth 2 * (bitLen toy.q / G2.windowWidth 2 + 1))) ∧
    ∃ R, (G2.MultiExp toy G2.empty [toyPointYInFp, ⟨⟨10, 2⟩, ⟨13, 10⟩, ⟨14, 7⟩⟩] [5, 300]).ret
        = .ok R ∧
      (G2.MultiExp toy G2.empty [toyPointYInFp, ⟨⟨10, 2⟩, ⟨13, 10⟩, ⟨14, 7⟩⟩] [5, 300]).r = R ∧
      G2.Equal toy R (specSum toy [toyPointYInFp, ⟨⟨10, 2⟩, ⟨13, 10⟩, ⟨14, 7⟩⟩] [5, 300])
        = true :=
  ⟨toy_curve, by decide, by decide,
    MultiExp_spec toy toy_curve G2.empty [toyPointYInFp, ⟨⟨10, 2⟩, ⟨13, 10⟩, ⟨14, 7⟩⟩] [5, 300]
      rfl (by decide) (by decide) (by decide)⟩

/-! ## `MultiExp` with lists of different lengths -/

/-- C21: for every call of `MultiExp` with `len(points) ≠ len(scalars)`, the
length-mismatch error is returned (an error carries no point), and the
destination point `r` and the scalar list are left unchanged. -/
theorem MultiExp_length_mismatch (c : Consts) (r : PointG2) (points : List PointG2)
    (powers : List Nat) (h : points.length ≠ powers.length) :
    (G2.MultiExp c r points powers).ret =
      .error "point and scalar vectors should be in same length" ∧
    (G2.MultiExp c r points powers).r = r ∧
    (G2.MultiExp c r points powers).powers = powers := by
  unfold G2.MultiExp
  rw [if_pos h]
  exact ⟨rfl, rfl, rfl⟩

/-- C21 on two points and one scalar of BLS12-381, with the generator as
destination. -/
theorem MultiExp_length_mismatch_witness :
    [gen, pointYInFp].length ≠ [5].length ∧
    (G2.MultiExp bls gen [gen, pointYInFp] [5]).ret =
      .error "point and scalar vectors should be in same length" ∧
    (G2.MultiExp bls gen [gen, pointYInFp] [5]).r = gen ∧
    (G2.MultiExp bls gen [gen, pointYInFp] [5]).powers = [5] :=
  ⟨by decide, MultiExp_length_mismatch bls gen [gen, pointYInFp] [5] (by decide)⟩

/-! ## The scalar bits `MultiExp` reads and the scalar list it leaves -/

/-- The loop over the inputs replaces every scalar by itself shifted right. -/
theorem bucketLoop_powers (c : Consts) (w : Nat) (points : List PointG2) (es : List Nat)
    (bucket : List PointG2) (hlen : points.length = es.length) :
    (G2.bucketLoop c w points es bucket).2 = es.map (fun e => e / 2 ^ w) := by
  induction points generalizing es bucket with
  | nil =>
    cases es with
    | nil => rfl
    | cons e es => simp at hlen
  | cons p ps ih =>
    cases es with
    | nil => simp at hlen
    | cons e es =>
      unfold G2.bucketLoop
      simp only [List.map_cons, Nat.shiftRight_eq_div_pow]
      rw [ih es _ (by simpa using hlen)]

/-- The loop over the inputs reads only the low `w` bits of every scalar. -/
theorem bucketLoop_congr (c : Consts) (w : Nat) (hw : w ≤ 64) (points : List PointG2)
    {es es' : List Nat} (h : List.Forall₂ (fun e e' => e % 2 ^ w = e' % 2 ^ w) es es')
    (bucket : List PointG2) :
    (G2.bucketLoop c w points es bucket).1 = (G2.bucketLoop c w points es' bucket).1 := by
  induction h generalizing points bucket with
  | nil => cases points <;> rfl
  | @cons e e' es es' he hes ih =>
    cases points with
    | nil => rfl
    | cons p ps =>
      have hidx : ∀ x : Nat, x % 2 ^ 64 &&& (2 ^ w - 1) = x % 2 ^ w := by
        intro x
        rw [Nat.and_pow_two_sub_one_eq_mod, Nat.mod_mod_of_dvd _ (pow_dvd_pow 2 hw)]
      unfold G2.bucketLoop
      simp only [hidx, he]
      exact ih ps _

theorem forall2_shift (w K : Nat) {es es' : List Nat}
    (h : List.Forall₂ (fun e e' => e % 2 ^ (w * (K + 1)) = e' % 2 ^ (w * (K + 1))) es es') :
    List.Forall₂ (fun e e' => e % 2 ^ w = e' % 2 ^ w) es es' ∧
    List.Forall₂ (fun e e' => e % 2 ^ (w * K) = e' % 2 ^ (w * K))
      (es.map (fun e => e / 2 ^ w)) (es'.map (fun e => e / 2 ^ w)) := by
  induction h with
  | nil => exact ⟨List.Forall₂.nil, List.Forall₂.nil⟩
  | @cons e e' es es' he hes ih =>
    have hpow : 2 ^ (w * (K + 1)) = 2 ^ w * 2 ^ (w * K) := by
      rw [← pow_add]; congr 1; ring
    rw [hpow] at he
    refine ⟨List.Forall₂.cons ?_ ih.1, ?_⟩
    · have := congrArg (fun x => x % 2 ^ w) he
      simpa [Nat.mod_mul_right_mod] using this
    · simp only [List.map_cons]
      refine List.Forall₂.cons ?_ ih.2
      have := congrArg (fun x => x / 2 ^ w) he
      simpa [Nat.mod_mul_right_div_self] using this

/-- The outer loop reads only the bits of the scalars that its windows cover. -/
theorem windowLoop_congr (c : Consts) (w numBits : Nat) (hw : w ≤ 64) (hw1 : 1 ≤ w)
    (points : List PointG2) (fuel cur K : Nat) (hK : (numBits + w - cur) / w ≤ K)
    {es es' : List Nat} (hlen : points.length = es.length)
    (h : List.Forall₂ (fun e e' => e % 2 ^ (w * K) = e' % 2 ^ (w * K)) es es') :
    (G2.windowLoop c w numBits points fuel cur es).1 =
      (G2.windowLoop c w numBits points fuel cur es').1 := by
  induction fuel generalizing cur K es es' with
  | zero => rfl
  | succ fuel ih =>
    unfold G2.windowLoop
    by_cases hcur : cur ≤ numBits
    · rw [if_pos hcur, if_pos hcur]
      have hL : (numBits + w - cur) / w = (numBits + w - (cur + w)) / w + 1 := by
        have e1 : numBits + w - cur = numBits + w - (cur + w) + w := by omega
        rw [e1, Nat.add_div_right _ (by omega)]
      rw [hL] at hK
      generalize hX : (numBits + w - (cur + w)) / w = X at hK
      obtain ⟨K', rfl⟩ : ∃ K', K = K' + 1 := ⟨K - 1, by omega⟩
      obtain ⟨h1, h2⟩ := forall2_shift w K' h
      have hlen' : points.length = es'.length := by rw [hlen, h.length_eq]
      simp only [bucketLoop_congr c w hw points h1, bucketLoop_powers c w points es _ hlen,
        bucketLoop_powers c w points es' _ hlen']
      rw [ih (cur + w) K' (by rw [hX]; omega) (by rw [List.length_map]; exact hlen) h2]
    · rw [if_neg hcur, if_neg hcur]

/-- The scalar list the outer loop leaves: every scalar shifted right by the
bits of all windows. -/
theorem windowLoop_powers (c : Consts) (w numBits : Nat) (points : List PointG2)
    (fuel cur : Nat) (es : List Nat) (hlen : points.length = es.length) :
    (G2.windowLoop c w numBits points fuel cur es).2 =
      es.map (fun e => e / 2 ^ (w * (G2.windowLoop c w numBits points fuel cur es).1.length)) := by
  induction fuel generalizing cur es with
  | zero => simp [G2.windowLoop]
  | succ fuel ih =>
    unfold G2.windowLoop
    by_cases hcur : cur ≤ numBits
    · rw [if_pos hcur]
      simp only [bucketLoop_powers c w points es _ hlen, List.length_cons]
      rw [ih (cur + w) _ (by rw [List.length_map]; exact hlen), List.map_map]
      apply List.map_congr_left
      intro e _
      simp only [Function.comp]
      rw [Nat.div_div_eq_div_mul, ← pow_add, Nat.mul_succ, Nat.add_comm (w * _) w]
    · rw [if_neg hcur]
      simp

theorem forall2_mod_self (M : Nat) (es : List Nat) :
    List.Forall₂ (fun e e' => e % M = e' % M) (es.map (fun e => e % M)) es := by
  induction es with
  | nil => exact List.Forall₂.nil
  | cons e es ih => exact List.Forall₂.cons (Nat.mod_mod _ _) ih

theorem windowWidth_small (n : Nat) (h : n < 32) : G2.windowWidth n = 3 := by
  unfold G2.windowWidth
  rw [if_neg (by omega)]

/-- C27: `MultiExp` reads only the low `w * (numBits / w + 1)` bits of each
scalar, where `w` is the window width and `numBits` the bit length of the
group order: for every equal-length input, replacing each scalar `e` by
`e mod 2^(w * (numBits / w + 1))` yields the same returned point and the same
destination, coordinate by coordinate. For BLS12-381 `numBits = 255`, and
`w = 3` for fewer than 32 inputs, so 258 bits are read. -/
theorem MultiExp_low_bits (c : Consts) (r : PointG2) (points : List PointG2)
    (powers : List Nat) (hlen : points.length = powers.length)
    (hn : points.length < 2 ^ 63) :
    ((G2.MultiExp c r points (powers.map (fun e => e %
        2 ^ (G2.windowWidth powers.length *
          (bitLen c.q / G2.windowWidth powers.length + 1))))).ret =
      (G2.MultiExp c r points powers).ret ∧
    (G2.MultiExp c r points (powers.map (fun e => e %
        2 ^ (G2.windowWidth powers.length *
          (bitLen c.q / G2.windowWidth powers.length + 1))))).r =
      (G2.MultiExp c r points powers).r) ∧
    bitLen bls.q = 255 ∧ (∀ n, n < 32 → G2.windowWidth n * (255 / G2.windowWidth n + 1) = 258) := by
  have hb := windowWidth_bounds powers.length (hlen ▸ hn)
  refine ⟨?_, by set_option maxRecDepth 100000 in decide!,
    fun n h => by rw [windowWidth_small n h]⟩
  have hlen' : points.length = (powers.map (fun e => e %
      2 ^ (G2.windowWidth powers.length *
        (bitLen c.q / G2.windowWidth powers.length + 1)))).length := by
    rw [List.length_map]; exact hlen
  have key := windowLoop_congr c (G2.windowWidth powers.length) (bitLen c.q) hb.2 hb.1 points
    (bitLen c.q + 1) 0 (bitLen c.q / G2.windowWidth powers.length + 1)
    (by rw [Nat.sub_zero, Nat.add_div_right _ (by omega)]) hlen'
    (forall2_mod_self _ powers)
  unfold G2.MultiExp
  rw [if_neg (not_not.2 hlen), if_neg (not_not.2 hlen'), List.length_map]
  unfold G2.multiExpWidth
  simp only [key, and_self]

/-- C27 on two points of BLS12-381: the scalars `2^258 + 5` and `2^300 + 7`
give the same result as their low 258 bits. -/
theorem MultiExp_low_bits_witness :
    [2 ^ 258 + 5, 2 ^ 300 + 7].map (fun e => e %
        2 ^ (G2.windowWidth 2 * (bitLen bls.q / G2.windowWidth 2 + 1))) = [5, 7] ∧
    (G2.MultiExp bls gen [gen, pointYInFp]
        ([2 ^ 258 + 5, 2 ^ 300 + 7].map (fun e => e %
          2 ^ (G2.windowWidth [2 ^ 258 + 5, 2 ^ 300 + 7].length *
            (bitLen bls.q / G2.windowWidth [2 ^ 258 + 5, 2 ^ 300 + 7].length + 1))))).r =
      (G2.MultiExp bls gen [gen, pointYInFp] [2 ^ 258 + 5, 2 ^ 300 + 7]).r :=
  ⟨by set_option maxRecDepth 100000 in decide!,
    (MultiExp_low_bits bls gen [gen, pointYInFp] [2 ^ 258 + 5, 2 ^ 300 + 7] rfl
      (by decide)).1.2⟩

/-! ## The curve is closed under the group operations -/

/-- A point that stands for a point of the curve passes `IsOnCurve`. -/
theorem Represents.onCurve {c : Consts} [Fact c.p.Prime] [Fact (c.p % 4 = 3)] (hc : c.Curve)
    {P : PointG2} {A : (curve c).Point} (h : Represents c P A) : G2.IsOnCurve c P = true := by
  have hm := hc.valid.mont
  obtain ⟨hP, ⟨hz, _⟩ | ⟨hz, x, y, hns, rfl, rfl, _⟩⟩ := h
  · unfold G2.IsOnCurve
    rw [if_pos ((G2.IsZero_iff P).2 hz)]
  · have v := G2.val2_z_ne_zero hm hP hz
    have e := (curve_equation_iff c _ _).1 hns.1
    rw [IsOnCurve_nonzero_iff hm hP hz]
    field_simp at e
    apply mul_right_cancel₀ (pow_ne_zero 6 v)
    linear_combination e

/-- Negation on represented points is negation in the group of the curve. -/
theorem Represents.of_Neg {c : Consts} [Fact c.p.Prime] [Fact (c.p % 4 = 3)]
    {P : PointG2} {A : (curve c).Point} (h : Represents c P A) :
    Represents c (G2.Neg c P) (-A) := by
  obtain ⟨hP, ⟨hz, rfl⟩ | ⟨hz, x, y, hns, rfl, rfl, rfl⟩⟩ := h
  · rw [neg_zero]
    exact Represents.of_zero
      (show (G2.Neg c P).Canon c from ⟨hP.1, fp2.canon_neg hP.2.1, hP.2.2⟩) hz
  · rw [WeierstrassCurve.Affine.Point.neg_some]
    apply Represents.of_coords
      (show (G2.Neg c P).Canon c from ⟨hP.1, fp2.canon_neg hP.2.1, hP.2.2⟩)
      (show (G2.Neg c P).z ≠ fp2.zero from hz)
    · rfl
    · rw [curve_negY]
      show val2 c (fp2.neg c P.y) / val2 c P.z ^ 3 = _
      rw [fp2.val2_neg _ _ hP.2.1, neg_div]

/-- The method `Affine` keeps the point of the curve that its argument stands for. -/
theorem Represents.of_Affine {c : Consts} [Fact c.p.Prime] [Fact (c.p % 4 = 3)] (hc : c.Curve)
    {P : PointG2} {A : (curve c).Point} (h : Represents c P A) :
    Represents c (G2.Affine c P) A := by
  have hm := hc.valid.mont
  obtain ⟨hP, ⟨hz, rfl⟩ | ⟨hz, x, y, hns, rfl, rfl, rfl⟩⟩ := h
  · rw [Affine_of_zero c P hz]
    exact Represents.of_zero hP hz
  · obtain ⟨ex, ey, ez⟩ := Affine_nonzero hc.valid hP hz
    have v1 : val2 c (G2.Affine c P).z = 1 := by rw [ez, fp2.val2_one hm]
    apply Represents.of_coords (Affine_canon hm hP)
      (ne_zero_of_val2 (by rw [v1]; exact (zero_ne_one' (F2 c.p)).symm))
    · rw [v1, ex, one_pow, div_one]
    · rw [v1, ey, one_pow, div_one]

/-- C29: `IsOnCurve` is preserved by the group operations: for all points
`p1`, `p2` (canonical coordinates) satisfying `IsOnCurve` and every
non-negative integer `e`, the results of `Add p1 p2`, `Double p1`, `Neg p1`,
`Sub p1 p2`, `Affine p1` and `MulScalar p1 e` all satisfy `IsOnCurve`. -/
theorem IsOnCurve_preserved (c : Consts) (hc : c.Curve) (p1 p2 : PointG2)
    (h1 : p1.Canon c) (h2 : p2.Canon c)
    (o1 : G2.IsOnCurve c p1 = true) (o2 : G2.IsOnCurve c p2 = true) (e : Nat) :
    G2.IsOnCurve c (G2.Add c p1 p2) = true ∧
    G2.IsOnCurve c (G2.Double c p1) = true ∧
    G2.IsOnCurve c (G2.Neg c p1) = true ∧
    G2.IsOnCurve c (G2.Sub c p1 p2) = true ∧
    G2.IsOnCurve c (G2.Affine c p1) = true ∧
    G2.IsOnCurve c (G2.MulScalar c p1 e) = true := by
  haveI : Fact c.p.Prime := ⟨hc.valid.prime⟩
  haveI : Fact (c.p % 4 = 3) := ⟨hc.valid.mod4⟩
  obtain ⟨A, hA⟩ := Represents.exists_of_IsOnCurve hc h1 o1
  obtain ⟨B, hB⟩ := Represents.exists_of_IsOnCurve hc h2 o2
  exact ⟨(Represents.of_Add hc hA hB).onCurve hc, (Represents.of_Double hc hA).onCurve hc,
    (Represents.of_Neg hA).onCurve hc,
    (Represents.of_Add hc hA (Represents.of_Neg hB)).onCurve hc,
    (Represents.of_Affine hc hA).onCurve hc, (Represents.of_MulScalar hc hA e).onCurve hc⟩

/-- C29 on two points of the small curve, one of them not in affine form,
with `e = 7`. -/
theorem IsOnCurve_preserved_witness :
    toy.Curve ∧ G2.IsOnCurve toy toyPointYInFp = true ∧
    G2.IsOnCurve toy ⟨⟨10, 2⟩, ⟨13, 10⟩, ⟨14, 7⟩⟩ = true ∧
    G2.IsOnCurve toy (G2.Add toy ⟨⟨10, 2⟩, ⟨13, 10⟩, ⟨14, 7⟩⟩ toyPointYInFp) = true ∧
    G2.IsOnCurve toy (G2.MulScalar toy ⟨⟨10, 2⟩, ⟨13, 10⟩, ⟨14, 7⟩⟩ 7) = true :=
  have h := IsOnCurve_preserved toy toy_curve ⟨⟨10, 2⟩, ⟨13, 10⟩, ⟨14, 7⟩⟩ toyPointYInFp
    (by decide) (by decide) (by decide) (by decide) 7
  ⟨toy_curve, by decide, by decide, h.1, h.2.2.2.2.2⟩

/-! ## Windowed non-adjacent-form multiplication -/

/-- The table before the loop: the point itself and its negative. -/
theorem OddMultiples.init {c : Consts} [Fact c.p.Prime] [Fact (c.p % 4 = 3)]
    (ip : Nat) (hip : 1 ≤ ip) {P : PointG2} {A : (curve c).Point} (hP : Represents c P A) :
    OddMultiples c ip
      (((List.replicate (2 * ip) (G2.New c)).set ip (G2.Copy P)).set (ip - 1) (G2.Neg c P))
      A 1 := by
  refine ⟨by simp, ?_⟩
  intro k hk
  obtain rfl : k = 0 := by omega
  constructor
  · refine ⟨G2.Copy P, ?_, ?_⟩
    · rw [List.getElem?_set_ne (by omega), Nat.add_zero,
        List.getElem?_set_self (by simp; omega)]
    · rw [Copy_eq]
      apply hP.of_eq
      simp
  · refine ⟨G2.Neg c P, ?_, ?_⟩
    · rw [Nat.sub_zero, List.getElem?_set_self (by simp; omega)]
    · apply (Represents.of_Neg hP).of_eq
      simp

/-- The loop fills the table with the odd multiples up to `2 * ip - 1`. -/
theorem precompLoop_table {c : Consts} [Fact c.p.Prime] [Fact (c.p % 4 = 3)] (hc : c.Curve)
    (ip : Nat) {doubled : PointG2} {A : (curve c).Point} (hD : Represents c doubled (A + A))
    (k i : Nat) (hi : 1 ≤ i) (hik : i + k = ip) {precomp : PointG2}
    (hp : Represents c precomp ((2 * (i - 1) + 1) • A)) {table : List PointG2}
    (hT : OddMultiples c ip table A i) :
    OddMultiples c ip (G2.precompLoop c ip doubled k i precomp table) A ip := by
  induction k generalizing i precomp table with
  | zero =>
    unfold G2.precompLoop
    have : i = ip := by omega
    rw [← this]; rw [← this] at hT; exact hT
  | succ k ih =>
    unfold G2.precompLoop
    have hp2 : Represents c (G2.Add c precomp doubled) ((2 * i + 1) • A) := by
      apply (Represents.of_Add hc hp hD).of_eq
      have e : 2 * i + 1 = (2 * (i - 1) + 1) + 2 := by omega
      rw [e, add_nsmul _ _ 2, two_nsmul]
    apply ih (i + 1) (by omega) (by omega)
    · apply hp2.of_eq
      congr 2
    · obtain ⟨hl, hk⟩ := hT
      refine ⟨by simp [hl], ?_⟩
      intro j hj
      by_cases hji : j < i
      · obtain ⟨⟨T, t1, t2⟩, ⟨T', t3, t4⟩⟩ := hk j hji
        refine ⟨⟨T, ?_, t2⟩, ⟨T', ?_, t4⟩⟩
        · rw [List.getElem?_set_ne (by omega), List.getElem?_set_ne (by omega)]
          exact t1
        · rw [List.getElem?_set_ne (by omega), List.getElem?_set_ne (by omega)]
          exact t3
      · obtain rfl : j = i := by omega
        refine ⟨⟨G2.Copy (G2.Add c precomp doubled), ?_, ?_⟩,
          ⟨G2.Neg c (G2.Add c precomp doubled), ?_, ?_⟩⟩
        · rw [List.getElem?_set_ne (by omega), List.getElem?_set_self (by omega)]
        · rw [Copy_eq]; exact hp2
        · rw [List.getElem?_set_self (by simp; omega)]
        · exact Represents.of_Neg hp2

/-- The main loop evaluates the digits: the accumulator stands for the value
of the digits times the point, and nothing was found while the value is
made of zero digits only. -/
theorem wnafLoop_rep {c : Consts} [Fact c.p.Prime] [Fact (c.p % 4 = 3)] (hc : c.Curve)
    (ip : Nat) (hip : 1 ≤ ip) {table : List PointG2} {A : (curve c).Point}
    (hT : OddMultiples c ip table A ip) (ds : List Int)
    (hd : ∀ d ∈ ds, d ≠ 0 → d % 2 = 1 ∧ -(2 * (ip : Int)) < d ∧ d < 2 * (ip : Int)) :
    ∃ q f, G2.wnafLoop c ip table ds (G2.Zero c, false) = some (q, f) ∧
      Represents c q (wnafValue ds • A) ∧ (f = false → wnafValue ds = 0) := by
  induction ds with
  | nil =>
    refine ⟨G2.Zero c, false, rfl, ?_, fun _ => rfl⟩
    apply (Represents.of_Zero hc.valid.mont).of_eq
    simp [wnafValue]
  | cons d ds ih =>
    obtain ⟨q, f, h1, h2, h3⟩ := ih (fun x hx => hd x (List.mem_cons_of_mem _ hx))
    have hq2 : Represents c (if f = true then G2.Double c q else q)
        ((2 * wnafValue ds) • A) := by
      cases f with
      | false =>
        rw [h3 rfl] at h2 ⊢
        simpa using h2
      | true =>
        apply (Represents.of_Double hc h2).of_eq
        rw [two_mul, add_zsmul]
    unfold G2.wnafLoop
    rw [h1, Option.some_bind]
    unfold G2.wnafStep
    by_cases hd0 : d = 0
    · subst hd0
      refine ⟨if f = true then G2.Double c q else q, f, by simp, ?_, ?_⟩
      · apply hq2.of_eq
        simp [wnafValue]
      · intro hf
        simp [wnafValue, h3 hf]
    · obtain ⟨hodd, hlo, hhi⟩ := hd d (List.mem_cons_self _ _) hd0
      rw [if_pos hd0]
      by_cases hpos : d > 0
      · rw [if_pos hpos]
        have hk : d.toNat >>> 1 < ip := by
          rw [Nat.shiftRight_eq_div_pow]; omega
        obtain ⟨⟨T, t1, t2⟩, _⟩ := hT.2 _ hk
        refine ⟨G2.Add c (if f = true then G2.Double c q else q) T, true,
          by simp only [t1, Option.map_some'], ?_, by simp⟩
        apply (Represents.of_Add hc hq2 t2).of_eq
        have e : ((2 * (d.toNat >>> 1) + 1 : Nat) : Int) = d := by
          rw [Nat.shiftRight_eq_div_pow]; omega
        rw [wnafValue, add_comm d, add_zsmul, ← natCast_zsmul, e]
      · rw [if_neg hpos]
        have hk : (0 - d).toNat >>> 1 < ip := by
          rw [Nat.shiftRight_eq_div_pow]; omega
        obtain ⟨_, ⟨T, t1, t2⟩⟩ := hT.2 _ hk
        rw [if_pos (by omega)]
        refine ⟨G2.Add c (if f = true then G2.Double c q else q) T, true,
          by simp only [t1, Option.map_some'], ?_, by simp⟩
        apply (Represents.of_Add hc hq2 t2).of_eq
        have e : -((2 * ((0 - d).toNat >>> 1) + 1 : Nat) : Int) = d := by
          rw [Nat.shiftRight_eq_div_pow]; omega
        rw [wnafValue, add_comm d, add_zsmul, ← natCast_zsmul, ← neg_zsmul, e]

/-- C22: for every on-curve point `P` (canonical coordinates) and every scalar
given as limbs `e`, if `wnaf(e, 6)` returns a signed-digit sequence (least
significant first) whose value `Σ dᵢ·2^i` is the scalar `n` and in which every
non-zero digit is odd and of absolute value below 32, then `wnafMul P e`
returns a point that `Equal` reports equal to `MulScalar P n`. -/
theorem wnafMul_spec (c : Consts) (hc : c.Curve) (wnaf : List Nat → Nat → List Int)
    (P : PointG2) (hP : P.Canon c) (hon : G2.IsOnCurve c P = true) (e : List Nat) (n : Nat)
    (hd : ∀ d ∈ wnaf e 6, d ≠ 0 → d % 2 = 1 ∧ -32 < d ∧ d < 32)
    (hs : wnafValue (wnaf e 6) = (n : Int)) :
    ∃ R, G2.wnafMul c wnaf P e = .ok R ∧ G2.Equal c R (G2.MulScalar c P n) = true := by
  haveI : Fact c.p.Prime := ⟨hc.valid.prime⟩
  haveI : Fact (c.p % 4 = 3) := ⟨hc.valid.mod4⟩
  obtain ⟨A, hA⟩ := Represents.exists_of_IsOnCurve hc hP hon
  have hp : Represents c (G2.Copy P) ((2 * (1 - 1) + 1) • A) := by
    rw [Copy_eq]
    apply hA.of_eq
    simp
  have hT := precompLoop_table hc 16 (Represents.of_Double hc hA) (16 - 1) 1 (by omega)
    (by omega) hp (OddMultiples.init 16 (by omega) hA)
  obtain ⟨q, f, h1, h2, _⟩ := wnafLoop_rep hc 16 (by omega) hT (wnaf e 6)
    (fun d hd1 hd0 => by
      obtain ⟨a, b, c⟩ := hd d hd1 hd0
      exact ⟨a, by omega, by omega⟩)
  have h16 : (1 <<< (6 - 2) : Nat) = 16 := by decide
  have h32 : (1 <<< (6 - 1) : Nat) = 2 * 16 := by decide
  refine ⟨G2.Copy q, ?_, ?_⟩
  · unfold G2.wnafMul
    simp only [h16, h32]
    rw [h1]
  · rw [Copy_eq]
    rw [hs, natCast_zsmul] at h2
    exact (Represents.Equal_iff hc h2 (Represents.of_MulScalar hc hA n)).2 rfl

/-- C22 on a point of the small curve, for a `wnaf` that returns the digits
`-1, 0, 0, 0, 0, 0, 1` of the scalar 63. -/
theorem wnafMul_spec_witness :
    toy.Curve ∧ G2.IsOnCurve toy ⟨⟨10, 2⟩, ⟨13, 10⟩, ⟨14, 7⟩⟩ = true ∧
    wnafValue [-1, 0, 0, 0, 0, 0, 1] = 63 ∧
    ∃ R, G2.wnafMul toy (fun _ _ => [-1, 0, 0, 0, 0, 0, 1]) ⟨⟨10, 2⟩, ⟨13, 10⟩, ⟨14, 7⟩⟩ [63]
        = .ok R ∧
      G2.Equal toy R (G2.MulScalar toy ⟨⟨10, 2⟩, ⟨13, 10⟩, ⟨14, 7⟩⟩ 63) = true :=
  ⟨toy_curve, by decide, by decide,
    wnafMul_spec toy toy_curve (fun _ _ => [-1, 0, 0, 0, 0, 0, 1])
      ⟨⟨10, 2⟩, ⟨13, 10⟩, ⟨14, 7⟩⟩ (by decide) (by decide) [63] 63 (by decide) (by decide)⟩

/-! ## The base field against integer arithmetic -/

theorem natCast_inj_of_lt {p x y : Nat} (hx : x < p) (hy : y < p)
    (h : (x : ZMod p) = (y : ZMod p)) : x = y := by
  rw [ZMod.natCast_eq_natCast_iff'] at h
  rwa [Nat.mod_eq_of_lt hx, Nat.mod_eq_of_lt hy] at h

theorem toBig_cast (c : Consts) (a : Nat) : ((toBig c a : Nat) : ZMod c.p) = val c a := by
  unfold toBig fromMont mul val
  rw [ZMod.natCast_mod]
  push_cast
  ring

theorem toBig_lt {c : Consts} (h : c.Mont) (a : Nat) : toBig c a < c.p :=
  mul_lt h a 1

theorem toBytes_eq (c : Consts) (a : Nat) : toBytes c a = toBE 48 (toBig c a) := rfl

theorem intMod_cast {p : Nat} (hp : 0 < p) (x : Int) :
    (((x % (p : Int)).toNat : Nat) : ZMod p) = (x : ZMod p) := by
  have h0 : 0 ≤ x % (p : Int) := Int.emod_nonneg _ (by omega)
  have h1 : (((x % (p : Int)).toNat : Nat) : Int) = x % (p : Int) := Int.toNat_of_nonneg h0
  have h2 : (((x % (p : Int)).toNat : Nat) : ZMod p) = ((x % (p : Int) : Int) : ZMod p) := by
    rw [← h1, Int.cast_natCast, h1]
  rw [h2, ZMod.intCast_mod]

theorem intMod_lt {p : Nat} (hp : 0 < p) (x : Int) : (x % (p : Int)).toNat < p := by
  have h0 : 0 ≤ x % (p : Int) := Int.emod_nonneg _ (by omega)
  have h1 : x % (p : Int) < p := Int.emod_lt_of_pos _ (by omega)
  omega

/-- C23: for all canonical `Fp` elements `a` and `b` with integer values
`A = toBig a` and `B = toBig b`, the 48-byte encodings of `add a b`,
`double a`, `sub a b`, `neg a` and `mul a b` are the 48-byte big-endian
encodings of `(A + B) mod p`, `(2A) mod p`, `(A − B) mod p`, `(−A) mod p` and
`(A·B) mod p`, and each result lies in `[0, p)`. -/
theorem Fp_arithmetic_bytes (c : Consts) (hc : c.Mont) (a b : Nat) (ha : a < c.p)
    (hb : b < c.p) :
    (toBytes c (add c a b) = toBE 48 ((toBig c a + toBig c b) % c.p) ∧
     toBytes c (double c a) = toBE 48 ((2 * toBig c a) % c.p) ∧
     toBytes c (sub c a b) = toBE 48 (((toBig c a : Int) - (toBig c b : Int)) % (c.p : Int)).toNat ∧
     toBytes c (neg c a) = toBE 48 ((-(toBig c a : Int)) % (c.p : Int)).toNat ∧
     toBytes c (mul c a b) = toBE 48 ((toBig c a * toBig c b) % c.p)) ∧
    (add c a b < c.p ∧ double c a < c.p ∧ sub c a b < c.p ∧ neg c a < c.p ∧ mul c a b < c.p) ∧
    (toBig c (add c a b) < c.p ∧ toBig c (double c a) < c.p ∧ toBig c (sub c a b) < c.p ∧
      toBig c (neg c a) < c.p ∧ toBig c (mul c a b) < c.p) := by
  have hp : 0 < c.p := by have := hc.one_lt; omega
  refine ⟨⟨?_, ?_, ?_, ?_, ?_⟩, ⟨add_lt ha hb, double_lt ha, sub_lt ha hb, neg_lt ha,
    mul_lt hc a b⟩, ⟨toBig_lt hc _, toBig_lt hc _, toBig_lt hc _, toBig_lt hc _, toBig_lt hc _⟩⟩
  · rw [toBytes_eq]
    congr 1
    apply natCast_inj_of_lt (toBig_lt hc _) (Nat.mod_lt _ hp)
    rw [toBig_cast, val_add, ZMod.natCast_mod]
    push_cast
    rw [toBig_cast, toBig_cast]
  · rw [toBytes_eq]
    congr 1
    apply natCast_inj_of_lt (toBig_lt hc _) (Nat.mod_lt _ hp)
    rw [toBig_cast, val_double, ZMod.natCast_mod]
    push_cast
    rw [toBig_cast, two_mul]
  · rw [toBytes_eq]
    congr 1
    apply natCast_inj_of_lt (toBig_lt hc _) (intMod_lt hp _)
    rw [toBig_cast, val_sub c a b (Nat.le_of_lt hb), intMod_cast hp]
    push_cast
    rw [toBig_cast, toBig_cast]
  · rw [toBytes_eq]
    congr 1
    apply natCast_inj_of_lt (toBig_lt hc _) (intMod_lt hp _)
    rw [toBig_cast, val_neg c a (Nat.le_of_lt ha), intMod_cast hp]
    push_cast
    rw [toBig_cast]
  · rw [toBytes_eq]
    congr 1
    apply natCast_inj_of_lt (toBig_lt hc _) (Nat.mod_lt _ hp)
    rw [toBig_cast, val_mul, ZMod.natCast_mod]
    push_cast
    rw [toBig_cast, toBig_cast]

/-- C23 on two coordinates of the generator of BLS12-381. -/
theorem Fp_arithmetic_bytes_witness :
    bls.Mont ∧ gen.x.c0 < bls.p ∧ gen.y.c1 < bls.p ∧
    toBytes bls (mul bls gen.x.c0 gen.y.c1) =
      toBE 48 ((toBig bls gen.x.c0 * toBig bls gen.y.c1) % bls.p) ∧
    toBytes bls (sub bls gen.x.c0 gen.y.c1) =
      toBE 48 (((toBig bls gen.x.c0 : Int) - (toBig bls gen.y.c1 : Int)) % (bls.p : Int)).toNat :=
  have h := Fp_arithmetic_bytes bls bls_mont gen.x.c0 gen.y.c1 (by decide) (by decide)
  ⟨bls_mont, by decide, by decide, h.1.2.2.2.2, h.1.2.2.1⟩

/-! ## Byte encoding of the base field -/

theorem toBE_length (n v : Nat) : (toBE n v).length = n := by
  induction n generalizing v with
  | zero => rfl
  | succ n ih => simp [toBE, ih]

theorem fromBE_append (l : List Nat) (b : Nat) : fromBE (l ++ [b]) = fromBE l * 256 + b := by
  simp [fromBE, List.foldl_append]

theorem fromBE_toBE (n v : Nat) : fromBE (toBE n v) = v % 256 ^ n := by
  induction n generalizing v with
  | zero => simp [toBE, fromBE, Nat.mod_one]
  | succ n ih =>
    rw [toBE, fromBE_append, ih, pow_succ', Nat.mod_mul]
    ring

theorem fromBE_replicate_zero (n : Nat) : fromBE (List.replicate n 0) = 0 := by
  have key : ∀ acc, (List.replicate n 0).foldl (fun acc b => acc * 256 + b) acc
      = acc * 256 ^ n := by
    induction n with
    | zero => intro acc; simp
    | succ n ih =>
      intro acc
      rw [List.replicate_succ, List.foldl_cons, ih, pow_succ']
      ring
  rw [fromBE, key, Nat.zero_mul]

theorem toBE_zero (n : Nat) : toBE n 0 = List.replicate n 0 := by
  induction n with
  | zero => rfl
  | succ n ih =>
    rw [toBE, Nat.zero_div, ih, Nat.zero_mod, List.replicate_succ']

theorem toMont_fromMont {c : Consts} (h : c.Mont) {a : Nat} (ha : a < c.p) :
    toMont c (fromMont c a) = a := by
  apply natCast_inj_of_lt (mul_lt h _ _) ha
  unfold fromMont mul
  rw [ZMod.natCast_mod]
  push_cast
  rw [ZMod.natCast_mod, ZMod.natCast_mod]
  push_cast
  have e := R_mul_rinv h
  linear_combination ((a : ZMod c.p) * (R : ZMod c.p) * (c.rinv : ZMod c.p) + (a : ZMod c.p)) * e

/-- C24: for every canonical `Fp` element `a`, `fromBytes (toBytes a)` succeeds
and equals `a`, and `toBytes a` is 48 bytes; the all-zero 48-byte input decodes
to the additive identity, which encodes back to 48 zero bytes; and `fromBytes`
fails on every 48-byte input whose big-endian value is `≥ p`. -/
theorem Fp_bytes_roundtrip (c : Consts) (hc : c.Mont) :
    (∀ a, a < c.p → fromBytes c (toBytes c a) = .ok a ∧ (toBytes c a).length = 48) ∧
    (fromBytes c (List.replicate 48 0) = .ok 0 ∧ toBytes c 0 = List.replicate 48 0) ∧
    (∀ bs : List Nat, bs.length = 48 → c.p ≤ fromBE bs → ∃ msg, fromBytes c bs = .error msg) := by
  have hp : 0 < c.p := by have := hc.one_lt; omega
  refine ⟨?_, ⟨?_, ?_⟩, ?_⟩
  · intro a ha
    have hl : (toBytes c a).length = 48 := toBE_length 48 _
    refine ⟨?_, hl⟩
    have hv : fromBE (toBytes c a) = fromMont c a := by
      unfold toBytes
      rw [fromBE_toBE]
      apply Nat.mod_eq_of_lt
      have h1 : fromMont c a < c.p := mul_lt hc a 1
      have h2 := hc.bits
      have h3 : (2 : Nat) ^ 381 < 256 ^ 48 := by norm_num
      omega
    unfold fromBytes
    rw [if_neg (not_not.2 hl), hv,
      if_neg (show ¬ c.p ≤ fromMont c a from Nat.not_le.2 (mul_lt hc a 1)),
      toMont_fromMont hc ha]
  · unfold fromBytes
    rw [if_neg (not_not.2 (List.length_replicate 48 0)), fromBE_replicate_zero,
      if_neg (Nat.not_le.2 hp)]
    simp [toMont, mul]
  · unfold toBytes
    have h0 : fromMont c 0 = 0 := by simp [fromMont, mul]
    rw [h0, toBE_zero]
  · intro bs hl hge
    unfold fromBytes
    rw [if_neg (not_not.2 hl), if_pos hge]
    exact ⟨_, rfl⟩

/-- C24 on BLS12-381, at a coordinate of the generator and at the input
`0xff … ff`. -/
theorem Fp_bytes_roundtrip_witness :
    bls.Mont ∧ fromBytes bls (toBytes bls gen.x.c0) = .ok gen.x.c0 ∧
    ∃ msg, fromBytes bls (List.replicate 48 255) = .error msg :=
  have h := Fp_bytes_roundtrip bls bls_mont
  ⟨bls_mont, (h.1 gen.x.c0 (by decide)).1,
    h.2.2 (List.replicate 48 255) (by decide) (by decide)⟩

/-! ## Root selection in `FromCompressed` -/

/-- On the small curve, the compressed input with the sign bit set and the `x`
of `toyPointYInFp` decodes to the smaller root: the square root has `c1 = 0`,
so the first comparison of the selection alone decides and the root is
negated whichever it is. The returned `y` has the canonical value `5`, its
negative `14`. -/
theorem FromCompressed_root_small_curve :
    ((((List.replicate 96 0).set 0 0xa0).set 47 14).set 95 1).getD 0 0 &&& (1 <<< 5) ≠ 0 ∧
    G2.FromCompressed toy ((((List.replicate 96 0).set 0 0xa0).set 47 14).set 95 1) =
      .ok ⟨⟨7, 3⟩, ⟨16, 0⟩, fp2.one toy⟩ ∧
    fp2.fromMont toy ⟨16, 0⟩ = ⟨5, 0⟩ ∧
    fp2.fromMont toy (fp2.neg toy ⟨16, 0⟩) = ⟨14, 0⟩ := by
  set_option maxRecDepth 100000 in decide!

/-! ## The pointer-level operations compute the value-level ones -/

theorem Mem.write_cell (m : Mem) (l l' : Loc) (v : fe2) :
    (m.write l v).cell l' = if l' = l then v else m.cell l' := rfl

theorem Mem.write_next (m : Mem) (l : Loc) (v : fe2) : (m.write l v).next = m.next := rfl

/-- `p.Set(p2)` stores the point at `p2` at `p` and writes nothing else. -/
theorem SetAt_spec (m : Mem) (p p2 : Nat) :
    (G2.SetAt m p p2).next = m.next ∧
    (G2.SetAt m p p2).point p = m.point p2 ∧
    ∀ a, a ≠ p → (G2.SetAt m p p2).point a = m.point a := by
  refine ⟨rfl, ?_, ?_⟩
  · by_cases h : p2 = p
    · subst h
      simp [G2.SetAt, Mem.point, Mem.write_cell]
    · simp [G2.SetAt, Mem.point, Mem.write_cell, h]
  · intro a ha
    simp [G2.SetAt, Mem.point, Mem.write_cell, ha]

theorem SetConstAt_spec (m : Mem) (p : Nat) (v : PointG2) :
    (G2.SetConstAt m p v).next = m.next ∧
    (G2.SetConstAt m p v).point p = v ∧
    ∀ a, a ≠ p → (G2.SetConstAt m p v).point a = m.point a := by
  refine ⟨rfl, ?_, ?_⟩
  · simp [G2.SetConstAt, Mem.point, Mem.write_cell]
  · intro a ha
    simp [G2.SetConstAt, Mem.point, Mem.write_cell, ha]

theorem CopyAt_spec (m : Mem) (dst src : Nat) :
    (G2.CopyAt m dst src).next = m.next ∧
    (G2.CopyAt m dst src).point dst = m.point src ∧
    ∀ a, a ≠ dst → (G2.CopyAt m dst src).point a = m.point a := SetAt_spec m dst src

/-- `g.Zero()` allocates the next address, stores `(0, 1, 0)` there and writes
nothing else. -/
theorem ZeroAt_spec (c : Consts) (m : Mem) :
    (G2.ZeroAt c m).1 = m.next ∧ (G2.ZeroAt c m).2.next = m.next + 1 ∧
    (G2.ZeroAt c m).2.point m.next = G2.Zero c ∧
    ∀ a, a ≠ m.next → (G2.ZeroAt c m).2.point a = m.point a := by
  refine ⟨rfl, rfl, ?_, ?_⟩
  · simp [G2.ZeroAt, Mem.point, Mem.write_cell, G2.Zero]
  · intro a ha
    simp [G2.ZeroAt, Mem.point, Mem.write_cell, ha]

/-- `g.Double(r, p)` stores `Double` of the point at `p` at `r` and writes no
other point, also when `r = p`. -/
theorem DoubleAt_spec (c : Consts) (m : Mem) (r p : Nat) :
    (G2.DoubleAt c m r p).next = m.next ∧
    (G2.DoubleAt c m r p).point r = G2.Double c (m.point p) ∧
    ∀ a, a ≠ r → (G2.DoubleAt c m r p).point a = m.point a := by
  unfold G2.DoubleAt G2.Double
  have hz : G2.IsZeroAt m p = G2.IsZero (m.point p) := rfl
  rw [hz]
  by_cases h0 : G2.IsZero (m.point p) = true
  · rw [if_pos h0, if_pos h0]
    exact SetAt_spec m r p
  · rw [if_neg h0, if_neg h0]
    refine ⟨rfl, ?_, ?_⟩
    · by_cases h : p = r
      · subst h
        simp [Mem.point, Mem.write_cell, fp2.squareAt, fp2.mulAt, fp2.addAt, fp2.subAt,
          fp2.doubleAt, fp2.copyAt]
      · simp [Mem.point, Mem.write_cell, fp2.squareAt, fp2.mulAt, fp2.addAt, fp2.subAt,
          fp2.doubleAt, fp2.copyAt, h]
    · intro a ha
      simp [Mem.point, Mem.write_cell, fp2.squareAt, fp2.mulAt, fp2.addAt, fp2.subAt,
        fp2.doubleAt, fp2.copyAt, ha]

/-- `g.Add(r, p1, p2)` stores `Add` of the points at `p1` and `p2` at `r` and
writes no other point, whichever of the three addresses coincide. -/
theorem AddAt_spec (c : Consts) (m : Mem) (r p1 p2 : Nat) :
    (G2.AddAt c m r p1 p2).next = m.next ∧
    (G2.AddAt c m r p1 p2).point r = G2.Add c (m.point p1) (m.point p2) ∧
    ∀ a, a ≠ r → (G2.AddAt c m r p1 p2).point a = m.point a := by
  unfold G2.AddAt G2.Add
  have hz1 : G2.IsZeroAt m p1 = G2.IsZero (m.point p1) := rfl
  have hz2 : G2.IsZeroAt m p2 = G2.IsZero (m.point p2) := rfl
  rw [hz1, hz2]
  by_cases h1 : G2.IsZero (m.point p1) = true
  · rw [if_pos h1, if_pos h1]
    exact SetAt_spec m r p2
  rw [if_neg h1, if_neg h1]
  by_cases h2 : G2.IsZero (m.point p2) = true
  · rw [if_pos h2, if_pos h2]
    exact SetAt_spec m r p1
  rw [if_neg h2, if_neg h2]
  simp only []
  set m8 : Mem :=
    fp2.mulAt c (fp2.mulAt c (fp2.mulAt c (fp2.squareAt c (fp2.mulAt c (fp2.mulAt c
      (fp2.mulAt c (fp2.squareAt c m (.temp 7) (.coord p1 2)) (.temp 1) (.coord p2 0) (.temp 7))
      (.temp 2) (.coord p1 2) (.temp 7)) (.temp 0) (.coord p2 1) (.temp 2))
      (.temp 8) (.coord p2 2)) (.temp 3) (.coord p1 0) (.temp 8))
      (.temp 4) (.coord p2 2) (.temp 8)) (.temp 2) (.coord p1 1) (.temp 4) with hm8
  have n8 : m8.next = m.next := rfl
  have c8 : ∀ a i, m8.cell (.coord a i) = m.cell (.coord a i) := by
    intro a i
    simp [hm8, Mem.write_cell, fp2.squareAt, fp2.mulAt]
  have p8 : ∀ a, m8.point a = m.point a := by
    intro a
    simp [Mem.point, c8]
  have t0 : m8.cell (.temp 0) = fp2.mul c (m.point p2).y
      (fp2.mul c (m.point p1).z (fp2.square c (m.point p1).z)) := by
    simp [hm8, Mem.point, Mem.write_cell, fp2.squareAt, fp2.mulAt]
  have t1 : m8.cell (.temp 1) = fp2.mul c (m.point p2).x (fp2.square c (m.point p1).z) := by
    simp [hm8, Mem.point, Mem.write_cell, fp2.squareAt, fp2.mulAt]
  have t2 : m8.cell (.temp 2) = fp2.mul c (m.point p1).y
      (fp2.mul c (m.point p2).z (fp2.square c (m.point p2).z)) := by
    simp [hm8, Mem.point, Mem.write_cell, fp2.squareAt, fp2.mulAt]
  have t3 : m8.cell (.temp 3) = fp2.mul c (m.point p1).x (fp2.square c (m.point p2).z) := by
    simp [hm8, Mem.point, Mem.write_cell, fp2.squareAt, fp2.mulAt]
  have t7 : m8.cell (.temp 7) = fp2.square c (m.point p1).z := by
    simp [hm8, Mem.point, Mem.write_cell, fp2.squareAt, fp2.mulAt]
  have t8 : m8.cell (.temp 8) = fp2.square c (m.point p2).z := by
    simp [hm8, Mem.point, Mem.write_cell, fp2.squareAt, fp2.mulAt]
  clear_value m8
  rw [t0, t1, t2, t3]
  split
  · split
    · obtain ⟨d1, d2, d3⟩ := DoubleAt_spec c m8 r p1
      refine ⟨d1.trans n8, ?_, ?_⟩
      · rw [d2, p8]
      · intro a ha
        rw [d3 a ha, p8]
    · obtain ⟨d1, d2, d3⟩ := SetConstAt_spec m8 r (G2.infinity2 c)
      refine ⟨d1.trans n8, ?_, ?_⟩
      · rw [d2]; rfl
      · intro a ha
        rw [d3 a ha, p8]
  · refine ⟨n8, ?_, ?_⟩
    · simp [Mem.point, Mem.write_cell, fp2.squareAt, fp2.mulAt, fp2.addAt, fp2.subAt,
        fp2.doubleAt, t0, t1, t2, t3, t7, t8, c8]
    · intro a ha
      simp [Mem.point, Mem.write_cell, fp2.squareAt, fp2.mulAt, fp2.addAt, fp2.subAt,
        fp2.doubleAt, ha, c8]

/-! ## The loops of `MultiExp` on pointers -/

/-- The allocation loop returns consecutive new addresses, each holding the
zero point, and writes no point allocated before. -/
theorem newLoopAt_spec (c : Consts) (n : Nat) (m : Mem) :
    (G2.newLoopAt c n m).1 = List.range' m.next n ∧
    (G2.newLoopAt c n m).2.next = m.next + n ∧
    (∀ a, a < m.next → (G2.newLoopAt c n m).2.point a = m.point a) ∧
    (∀ a, m.next ≤ a → a < m.next + n → (G2.newLoopAt c n m).2.point a = G2.New c) := by
  induction n generalizing m with
  | zero =>
    refine ⟨rfl, rfl, fun a _ => rfl, ?_⟩
    intro a h1 h2
    omega
  | succ n ih =>
    obtain ⟨z1, z2, z3, z4⟩ := ZeroAt_spec c m
    obtain ⟨i1, i2, i3, i4⟩ := ih (G2.ZeroAt c m).2
    unfold G2.newLoopAt G2.NewAt
    refine ⟨?_, ?_, ?_, ?_⟩
    · show (G2.ZeroAt c m).1 :: (G2.newLoopAt c n (G2.ZeroAt c m).2).1 = _
      rw [i1, z1, z2]
      rfl
    · show (G2.newLoopAt c n (G2.ZeroAt c m).2).2.next = _
      rw [i2, z2]
      omega
    · intro a ha
      show (G2.newLoopAt c n (G2.ZeroAt c m).2).2.point a = _
      rw [i3 a (by rw [z2]; omega), z4 a (by omega)]
    · intro a h1 h2
      show (G2.newLoopAt c n (G2.ZeroAt c m).2).2.point a = _
      by_cases h : a = m.next
      · rw [i3 a (by rw [z2]; omega), h, z3]
        rfl
      · exact i4 a (by rw [z2]; omega) (by rw [z2]; omega)

/-- Writing the sum at one address of a list without repetitions is `bucketAdd`
on the points of the list. -/
theorem bucketAdd_map (c : Consts) (l : List Nat) (hl : l.Nodup) (k b : Nat)
    (hk : l[k]? = some b) (f g : Nat → PointG2) (P : PointG2)
    (hb : g b = G2.Add c (f b) P) (ho : ∀ a, a ≠ b → g a = f a) :
    l.map g = G2.bucketAdd c (l.map f) k P := by
  induction l generalizing k with
  | nil => simp at hk
  | cons x xs ih =>
    rw [List.nodup_cons] at hl
    cases k with
    | zero =>
      simp only [List.getElem?_cons_zero, Option.some.injEq] at hk
      subst hk
      simp only [List.map_cons, G2.bucketAdd, hb]
      congr 1
      apply List.map_congr_left
      intro a ha
      exact ho a (fun e => hl.1 (e ▸ ha))
    | succ k =>
      simp only [List.getElem?_cons_succ] at hk
      have hx : x ≠ b := by
        intro e
        subst e
        exact hl.1 (List.getElem?_mem hk)
      simp only [List.map_cons, G2.bucketAdd, ho x hx]
      rw [ih hl.2 k hk]

/-- The loop over the inputs on pointers computes the value-level loop on the
buckets and writes nothing but the buckets. -/
theorem bucketLoopAt_spec (c : Consts) (w : Nat) (bucket : List Nat) (hnd : bucket.Nodup)
    (hlen : bucket.length = 2 ^ w - 1) (points es : List Nat) (m : Mem)
    (hp : ∀ p ∈ points, p ∉ bucket) :
    (G2.bucketLoopAt c w bucket points es m).1.next = m.next ∧
    (G2.bucketLoopAt c w bucket points es m).2 =
      (G2.bucketLoop c w (points.map m.point) es (bucket.map m.point)).2 ∧
    bucket.map (G2.bucketLoopAt c w bucket points es m).1.point =
      (G2.bucketLoop c w (points.map m.point) es (bucket.map m.point)).1 ∧
    ∀ a, a ∉ bucket → (G2.bucketLoopAt c w bucket points es m).1.point a = m.point a := by
  induction points generalizing es m with
  | nil =>
    unfold G2.bucketLoopAt G2.bucketLoop
    exact ⟨rfl, rfl, rfl, fun a _ => rfl⟩
  | cons p ps ih =>
    cases es with
    | nil =>
      unfold G2.bucketLoopAt G2.bucketLoop
      exact ⟨rfl, rfl, rfl, fun a _ => rfl⟩
    | cons e es =>
      have hpb : p ∉ bucket := hp p (List.mem_cons_self _ _)
      have hps : ∀ q ∈ ps, q ∉ bucket := fun q hq => hp q (List.mem_cons_of_mem _ hq)
      -- one step
      have step : ∃ m1 : Mem,
          (if e % 2 ^ 64 &&& (2 ^ w - 1) ≠ 0 then
            G2.AddAt c m (bucket.getD ((e % 2 ^ 64 &&& (2 ^ w - 1)) - 1) 0)
              (bucket.getD ((e % 2 ^ 64 &&& (2 ^ w - 1)) - 1) 0) p
          else m) = m1 ∧ m1.next = m.next ∧
          bucket.map m1.point =
            (if e % 2 ^ 64 &&& (2 ^ w - 1) ≠ 0 then
              G2.bucketAdd c (bucket.map m.point) ((e % 2 ^ 64 &&& (2 ^ w - 1)) - 1) (m.point p)
            else bucket.map m.point) ∧
          ∀ a, a ∉ bucket → m1.point a = m.point a := by
        by_cases h0 : e % 2 ^ 64 &&& (2 ^ w - 1) ≠ 0
        · have hle : e % 2 ^ 64 &&& (2 ^ w - 1) ≤ 2 ^ w - 1 := Nat.and_le_right
          have hk : (e % 2 ^ 64 &&& (2 ^ w - 1)) - 1 < bucket.length := by omega
          obtain ⟨b, hb⟩ : ∃ b, bucket[(e % 2 ^ 64 &&& (2 ^ w - 1)) - 1]? = some b :=
            ⟨_, List.getElem?_eq_getElem hk⟩
          obtain ⟨a1, a2, a3⟩ := AddAt_spec c m b b p
          have hg : bucket.getD ((e % 2 ^ 64 &&& (2 ^ w - 1)) - 1) 0 = b := by
            rw [List.getD_eq_getElem?_getD, hb]
            rfl
          refine ⟨G2.AddAt c m b b p, ?_, a1, ?_, ?_⟩
          · rw [if_pos h0, hg]
          · rw [if_pos h0]
            exact bucketAdd_map c bucket hnd _ b hb m.point _ _ a2 a3
          · intro a ha
            exact a3 a (fun e1 => ha (e1 ▸ List.getElem?_mem hb))
        · refine ⟨m, ?_, rfl, ?_, fun a _ => rfl⟩
          · rw [if_neg h0]
          · rw [if_neg h0]
      obtain ⟨m1, s1, s2, s3, s4⟩ := step
      obtain ⟨i1, i2, i3, i4⟩ := ih es m1 hps
      have hpts : ps.map m1.point = ps.map m.point :=
        List.map_congr_left (fun q hq => s4 q (hps q hq))
      rw [hpts, s3] at i2 i3
      unfold G2.bucketLoopAt G2.bucketLoop
      simp only [s1, List.map_cons]
      refine ⟨i1.trans s2, ?_, ?_, ?_⟩
      · rw [i2]
      · rw [i3]
      · intro a ha
        rw [i4 a ha, s4 a ha]

/-- The loop over the buckets on pointers computes the value-level loop and
writes nothing but `acc` and `sum`. -/
theorem sumLoopAt_spec (c : Consts) (acc sum : Nat) (hne : acc ≠ sum) (bucket : List Nat)
    (ha : acc ∉ bucket) (hs : sum ∉ bucket) (m : Mem) :
    (G2.sumLoopAt c acc sum bucket m).next = m.next ∧
    ((G2.sumLoopAt c acc sum bucket m).point acc, (G2.sumLoopAt c acc sum bucket m).point sum) =
      G2.sumLoop c (bucket.map m.point) (m.point acc) (m.point sum) ∧
    ∀ a, a ≠ acc → a ≠ sum → (G2.sumLoopAt c acc sum bucket m).point a = m.point a := by
  induction bucket with
  | nil => exact ⟨rfl, rfl, fun a _ _ => rfl⟩
  | cons b bs ih =>
    have hba : b ≠ acc := fun e => ha (e ▸ List.mem_cons_self _ _)
    have hbs : b ≠ sum := fun e => hs (e ▸ List.mem_cons_self _ _)
    obtain ⟨i1, i2, i3⟩ := ih (fun h => ha (List.mem_cons_of_mem _ h))
      (fun h => hs (List.mem_cons_of_mem _ h))
    obtain ⟨x1, x2, x3⟩ := AddAt_spec c (G2.sumLoopAt c acc sum bs m) sum sum b
    obtain ⟨y1, y2, y3⟩ := AddAt_spec c
      (G2.AddAt c (G2.sumLoopAt c acc sum bs m) sum sum b) acc acc sum
    have e1 := congrArg Prod.fst i2
    have e2 := congrArg Prod.snd i2
    simp only at e1 e2
    unfold G2.sumLoopAt
    refine ⟨by rw [y1, x1, i1], ?_, ?_⟩
    · rw [y2, y3 sum hne.symm, x2, x3 acc hne, i3 b hba hbs, e1, e2]
      rfl
    · intro a h1 h2
      rw [y3 a h1, x3 a h2, i3 a h1 h2]

theorem doubleLoopAt_spec (c : Consts) (acc : Nat) (k : Nat) (m : Mem) :
    (G2.doubleLoopAt c acc k m).next = m.next ∧
    (G2.doubleLoopAt c acc k m).point acc = G2.doubleLoop c k (m.point acc) ∧
    ∀ a, a ≠ acc → (G2.doubleLoopAt c acc k m).point a = m.point a := by
  induction k generalizing m with
  | zero => exact ⟨rfl, rfl, fun a _ => rfl⟩
  | succ k ih =>
    obtain ⟨d1, d2, d3⟩ := DoubleAt_spec c m acc acc
    obtain ⟨i1, i2, i3⟩ := ih (G2.DoubleAt c m acc acc)
    unfold G2.doubleLoopAt G2.doubleLoop
    refine ⟨by rw [i1, d1], by rw [i2, d2], ?_⟩
    intro a ha
    rw [i3 a ha, d3 a ha]

/-- The last pass on pointers computes the value-level pass and writes nothing
but `acc`. -/
theorem combineLoopAt_spec (c : Consts) (w acc : Nat) (ws : List Nat) (ha : acc ∉ ws)
    (m : Mem) :
    (G2.combineLoopAt c w acc ws m).next = m.next ∧
    (G2.combineLoopAt c w acc ws m).point acc =
      G2.combineLoop c w (ws.map m.point) (m.point acc) ∧
    ∀ a, a ≠ acc → (G2.combineLoopAt c w acc ws m).point a = m.point a := by
  induction ws with
  | nil => exact ⟨rfl, rfl, fun a _ => rfl⟩
  | cons x xs ih =>
    have hx : x ≠ acc := fun e => ha (e ▸ List.mem_cons_self _ _)
    obtain ⟨i1, i2, i3⟩ := ih (fun h => ha (List.mem_cons_of_mem _ h))
    obtain ⟨d1, d2, d3⟩ := doubleLoopAt_spec c acc w (G2.combineLoopAt c w acc xs m)
    obtain ⟨y1, y2, y3⟩ := AddAt_spec c
      (G2.doubleLoopAt c acc w (G2.combineLoopAt c w acc xs m)) acc acc x
    unfold G2.combineLoopAt
    refine ⟨by rw [y1, d1, i1], ?_, ?_⟩
    · rw [y2, d2, d3 x hx, i2, i3 x hx]
      rfl
    · intro a h1
      rw [y3 a h1, d3 a h1, i3 a h1]

theorem map_range_const {α : Type} (f : Nat → α) (v : α) (s n : Nat)
    (h : ∀ a, s ≤ a → a < s + n → f a = v) :
    (List.range' s n).map f = List.replicate n v := by
  induction n generalizing s with
  | zero => rfl
  | succ n ih =>
    rw [List.range'_succ, List.map_cons, List.replicate_succ, h s (Nat.le_refl _) (by omega),
      ih (s + 1) (fun a h1 h2 => h a (by omega) (by omega))]

/-- The outer loop on pointers computes the value-level loop on the points at
the input addresses; it writes `acc`, `sum` and points it allocates itself,
and nothing else. -/
theorem windowLoopAt_spec (c : Consts) (w numBits : Nat) (points : List Nat) (acc sum : Nat)
    (hne : acc ≠ sum) (fuel cur : Nat) (powers : List Nat) (m : Mem)
    (hacc : acc < m.next) (hsum : sum < m.next)
    (hp : ∀ p ∈ points, p < m.next ∧ p ≠ acc ∧ p ≠ sum) :
    m.next ≤ (G2.windowLoopAt c w numBits points acc sum fuel cur powers m).2.2.next ∧
    (G2.windowLoopAt c w numBits points acc sum fuel cur powers m).2.1 =
      (G2.windowLoop c w numBits (points.map m.point) fuel cur powers).2 ∧
    (G2.windowLoopAt c w numBits points acc sum fuel cur powers m).1.map
        (G2.windowLoopAt c w numBits points acc sum fuel cur powers m).2.2.point =
      (G2.windowLoop c w numBits (points.map m.point) fuel cur powers).1 ∧
    (∀ wa ∈ (G2.windowLoopAt c w numBits points acc sum fuel cur powers m).1,
      m.next ≤ wa ∧
        wa < (G2.windowLoopAt c w numBits points acc sum fuel cur powers m).2.2.next) ∧
    (∀ a, a < m.next → a ≠ acc → a ≠ sum →
      (G2.windowLoopAt c w numBits points acc sum fuel cur powers m).2.2.point a =
        m.point a) := by
  induction fuel generalizing cur powers m with
  | zero =>
    unfold G2.windowLoopAt G2.windowLoop
    exact ⟨Nat.le_refl _, rfl, rfl, fun wa h => by simp at h, fun a _ _ _ => rfl⟩
  | succ fuel ih =>
    by_cases hcur : cur ≤ numBits
    · -- the addresses and memories of one iteration
      let za := (G2.ZeroAt c m).1
      let mz := (G2.ZeroAt c m).2
      let ma := G2.CopyAt mz acc za
      let Bk := (G2.newLoopAt c (2 ^ w - 1) ma).1
      let mb := (G2.newLoopAt c (2 ^ w - 1) ma).2
      let ml := (G2.bucketLoopAt c w Bk points powers mb).1
      let pw := (G2.bucketLoopAt c w Bk points powers mb).2
      let zb := (G2.ZeroAt c ml).1
      let my := (G2.ZeroAt c ml).2
      let ms := G2.CopyAt my sum zb
      let m5 := G2.sumLoopAt c acc sum Bk ms
      let wj := (G2.NewAt c m5).1
      let mw := (G2.NewAt c m5).2
      let m6 := G2.CopyAt mw wj acc
      let rest := G2.windowLoopAt c w numBits points acc sum fuel (cur + w) pw m6
      have key : G2.windowLoopAt c w numBits points acc sum (fuel + 1) cur powers m =
          (wj :: rest.1, rest.2.1, rest.2.2) := by
        rw [G2.windowLoopAt, if_pos hcur]
      -- the values of one iteration
      let bv1 := (G2.bucketLoop c w (points.map m.point) powers
        (List.replicate (2 ^ w - 1) (G2.New c))).1
      let bv2 := (G2.bucketLoop c w (points.map m.point) powers
        (List.replicate (2 ^ w - 1) (G2.New c))).2
      let sv := G2.sumLoop c bv1 (G2.Zero c) (G2.Zero c)
      let rv := G2.windowLoop c w numBits (points.map m.point) fuel (cur + w) bv2
      have keyv : G2.windowLoop c w numBits (points.map m.point) (fuel + 1) cur powers =
          (sv.1 :: rv.1, rv.2) := by
        rw [G2.windowLoop, if_pos hcur]
        rfl
      rw [key, keyv]
      -- what every statement does
      have hz : za = m.next ∧ mz.next = m.next + 1 ∧ mz.point m.next = G2.Zero c ∧
          ∀ a, a ≠ m.next → mz.point a = m.point a := ZeroAt_spec c m
      have ha : ma.next = mz.next ∧ ma.point acc = mz.point za ∧
          ∀ a, a ≠ acc → ma.point a = mz.point a := CopyAt_spec mz acc za
      have hb : Bk = List.range' ma.next (2 ^ w - 1) ∧ mb.next = ma.next + (2 ^ w - 1) ∧
          (∀ a, a < ma.next → mb.point a = ma.point a) ∧
          (∀ a, ma.next ≤ a → a < ma.next + (2 ^ w - 1) → mb.point a = G2.New c) :=
        newLoopAt_spec c (2 ^ w - 1) ma
      have hl : Bk.Nodup → Bk.length = 2 ^ w - 1 → (∀ p ∈ points, p ∉ Bk) →
          ml.next = mb.next ∧
          pw = (G2.bucketLoop c w (points.map mb.point) powers (Bk.map mb.point)).2 ∧
          Bk.map ml.point =
            (G2.bucketLoop c w (points.map mb.point) powers (Bk.map mb.point)).1 ∧
          ∀ a, a ∉ Bk → ml.point a = mb.point a :=
        fun h1 h2 h3 => bucketLoopAt_spec c w Bk h1 h2 points powers mb h3
      have hy : zb = ml.next ∧ my.next = ml.next + 1 ∧ my.point ml.next = G2.Zero c ∧
          ∀ a, a ≠ ml.next → my.point a = ml.point a := ZeroAt_spec c ml
      have hs : ms.next = my.next ∧ ms.point sum = my.point zb ∧
          ∀ a, a ≠ sum → ms.point a = my.point a := CopyAt_spec my sum zb
      have hu : acc ∉ Bk → sum ∉ Bk →
          m5.next = ms.next ∧
          (m5.point acc, m5.point sum) =
            G2.sumLoop c (Bk.map ms.point) (ms.point acc) (ms.point sum) ∧
          ∀ a, a ≠ acc → a ≠ sum → m5.point a = ms.point a :=
        fun h1 h2 => sumLoopAt_spec c acc sum hne Bk h1 h2 ms
      have hv : wj = m5.next ∧ mw.next = m5.next + 1 ∧ mw.point m5.next = G2.Zero c ∧
          ∀ a, a ≠ m5.next → mw.point a = m5.point a := ZeroAt_spec c m5
      have ht : m6.next = mw.next ∧ m6.point wj = mw.point acc ∧
          ∀ a, a ≠ wj → m6.point a = mw.point a := CopyAt_spec mw wj acc
      have hr : acc < m6.next → sum < m6.next →
          (∀ p ∈ points, p < m6.next ∧ p ≠ acc ∧ p ≠ sum) →
          m6.next ≤ rest.2.2.next ∧
          rest.2.1 = (G2.windowLoop c w numBits (points.map m6.point) fuel (cur + w) pw).2 ∧
          rest.1.map rest.2.2.point =
            (G2.windowLoop c w numBits (points.map m6.point) fuel (cur + w) pw).1 ∧
          (∀ wa ∈ rest.1, m6.next ≤ wa ∧ wa < rest.2.2.next) ∧
          (∀ a, a < m6.next → a ≠ acc → a ≠ sum → rest.2.2.point a = m6.point a) :=
        fun h1 h2 h3 => ih (cur + w) pw m6 h1 h2 h3
      have hbv1 : bv1 = (G2.bucketLoop c w (points.map m.point) powers
          (List.replicate (2 ^ w - 1) (G2.New c))).1 := rfl
      have hbv2 : bv2 = (G2.bucketLoop c w (points.map m.point) powers
          (List.replicate (2 ^ w - 1) (G2.New c))).2 := rfl
      have hsv : sv = G2.sumLoop c bv1 (G2.Zero c) (G2.Zero c) := rfl
      have hrv : rv = G2.windowLoop c w numBits (points.map m.point) fuel (cur + w) bv2 := rfl
      clear_value rv sv bv2 bv1 rest m6 mw wj m5 ms my zb pw ml mb Bk ma mz za
      clear key keyv ih
      -- the bookkeeping
      obtain ⟨z1, z2, z3, z4⟩ := hz
      obtain ⟨a1, a2, a3⟩ := ha
      obtain ⟨b1, b2, b3, b4⟩ := hb
      have ma_next : ma.next = m.next + 1 := a1.trans z2
      have ma_acc : ma.point acc = G2.Zero c := by rw [a2, z1]; exact z3
      have ma_old : ∀ a, a < m.next → a ≠ acc → ma.point a = m.point a := by
        intro a h1 h2
        rw [a3 a h2]
        exact z4 a (by omega)
      rw [ma_next] at b1 b2 b3 b4
      have hmemB : ∀ a, a ∈ Bk ↔ m.next + 1 ≤ a ∧ a < m.next + 1 + (2 ^ w - 1) := by
        intro a
        rw [b1, List.mem_range'_1]
      have hpB : ∀ p ∈ points, p ∉ Bk := by
        intro p hpm hb
        have := (hmemB p).1 hb
        have := (hp p hpm).1
        omega
      obtain ⟨l1, l2, l3, l4⟩ := hl (by rw [b1]; exact List.nodup_range' _ _)
        (by rw [b1, List.length_range']) hpB
      have hptsB : points.map mb.point = points.map m.point := by
        apply List.map_congr_left
        intro p hpm
        obtain ⟨q1, q2, _⟩ := hp p hpm
        rw [b3 p (by omega), ma_old p q1 q2]
      have hbktB : Bk.map mb.point = List.replicate (2 ^ w - 1) (G2.New c) := by
        rw [b1]
        exact map_range_const _ _ _ _ b4
      rw [hptsB, hbktB, ← hbv2] at l2
      rw [hptsB, hbktB, ← hbv1] at l3
      have ml_next : ml.next = m.next + 1 + (2 ^ w - 1) := by rw [l1, b2]
      have ml_old : ∀ a, a < m.next + 1 → ml.point a = ma.point a := by
        intro a h1
        rw [l4 a (fun hb => by have := (hmemB a).1 hb; omega)]
        exact b3 a h1
      obtain ⟨y1, y2, y3, y4⟩ := hy
      obtain ⟨s1, s2, s3⟩ := hs
      have ms_next : ms.next = m.next + 1 + (2 ^ w - 1) + 1 := by rw [s1, y2, ml_next]
      have ms_sum : ms.point sum = G2.Zero c := by rw [s2, y1]; exact y3
      have ms_other : ∀ a, a ≠ sum → a < ml.next → ms.point a = ml.point a := by
        intro a h1 h2
        rw [s3 a h1]
        exact y4 a (by omega)
      obtain ⟨u1, u2, u3⟩ := hu (fun hb => by have := (hmemB acc).1 hb; omega)
        (fun hb => by have := (hmemB sum).1 hb; omega)
      have hbkt_ms : Bk.map ms.point = bv1 := by
        rw [← l3]
        apply List.map_congr_left
        intro b hb
        have hb2 := (hmemB b).1 hb
        exact ms_other b (by omega) (by rw [ml_next]; omega)
      have ms_acc : ms.point acc = G2.Zero c := by
        rw [ms_other acc hne (by rw [ml_next]; omega), ml_old acc (by omega), ma_acc]
      rw [hbkt_ms, ms_acc, ms_sum, ← hsv] at u2
      have m5_acc : m5.point acc = sv.1 := congrArg Prod.fst u2
      have m5_next : m5.next = m.next + 1 + (2 ^ w - 1) + 1 := u1.trans ms_next
      have m5_old : ∀ a, a < m.next → a ≠ acc → a ≠ sum → m5.point a = m.point a := by
        intro a h1 h2 h3
        rw [u3 a h2 h3, ms_other a h3 (by rw [ml_next]; omega), ml_old a (by omega),
          ma_old a h1 h2]
      obtain ⟨v1, v2, v3, v4⟩ := hv
      obtain ⟨t1, t2, t3⟩ := ht
      have hwj : wj = m.next + 1 + (2 ^ w - 1) + 1 := v1.trans m5_next
      have m6_next : m6.next = m.next + 1 + (2 ^ w - 1) + 1 + 1 := by rw [t1, v2, m5_next]
      have m6_wj : m6.point wj = sv.1 := by
        rw [t2, v4 acc (by rw [m5_next]; omega), m5_acc]
      have m6_old : ∀ a, a < m.next → a ≠ acc → a ≠ sum → m6.point a = m.point a := by
        intro a h1 h2 h3
        rw [t3 a (by rw [hwj]; omega), v4 a (by rw [m5_next]; omega), m5_old a h1 h2 h3]
      -- the remaining iterations
      obtain ⟨r1, r2, r3, r4, r5⟩ := hr (by rw [m6_next]; omega) (by rw [m6_next]; omega)
        (fun p hpm => ⟨by rw [m6_next]; have := (hp p hpm).1; omega, (hp p hpm).2⟩)
      have hpts6 : points.map m6.point = points.map m.point :=
        List.map_congr_left (fun p hpm => m6_old p (hp p hpm).1 (hp p hpm).2.1 (hp p hpm).2.2)
      rw [hpts6, l2, ← hrv] at r2 r3
      refine ⟨?_, r2, ?_, ?_, ?_⟩
      · show m.next ≤ rest.2.2.next
        omega
      · show (List.map rest.2.2.point (wj :: rest.1)) = sv.1 :: rv.1
        rw [List.map_cons, r3, r5 wj (by rw [hwj, m6_next]; omega) (by rw [hwj]; omega)
          (by rw [hwj]; omega), m6_wj]
      · intro wa hwa
        rcases List.mem_cons.1 hwa with h | h
        · rw [h, hwj]
          constructor
          · omega
          · show _ < rest.2.2.next
            omega
        · have := r4 wa h
          constructor
          · omega
          · exact this.2
      · intro a h1 h2 h3
        show rest.2.2.point a = _
        rw [r5 a (by rw [m6_next]; omega) h2 h3, m6_old a h1 h2 h3]
    · unfold G2.windowLoopAt G2.windowLoop
      rw [if_neg hcur, if_neg hcur]
      exact ⟨Nat.le_refl _, rfl, rfl, fun wa h => by simp at h, fun a _ _ _ => rfl⟩

/-- The body of `MultiExp` on pointers computes the value-level body on the
points at the input addresses, stores the result at `r`, and writes no other
point that was allocated before the call. -/
theorem multiExpWidthAt_spec (c : Consts) (w : Nat) (m : Mem) (r : Nat) (points : List Nat)
    (powers : List Nat) (hp : ∀ p ∈ points, p < m.next) :
    (G2.multiExpWidthAt c w m r points powers).ret = .ok r ∧
    (G2.multiExpWidthAt c w m r points powers).powers =
      (G2.multiExpWidth c w (points.map m.point) powers).powers ∧
    (G2.multiExpWidthAt c w m r points powers).mem.point r =
      (G2.multiExpWidth c w (points.map m.point) powers).r ∧
    ∀ a, a < m.next → a ≠ r →
      (G2.multiExpWidthAt c w m r points powers).mem.point a = m.point a := by
  let acc := (G2.NewAt c m).1
  let m1 := (G2.NewAt c m).2
  let sum := (G2.NewAt c m1).1
  let m2 := (G2.NewAt c m1).2
  let m3 := (G2.newLoopAt c (2 ^ w - 1) m2).2
  let ws := G2.windowLoopAt c w (bitLen c.q) points acc sum (bitLen c.q + 1) 0 powers m3
  let za := (G2.ZeroAt c ws.2.2).1
  let m4 := (G2.ZeroAt c ws.2.2).2
  let m5 := G2.CopyAt m4 acc za
  let m6 := G2.combineLoopAt c w acc ws.1 m5
  let m7 := G2.CopyAt m6 r acc
  have key : G2.multiExpWidthAt c w m r points powers = ⟨.ok r, m7, ws.2.1⟩ := rfl
  let wv := G2.windowLoop c w (bitLen c.q) (points.map m.point) (bitLen c.q + 1) 0 powers
  have keyv : G2.multiExpWidth c w (points.map m.point) powers =
      ⟨.ok (G2.combineLoop c w wv.1 (G2.Zero c)), G2.combineLoop c w wv.1 (G2.Zero c), wv.2⟩ :=
    rfl
  rw [key, keyv]
  have h1 : acc = m.next ∧ m1.next = m.next + 1 ∧ m1.point m.next = G2.Zero c ∧
      ∀ a, a ≠ m.next → m1.point a = m.point a := ZeroAt_spec c m
  have h2 : sum = m1.next ∧ m2.next = m1.next + 1 ∧ m2.point m1.next = G2.Zero c ∧
      ∀ a, a ≠ m1.next → m2.point a = m1.point a := ZeroAt_spec c m1
  have h3 : m3.next = m2.next + (2 ^ w - 1) ∧ (∀ a, a < m2.next → m3.point a = m2.point a) :=
    ⟨(newLoopAt_spec c (2 ^ w - 1) m2).2.1, (newLoopAt_spec c (2 ^ w - 1) m2).2.2.1⟩
  have hw : acc ≠ sum → acc < m3.next → sum < m3.next →
      (∀ p ∈ points, p < m3.next ∧ p ≠ acc ∧ p ≠ sum) →
      m3.next ≤ ws.2.2.next ∧
      ws.2.1 = (G2.windowLoop c w (bitLen c.q) (points.map m3.point) (bitLen c.q + 1) 0
        powers).2 ∧
      ws.1.map ws.2.2.point =
        (G2.windowLoop c w (bitLen c.q) (points.map m3.point) (bitLen c.q + 1) 0 powers).1 ∧
      (∀ wa ∈ ws.1, m3.next ≤ wa ∧ wa < ws.2.2.next) ∧
      (∀ a, a < m3.next → a ≠ acc → a ≠ sum → ws.2.2.point a = m3.point a) :=
    fun e1 e2 e3 e4 =>
      windowLoopAt_spec c w (bitLen c.q) points acc sum e1 (bitLen c.q + 1) 0 powers m3 e2 e3 e4
  have h4 : za = ws.2.2.next ∧ m4.next = ws.2.2.next + 1 ∧
      m4.point ws.2.2.next = G2.Zero c ∧
      ∀ a, a ≠ ws.2.2.next → m4.point a = ws.2.2.point a := ZeroAt_spec c ws.2.2
  have h5 : m5.next = m4.next ∧ m5.point acc = m4.point za ∧
      ∀ a, a ≠ acc → m5.point a = m4.point a := CopyAt_spec m4 acc za
  have h6 : acc ∉ ws.1 →
      m6.next = m5.next ∧
      m6.point acc = G2.combineLoop c w (ws.1.map m5.point) (m5.point acc) ∧
      ∀ a, a ≠ acc → m6.point a = m5.point a :=
    fun e1 => combineLoopAt_spec c w acc ws.1 e1 m5
  have h7 : m7.next = m6.next ∧ m7.point r = m6.point acc ∧
      ∀ a, a ≠ r → m7.point a = m6.point a := CopyAt_spec m6 r acc
  have hwv : wv = G2.windowLoop c w (bitLen c.q) (points.map m.point) (bitLen c.q + 1) 0
      powers := rfl
  clear_value wv m7 m6 m5 m4 za ws m3 m2 sum m1 acc
  clear key keyv
  obtain ⟨x1, x2, _, x4⟩ := h1
  obtain ⟨y1, y2, _, y4⟩ := h2
  obtain ⟨n3, f3⟩ := h3
  have hacc : acc = m.next := x1
  have hsum : sum = m.next + 1 := by rw [y1, x2]
  have m3_next : m3.next = m.next + 1 + 1 + (2 ^ w - 1) := by rw [n3, y2, x2]
  have m3_old : ∀ a, a < m.next → m3.point a = m.point a := by
    intro a h
    rw [f3 a (by rw [y2, x2]; omega), y4 a (by rw [x2]; omega), x4 a (by omega)]
  obtain ⟨w1, w2, w3, w4, w5⟩ := hw (by omega) (by rw [m3_next]; omega)
    (by rw [m3_next]; omega)
    (fun p hpm => ⟨by rw [m3_next]; have := hp p hpm; omega, by have := hp p hpm; omega,
      by have := hp p hpm; omega⟩)
  have hpts : points.map m3.point = points.map m.point :=
    List.map_congr_left (fun p hpm => m3_old p (hp p hpm))
  rw [hpts, ← hwv] at w2 w3
  obtain ⟨z1, _, z3, z4⟩ := h4
  obtain ⟨c1, c2, c3⟩ := h5
  have haw : acc ∉ ws.1 := fun h => by have := (w4 acc h).1; omega
  obtain ⟨d1, d2, d3⟩ := h6 haw
  obtain ⟨e1, e2, e3⟩ := h7
  have m5_acc : m5.point acc = G2.Zero c := by rw [c2, z1]; exact z3
  have m5_ws : ws.1.map m5.point = wv.1 := by
    rw [← w3]
    apply List.map_congr_left
    intro wa hwa
    have := w4 wa hwa
    rw [c3 wa (by omega), z4 wa (by omega)]
  rw [m5_ws, m5_acc] at d2
  refine ⟨rfl, w2, ?_, ?_⟩
  · show m7.point r = _
    rw [e2, d2]
  · intro a h1 h2
    show m7.point a = _
    rw [e3 a h2, d3 a (by omega), c3 a (by omega), z4 a (by omega),
      w5 a (by rw [m3_next]; omega) (by omega) (by omega), m3_old a h1]

/-- The method `MultiExp` on pointers and the method on values agree: for equal
lengths the call stores at `r` the result computed from the points at the
input addresses, leaves the same scalar list, and writes no other point that
was allocated before the call. -/
theorem MultiExpAt_refines (c : Consts) (m : Mem) (r : Nat) (points : List Nat)
    (powers : List Nat) (hp : ∀ p ∈ points, p < m.next)
    (hlen : points.length = powers.length) :
    (G2.MultiExpAt c m r points powers).ret = .ok r ∧
    (G2.MultiExpAt c m r points powers).powers =
      (G2.MultiExp c (m.point r) (points.map m.point) powers).powers ∧
    (G2.MultiExpAt c m r points powers).mem.point r =
      (G2.MultiExp c (m.point r) (points.map m.point) powers).r ∧
    ∀ a, a < m.next → a ≠ r → (G2.MultiExpAt c m r points powers).mem.point a = m.point a := by
  have hlen' : (points.map m.point).length = powers.length := by
    rw [List.length_map]; exact hlen
  unfold G2.MultiExpAt G2.MultiExp
  rw [if_neg (not_not.2 hlen), if_neg (not_not.2 hlen')]
  exact multiExpWidthAt_spec c _ m r points powers hp

/-- The scalar list a successful `MultiExp` leaves: every scalar shifted right
by the bits of all windows. -/
theorem MultiExp_powers (c : Consts) (r : PointG2) (points : List PointG2) (powers : List Nat)
    (hlen : points.length = powers.length) (hn : points.length < 2 ^ 63) :
    (G2.MultiExp c r points powers).powers =
      powers.map (fun e => e >>> (G2.windowWidth powers.length *
        (bitLen c.q / G2.windowWidth powers.length + 1))) := by
  have hb := windowWidth_bounds powers.length (hlen ▸ hn)
  unfold G2.MultiExp
  rw [if_neg (not_not.2 hlen)]
  unfold G2.multiExpWidth
  simp only
  rw [windowLoop_powers _ _ _ _ _ _ _ hlen,
    windowLoop_length c _ _ hb.1 _ _ _ _ (by omega), Nat.sub_zero,
    Nat.add_div_right _ (by omega)]
  apply List.map_congr_left
  intro e _
  rw [Nat.shiftRight_eq_div_pow]

theorem Mem.ofList_point (ps : List PointG2) (a : Nat) :
    (Mem.ofList ps).point a = ps.getD a ⟨⟨0, 0⟩, ⟨0, 0⟩, ⟨0, 0⟩⟩ := rfl

/-! ## What a call of `MultiExp` leaves in memory -/

/-- C28, counterexample: the generator is allocated at address 0 and passed
both as the only input point and as the destination `r`, with the scalar 2.
The call succeeds, and afterwards address 0 holds the result, not the
generator: the input point was not left unchanged. -/
theorem MultiExp_overwrites_aliased_input :
    (Mem.ofList [gen]).point 0 = gen ∧
    (G2.MultiExpAt bls (Mem.ofList [gen]) 0 [0] [2]).ret = .ok 0 ∧
    (G2.MultiExpAt bls (Mem.ofList [gen]) 0 [0] [2]).mem.point 0 ≠ gen := by
  have h := MultiExpAt_refines bls (Mem.ofList [gen]) 0 [0] [2] (by decide) rfl
  refine ⟨rfl, h.1, ?_⟩
  rw [h.2.2.1]
  set_option maxRecDepth 100000 in decide!

/-- C28, amended: a successful call of `MultiExp` (equal lengths, input points
allocated before the call) replaces entry `i` of the caller's scalar list by
the original scalar shifted right by `w * (numBits / w + 1)` bits, and leaves
every point allocated before the call unchanged except the one at the
destination address `r`, which receives the result, also when `r` is the
address of an input point. -/
theorem MultiExp_frame (c : Consts) (m : Mem) (r : Nat) (points : List Nat)
    (powers : List Nat) (hp : ∀ p ∈ points, p < m.next)
    (hlen : points.length = powers.length) (hn : points.length < 2 ^ 63) :
    (G2.MultiExpAt c m r points powers).ret = .ok r ∧
    (G2.MultiExpAt c m r points powers).powers =
      powers.map (fun e => e >>> (G2.windowWidth powers.length *
        (bitLen c.q / G2.windowWidth powers.length + 1))) ∧
    (∀ a, a < m.next → a ≠ r →
      (G2.MultiExpAt c m r points powers).mem.point a = m.point a) ∧
    (G2.MultiExpAt c m r points powers).mem.point r =
      (G2.MultiExp c (m.point r) (points.map m.point) powers).r := by
  obtain ⟨h1, h2, h3, h4⟩ := MultiExpAt_refines c m r points powers hp hlen
  refine ⟨h1, ?_, h4, h3⟩
  rw [h2]
  exact MultiExp_powers c _ _ powers (by rw [List.length_map]; exact hlen)
    (by rw [List.length_map]; exact hn)

/-- C28 amended, on BLS12-381: the input points at the addresses 0 and 1, the
destination at address 2, and the scalars `5` and `2^259 + 1`. -/
theorem MultiExp_frame_witness :
    (∀ p ∈ [0, 1], p < (Mem.ofList [gen, pointYInFp, G2.Zero bls]).next) ∧
    (G2.MultiExpAt bls (Mem.ofList [gen, pointYInFp, G2.Zero bls]) 2 [0, 1]
      [5, 2 ^ 259 + 1]).powers = [0, 2] ∧
    (G2.MultiExpAt bls (Mem.ofList [gen, pointYInFp, G2.Zero bls]) 2 [0, 1]
      [5, 2 ^ 259 + 1]).mem.point 0 = gen ∧
    (G2.MultiExpAt bls (Mem.ofList [gen, pointYInFp, G2.Zero bls]) 2 [0, 1]
      [5, 2 ^ 259 + 1]).mem.point 1 = pointYInFp :=
  have h := MultiExp_frame bls (Mem.ofList [gen, pointYInFp, G2.Zero bls]) 2 [0, 1]
    [5, 2 ^ 259 + 1] (by decide) rfl (by decide)
  ⟨by decide, h.2.1.trans (by set_option maxRecDepth 100000 in decide!),
    h.2.2.1 0 (by decide) (by decide), h.2.2.1 1 (by decide) (by decide)⟩

end Bls12381
